import Mathlib

/-!
# SecretBase: the `.env` parser, the `.env.example` reconciler, the store and the sync paths

A shallow embedding of `cmd/setup.go`, `cmd/shareSecrets.go`, `cmd/grabSecrets.go` and
`db/db.go`.

Go strings are modelled as the sequence of their code points (`List Char`): the
texts handled are UTF-8 files, and every operation the program applies to them
(`strings.Split`, `strings.Contains`, `strings.SplitN`, `strings.Index`,
`strings.HasPrefix` with an ASCII separator, and `strings.TrimSpace`) acts on a
valid UTF-8 string exactly as the functions below act on its code points.
Comparison of strings (`sort.Strings`) is byte-wise, so it is defined on the
UTF-8 encoding.
-/

namespace SecretBase

/-- A Go string, as the list of its code points. -/
abbrev Str := List Char

/-! ## The Go standard library functions the program calls -/

/-- The apostrophe, which the reconciler writes twice for an empty value. -/
def quote : Char := Char.ofNat 39

/-- Go `unicode.IsSpace`: the Latin-1 spaces and the `White_Space` table. -/
def isSpace (c : Char) : Bool :=
  let n := c.toNat
  (9 ≤ n && n ≤ 13) || n == 32 || n == 133 || n == 160 || n == 5760 ||
  (8192 ≤ n && n ≤ 8202) || n == 8232 || n == 8233 || n == 8239 || n == 8287 ||
  n == 12288

/-- Go `strings.TrimLeftFunc(s, unicode.IsSpace)`. -/
def trimLeft (s : Str) : Str := s.dropWhile isSpace

/-- Go `strings.TrimRightFunc(s, unicode.IsSpace)`. -/
def trimRight (s : Str) : Str := (s.reverse.dropWhile isSpace).reverse

/-- Go `strings.TrimSpace`. -/
def trimSpace (s : Str) : Str := trimRight (trimLeft s)

/-- Go `strings.Split(s, sep)` for a one-character separator: the pieces between
the occurrences of `sep`, always at least one piece. -/
def split (sep : Char) : Str → List Str
  | [] => [[]]
  | c :: cs =>
    if c = sep then [] :: split sep cs
    else
      match split sep cs with
      | [] => [[c]]
      | l :: ls => (c :: l) :: ls

/-- Go `strings.Join(lines, sep)` for a one-character separator. -/
def join (sep : Char) : List Str → Str
  | [] => []
  | [l] => l
  | l :: l2 :: ls => l ++ sep :: join sep (l2 :: ls)

/-- Go `strings.Contains(s, sep)` for a one-character separator. -/
def contains (s : Str) (sep : Char) : Bool := s.elem sep

/-- Go `strings.SplitN(s, sep, 2)` for a one-character separator: `[s]` when
`sep` does not occur, else the text before and the text after its first
occurrence. -/
def splitN2 (sep : Char) (s : Str) : List Str :=
  if contains s sep then
    [s.takeWhile (fun c => c != sep), (s.dropWhile (fun c => c != sep)).drop 1]
  else [s]

/-- Go `strings.Index(s, sep)` for a one-character separator; `none` is `-1`. -/
def index (sep : Char) : Str → Option Nat
  | [] => none
  | c :: cs => if c = sep then some 0 else (index sep cs).map (fun i => i + 1)

/-- Go `strings.HasPrefix(s, p)` for a one-character prefix. -/
def hasPrefix (s : Str) (p : Char) : Bool :=
  match s with
  | [] => false
  | c :: _ => c == p

/-- The UTF-8 encoding of a code point, as Go stores it in a string. -/
def utf8 (c : Char) : List Nat :=
  let n := c.toNat
  if n < 128 then [n]
  else if n < 2048 then [192 + n / 64, 128 + n % 64]
  else if n < 65536 then [224 + n / 4096, 128 + n / 64 % 64, 128 + n % 64]
  else [240 + n / 262144, 128 + n / 4096 % 64, 128 + n / 64 % 64, 128 + n % 64]

/-- The bytes of a Go string. -/
def bytes (s : Str) : List Nat := s.flatMap utf8

/-- Lexicographic `a <= b` on byte sequences. -/
def bytesLe : List Nat → List Nat → Bool
  | [], _ => true
  | _ :: _, [] => false
  | x :: xs, y :: ys => decide (x < y) || (x == y && bytesLe xs ys)

/-- Go's string comparison `a <= b`: byte-wise lexicographic. -/
def strLe (a b : Str) : Prop := bytesLe (bytes a) (bytes b) = true

instance : DecidableRel strLe := fun a b =>
  inferInstanceAs (Decidable (bytesLe (bytes a) (bytes b) = true))

/-- Go `sort.Strings`: the ascending arrangement of the given strings. -/
def sortStrings (l : List Str) : List Str := l.insertionSort strLe

/-! ## Go maps from string to string -/

/-- A Go `map[string]string`: the entries, at most one per key. The order of the
entries carries no meaning (Go iterates a map in an unspecified order). -/
abbrev GoMap := List (Str × Str)

namespace GoMap

/-- The assignment `m[k] = v`. -/
def set (m : GoMap) (k v : Str) : GoMap := (k, v) :: m.filter (fun p => p.1 != k)

/-- The two-valued read `v, ok := m[k]`. -/
def get? (m : GoMap) (k : Str) : Option Str := m.lookup k

/-- The read `m[k]`, the empty string when `k` is absent. -/
def get (m : GoMap) (k : Str) : Str := (m.lookup k).getD []

/-- The keys `for key := range m` visits. -/
def keys (m : GoMap) : List Str := m.map Prod.fst

end GoMap

/-! ## `cmd/setup.go` -/

/-- The loop body of `extractKeys`: one line of the content. -/
def extractKeysStep (keys : GoMap) (line : Str) : GoMap :=
  let trimmedLine := trimSpace line
  if contains trimmedLine '=' then
    let key := (splitN2 '=' trimmedLine).headD []
    keys.set key trimmedLine
  else keys

/-- `extractKeys` of `cmd/setup.go`. -/
def extractKeys (content : Str) : GoMap :=
  (split '\n' content).foldl extractKeysStep []

/-- `createNewLine` of `cmd/setup.go`; `none` is the index-out-of-range panic of
`keyValue[1]` on a line without `=`. -/
def createNewLine (key line : Str) : Option Str :=
  let keyValue := splitN2 '=' line
  match keyValue[1]? with
  | none => none
  | some value =>
    match index '#' value with
    | some commentIndex =>
      let comment := value.drop commentIndex
      some (key ++ ['=', quote, quote, ' '] ++ comment)
    | none => some (key ++ ['=', quote, quote])

/-- The loop `for _, key := range sortedKeys` of `updateEnvExampleFile`, with
`f` the line chosen for a key; a panic ends it. -/
def appendLines (f : Str → Option Str) : List Str → Option (List Str)
  | [] => some []
  | key :: rest =>
    match f key with
    | none => none
    | some line =>
      match appendLines f rest with
      | none => none
      | some lines => some (line :: lines)

/-- The sorted key list of `updateEnvExampleFile`. -/
def sortedKeys (envKeys : GoMap) : List Str := sortStrings envKeys.keys

/-- The lines `updateEnvExampleFile` builds (`updatedExampleLines`); `example_`
is the content of the existing `.env.example`, `none` when the file does not
exist (`os.IsNotExist`). A failure to read an existing file is not modelled. `none` as
result is a panic of `createNewLine`. -/
def updateEnvExampleLines (envKeys : GoMap) (example_ : Option Str) : Option (List Str) :=
  match example_ with
  | none => appendLines (fun key => createNewLine key (envKeys.get key)) (sortedKeys envKeys)
  | some exampleContent =>
    let exampleKeys := extractKeys exampleContent
    appendLines (fun key =>
      match exampleKeys.get? key with
      | some existingLine => some existingLine
      | none => createNewLine key (envKeys.get key)) (sortedKeys envKeys)

/-- The content `writeEnvExampleFile` writes. -/
def writeEnvExampleFile (lines : List Str) : Str := join '\n' lines

/-- `updateEnvExampleFile` of `cmd/setup.go`: the new content of the example
file. -/
def updateEnvExampleFile (envKeys : GoMap) (example_ : Option Str) : Option Str :=
  (updateEnvExampleLines envKeys example_).map writeEnvExampleFile

/-- The text before the first `=` of a line. -/
def definedKey (line : Str) : Str := line.takeWhile (fun c => c != '=')

/-! ## Predicates used in the statements -/

/-- A string that does not start with white space. -/
def NoLead (s : Str) : Prop := ∀ c, s.head? = some c → isSpace c = false

/-- A string that does not end with white space. -/
def NoTrail (s : Str) : Prop := ∀ c, s.getLast? = some c → isSpace c = false

instance (s : Str) : Decidable (NoLead s) :=
  match h : s.head? with
  | none => isTrue (fun c hc => by rw [h] at hc; cases hc)
  | some d =>
    if hd : isSpace d = false then
      isTrue (fun c hc => by rw [h] at hc; cases hc; exact hd)
    else isFalse (fun hn => hd (hn d h))

instance (s : Str) : Decidable (NoTrail s) :=
  match h : s.getLast? with
  | none => isTrue (fun c hc => by rw [h] at hc; cases hc)
  | some d =>
    if hd : isSpace d = false then
      isTrue (fun c hc => by rw [h] at hc; cases hc; exact hd)
    else isFalse (fun hn => hd (hn d h))


/-- The line defines the key `k`: trimmed, it contains `=` and `k` is the text
before its first `=`. -/
def definesKey (line k : Str) : Bool :=
  contains (trimSpace line) '=' && (definedKey (trimSpace line) == k)

/-- The text after the first `=` of a line. -/
def valuePart (line : Str) : Str := (line.dropWhile (fun c => c != '=')).drop 1

/-- A well-formed example line for the key `k`: it holds `=`, the text before its
first `=` is `k`, it has no surrounding white space and no line break. -/
def GoodLine (k l : Str) : Prop :=
  '=' ∈ l ∧ definedKey l = k ∧ NoLead l ∧ NoTrail l ∧ '\n' ∉ l

/-! ## `bufio.Scanner` -/

/-- Go `bufio.MaxScanTokenSize`. -/
def maxScanTokenSize : Nat := 65536

/-- The `dropCR` of Go `bufio.ScanLines`: one trailing carriage return is
dropped. -/
def dropCR (s : Str) : Str := if s.getLast? = some '\r' then s.dropLast else s

/-- The pieces `bufio.ScanLines` cuts the content into: the text between line
breaks, without a final empty piece. -/
def scanPieces (content : Str) : List Str :=
  let pieces := split '\n' content
  if pieces.getLast? = some [] then pieces.dropLast else pieces

/-- The lines `scanner.Scan` / `scanner.Text` deliver, and whether the scanner
stopped with `bufio.ErrTooLong` (`scanner.Err() != nil`): a piece of
`maxScanTokenSize` bytes or more ends the scan. -/
def scan : List Str → List Str × Bool
  | [] => ([], false)
  | piece :: rest =>
    if maxScanTokenSize ≤ (bytes piece).length then ([], true)
    else ((dropCR piece) :: (scan rest).1, (scan rest).2)

/-! ## `db/db.go`

Modelled from the spec: the schema of the store is not among the sources; the
tables and columns are those of the spec, section 6 (`projects(id, name,
active)`, `environments(id, project_id, environment_type)`, `secrets(id, key,
value, location, creator_id)`, `environment_secrets(environment_id,
secret_id)`). The statements are those of `db/db.go`, with the meaning SQLite
gives them: a join enumerates the matching row combinations, a scalar subquery
is the first row of its result or NULL, and a new row receives an id larger
than every id in use (larger than every id ever used when the column is
`AUTOINCREMENT`). Failures of the connection are not modelled.
-/

/-- A row of `projects`. -/
structure ProjectRow where
  id : Nat
  name : Str
  active : Bool
  deriving DecidableEq

/-- A row of `environments`. -/
structure EnvironmentRow where
  id : Nat
  projectId : Nat
  environmentType : Str
  deriving DecidableEq

/-- A row of `secrets`. -/
structure SecretRow where
  id : Nat
  key : Str
  value : Str
  location : Str
  creatorId : Nat
  deriving DecidableEq

/-- A row of `environment_secrets`. -/
structure LinkRow where
  environmentId : Nat
  secretId : Nat
  deriving DecidableEq

/-- The store: its four tables, and how SQLite numbers the rows of `secrets`
(`autoIncrement` with the largest id ever used, `secretSeq`, or the largest id
in use). -/
structure Store where
  projects : List ProjectRow
  environments : List EnvironmentRow
  secrets : List SecretRow
  environmentSecrets : List LinkRow
  autoIncrement : Bool
  secretSeq : Nat
  deriving DecidableEq

/-- The rows one row `s` of `secrets` contributes to `secrets s INNER JOIN
environment_secrets es ON s.id = es.secret_id INNER JOIN environments e ON
es.environment_id = e.id INNER JOIN projects p ON e.project_id = p.id WHERE
p.name = ? AND e.environment_type = ?`: one per matching combination of a
link, an environment and a project. -/
def secretRows (st : Store) (projectName environmentType : Str) (s : SecretRow) :
    List SecretRow :=
  st.environmentSecrets.flatMap fun es =>
    if s.id = es.secretId then
      st.environments.flatMap fun e =>
        if es.environmentId = e.id then
          st.projects.flatMap fun p =>
            if e.projectId = p.id ∧ p.name = projectName ∧
                e.environmentType = environmentType then [s] else []
        else []
    else []

/-- The rows of the four-table join the queries on secrets share, each given by
its `secrets` row. -/
def joinedSecrets (st : Store) (projectName environmentType : Str) : List SecretRow :=
  st.secrets.flatMap (secretRows st projectName environmentType)

/-- The rows of `SELECT e.id FROM environments e INNER JOIN projects p ON
e.project_id = p.id WHERE p.name = ? AND e.environment_type = ?`. -/
def environmentIds (st : Store) (projectName environmentType : Str) : List Nat :=
  st.environments.flatMap fun e =>
    st.projects.flatMap fun p =>
      if e.projectId = p.id ∧ p.name = projectName ∧ e.environmentType = environmentType
      then [e.id] else []

/-- `ProjectExists` of `db/db.go`. -/
def ProjectExists (st : Store) (name : Str) : Bool :=
  decide (0 < (st.projects.filter fun p => p.name = name).length)

/-- `SecretExists` of `db/db.go`. -/
def SecretExists (st : Store) (key projectName environmentType : Str) : Bool :=
  decide (0 < ((joinedSecrets st projectName environmentType).filter fun s => s.key = key).length)

/-- The id SQLite gives the next row of `secrets`. -/
def newSecretId (st : Store) : Nat :=
  (if st.autoIncrement then max st.secretSeq ((st.secrets.map fun s => s.id).foldr max 0)
   else (st.secrets.map fun s => s.id).foldr max 0) + 1

/-- `CreateSecret` of `db/db.go`; `none` is the error `error finding environment
ID`, returned before any statement changes the store. -/
def CreateSecret (st : Store) (key value location projectName environmentType : Str) :
    Option Store :=
  match (environmentIds st projectName environmentType).head? with
  | none => none
  | some environmentID =>
    let secretID := newSecretId st
    some { st with
      secrets := st.secrets ++ [⟨secretID, key, value, location, 1⟩]
      environmentSecrets := st.environmentSecrets ++ [⟨environmentID, secretID⟩]
      secretSeq := if st.autoIncrement then secretID else st.secretSeq }

/-- The scalar subquery of `UpdateSecret` and `DeleteSecret`: the id of the first
joined row with the key, `none` for NULL. -/
def matchingSecretId (st : Store) (key projectName environmentType : Str) : Option Nat :=
  (((joinedSecrets st projectName environmentType).filter fun s => s.key = key).map
    fun s => s.id).head?

/-- `UpdateSecret` of `db/db.go`. -/
def UpdateSecret (st : Store) (key value location projectName environmentType : Str) : Store :=
  match matchingSecretId st key projectName environmentType with
  | none => st
  | some target =>
    { st with secrets := st.secrets.map fun s =>
        if s.id = target then { s with value := value, location := location } else s }

/-- `GetAllSecretsKeys` of `db/db.go`. -/
def GetAllSecretsKeys (st : Store) (projectName environmentType : Str) : List Str :=
  (joinedSecrets st projectName environmentType).map fun s => s.key

/-- `DeleteSecret` of `db/db.go`. -/
def DeleteSecret (st : Store) (key projectName environmentType : Str) : Store :=
  match matchingSecretId st key projectName environmentType with
  | none => st
  | some target => { st with secrets := st.secrets.filter fun s => s.id ≠ target }

/-- `GetSecrets` of `db/db.go`: key, value and location of every joined row. -/
def GetSecrets (st : Store) (projectName environmentType : Str) : List (Str × Str × Str) :=
  (joinedSecrets st projectName environmentType).map fun s => (s.key, s.value, s.location)

/-! ## `cmd/shareSecrets.go` -/

/-- The parse of one scanned line in `handleEnvFiles`: `none` when the loop
continues without a secret, else the key and the value. -/
def pushParseLine (text : Str) : Option (Str × Str) :=
  let line := trimSpace text
  if hasPrefix line '#' || line == [] then none
  else
    let line :=
      match index '#' line with
      | some i => trimSpace (line.take i)
      | none => line
    let parts := splitN2 '=' line
    if parts.length != 2 then none
    else
      let key := trimSpace (parts.headD [])
      let value := trimSpace (parts.getD 1 [])
      some (key, value)

/-- A regular file with extension `.env` met by `filepath.Walk`: `relativePath`
is the directory of the file relative to the root (`filepath.Rel(root,
filepath.Dir(path))`), `content` its text. Errors of the walk itself and of
`os.Open` are not modelled. -/
structure EnvFile where
  relativePath : Str
  content : Str
  deriving DecidableEq

/-- The `for scanner.Scan()` loop of `handleEnvFiles` over the lines of one file.
`localKeys` lists the keys set to true. An error (`Except.error`) carries the
store as the statements before it left it. -/
def pushLines (projectName environmentType relativePath : Str) :
    List Str → Store × List Str → Except Store (Store × List Str)
  | [], acc => .ok acc
  | text :: rest, (st, localKeys) =>
    match pushParseLine text with
    | none => pushLines projectName environmentType relativePath rest (st, localKeys)
    | some (key, value) =>
      let localKeys := key :: localKeys
      if SecretExists st key projectName environmentType then
        pushLines projectName environmentType relativePath rest
          (UpdateSecret st key value relativePath projectName environmentType, localKeys)
      else
        match CreateSecret st key value relativePath projectName environmentType with
        | none => .error st
        | some st2 => pushLines projectName environmentType relativePath rest (st2, localKeys)

/-- The walk callback of `handleEnvFiles` on one `.env` file. -/
def pushFile (projectName environmentType : Str) (file : EnvFile)
    (acc : Store × List Str) : Except Store (Store × List Str) :=
  let scanned := scan (scanPieces file.content)
  match pushLines projectName environmentType file.relativePath scanned.1 acc with
  | .error st => .error st
  | .ok acc2 => if scanned.2 then .error acc2.1 else .ok acc2

/-- The walk of `handleEnvFiles` over the `.env` files, in the order of the
walk; the first error ends it. -/
def pushFiles (projectName environmentType : Str) :
    List EnvFile → Store × List Str → Except Store (Store × List Str)
  | [], acc => .ok acc
  | file :: rest, acc =>
    match pushFile projectName environmentType file acc with
    | .error st => .error st
    | .ok acc2 => pushFiles projectName environmentType rest acc2

/-- `deleteUnusedSecrets` of `cmd/shareSecrets.go`. -/
def deleteUnusedSecrets (st : Store) (projectName environmentType : Str)
    (localKeys : List Str) : Store :=
  (GetAllSecretsKeys st projectName environmentType).foldl
    (fun st key =>
      if !localKeys.contains key then DeleteSecret st key projectName environmentType else st)
    st

/-- `handleEnvFiles` of `cmd/shareSecrets.go` on the `.env` files under the
working directory: the store it leaves, as `Except.ok` when it returns nil and
as `Except.error` when it returns an error. -/
def handleEnvFiles (st : Store) (projectName environmentType : Str) (files : List EnvFile) :
    Except Store Store :=
  match pushFiles projectName environmentType files (st, []) with
  | .error st2 => .error st2
  | .ok (st2, localKeys) => .ok (deleteUnusedSecrets st2 projectName environmentType localKeys)

/-- The keys the push parser finds in the `.env` files. -/
def parsedKeys (files : List EnvFile) : List Str :=
  files.flatMap fun file =>
    (scan (scanPieces file.content)).1.filterMap fun text =>
      (pushParseLine text).map Prod.fst

/-- The secret id is linked to an environment of the given type of a project of
the given name. -/
def Linked (st : Store) (projectName environmentType : Str) (id : Nat) : Prop :=
  ∃ es ∈ st.environmentSecrets, id = es.secretId ∧
    ∃ e ∈ st.environments, es.environmentId = e.id ∧
      ∃ p ∈ st.projects, e.projectId = p.id ∧ p.name = projectName ∧
        e.environmentType = environmentType

/-- The primary key of `secrets`: no two rows share an id. -/
def SecretIdsUnique (st : Store) : Prop := (st.secrets.map SecretRow.id).Nodup

instance (st : Store) : Decidable (SecretIdsUnique st) :=
  inferInstanceAs (Decidable (st.secrets.map SecretRow.id).Nodup)

/-- A store with the project `p`, its development environment and one secret,
`OLD`. -/
def demoStore : Store :=
  { projects := [⟨1, ['p'], true⟩]
    environments := [⟨1, 1, "development".toList⟩]
    secrets := [⟨1, "OLD".toList, ['x'], ['.'], 1⟩]
    environmentSecrets := [⟨1, 1⟩]
    autoIncrement := false
    secretSeq := 0 }

/-- A working directory with one `.env` file at its root. -/
def demoFiles : List EnvFile := [⟨['.'], "A=1\nB=2 # c\n".toList⟩]

/-! ## `handleSingleSecret` of `cmd/shareSecrets.go` -/

/-- A call of `handleSingleSecret` into `db/db.go`, with its arguments after the
connection. -/
inductive DbCall where
  | secretExists (key projectName environmentType : Str)
  | updateSecret (key value location projectName environmentType : Str)
  | createSecret (key value location projectName environmentType : Str)
  deriving DecidableEq

/-- The errors `handleSingleSecret` returns: `invalid format for --secret flag`
and `error creating secret`. -/
inductive SingleError where
  | invalidFormat
  | creatingSecret
  deriving DecidableEq

/-- What a run of `handleSingleSecret` leaves: the store, the calls into
`db/db.go` in the order they were issued, and the error returned (`none` for
nil). -/
structure SingleOutcome where
  store : Store
  calls : List DbCall
  error : Option SingleError
  deriving DecidableEq

/-- `handleSingleSecret` of `cmd/shareSecrets.go`. -/
def handleSingleSecret (st : Store) (projectName environmentType secretPair : Str) :
    SingleOutcome :=
  let parts := splitN2 '=' secretPair
  if parts.length != 2 then ⟨st, [], some .invalidFormat⟩
  else
    let key := trimSpace (parts.headD [])
    let value := trimSpace (parts.getD 1 [])
    let location := ['.']
    if SecretExists st key projectName environmentType then
      ⟨UpdateSecret st key value location projectName environmentType,
        [.secretExists key projectName environmentType,
          .updateSecret key value location projectName environmentType], none⟩
    else
      match CreateSecret st key value location projectName environmentType with
      | none =>
        ⟨st, [.secretExists key projectName environmentType,
          .createSecret key value location projectName environmentType], some .creatingSecret⟩
      | some st2 =>
        ⟨st2, [.secretExists key projectName environmentType,
          .createSecret key value location projectName environmentType], none⟩

/-! ## `CreateProject` of `db/db.go` -/

/-- The errors of `CreateProject`: `a project with the name ... already exists`
and `failed to create project`. -/
inductive ProjectError where
  | alreadyExists
  | failedToCreate
  deriving DecidableEq

/-- The id SQLite gives the next row of `projects`. Rows of `projects` are never
deleted, so the largest id in use is the largest id ever used. -/
def newProjectId (st : Store) : Nat := (st.projects.map fun p => p.id).foldr max 0 + 1

/-- The id SQLite gives the next row of `environments`. -/
def newEnvironmentId (environments : List EnvironmentRow) : Nat :=
  (environments.map fun e => e.id).foldr max 0 + 1

/-- The loop `for _, envType := range envTypes` of `CreateProject`. -/
def insertEnvironments (projectID : Nat) (envTypes : List Str)
    (environments : List EnvironmentRow) : List EnvironmentRow :=
  envTypes.foldl
    (fun envs envType => envs ++ [⟨newEnvironmentId envs, projectID, envType⟩]) environments

/-- Modelled from the spec: the column `name` of `projects` is unique (spec,
section 6), so the statement `INSERT INTO projects (name, active)` fails when a
row with the name exists. -/
def insertProjectFails (st : Store) (name : Str) : Bool :=
  decide ((st.projects.filter fun p => p.name = name) ≠ [])

/-- `CreateProject` of `db/db.go`: the store it leaves and the error it returns
(`none` for nil). -/
def CreateProject (st : Store) (name : Str) : Store × Option ProjectError :=
  let existingID := (((st.projects.filter fun p => p.name = name).map fun p => p.id).head?).getD 0
  if existingID ≠ 0 then (st, some .alreadyExists)
  else if insertProjectFails st name then (st, some .failedToCreate)
  else
    let projectID := newProjectId st
    let envTypes := ["development".toList, "staging".toList, "production".toList]
    ({ st with
      projects := st.projects ++ [⟨projectID, name, true⟩]
      environments := insertEnvironments projectID envTypes st.environments }, none)

/-! ## `processSecrets` of `cmd/grabSecrets.go` -/

/-- The loop of Go `filepath.Clean` over the elements of a path, `stack` holding
the kept elements, last first. -/
def cleanElements (rooted : Bool) : List Str → List Str → List Str
  | [], stack => stack.reverse
  | elem :: rest, stack =>
    if elem = [] ∨ elem = ['.'] then cleanElements rooted rest stack
    else if elem = ['.', '.'] then
      match stack with
      | top :: below =>
        if top = ['.', '.'] then cleanElements rooted rest (elem :: stack)
        else cleanElements rooted rest below
      | [] => if rooted then cleanElements rooted rest [] else cleanElements rooted rest [elem]
    else cleanElements rooted rest (elem :: stack)

/-- Go `filepath.Clean` with the separator `/`. -/
def filepathClean (path : Str) : Str :=
  if path = [] then ['.']
  else
    let rooted := hasPrefix path '/'
    let body := join '/' (cleanElements rooted (split '/' path) [])
    if rooted then '/' :: body else if body = [] then ['.'] else body

/-- Go `filepath.Join` of two elements with the separator `/`. -/
def filepathJoin (a b : Str) : Str :=
  if a ≠ [] then filepathClean (a ++ '/' :: b)
  else if b ≠ [] then filepathClean b
  else []

/-- A Go `map[string]map[string]string`: location to key to value. -/
abbrev LocationMap := List (Str × GoMap)

/-- The loop body of the grouping in `processSecrets`: one secret, given as key,
value and location. -/
def groupStep (secretsByLocation : LocationMap) (secret : Str × Str × Str) : LocationMap :=
  let kvPairs := (secretsByLocation.lookup secret.2.2).getD []
  (secret.2.2, kvPairs.set secret.1 secret.2.1) ::
    secretsByLocation.filter (fun p => p.1 != secret.2.2)

/-- The grouping of `processSecrets`: `secretsByLocation`. -/
def groupByLocation (secrets : List (Str × Str × Str)) : LocationMap :=
  secrets.foldl groupStep []

/-- A file `processSecrets` opens with `O_TRUNC`: the location it is written
for, its path, and the strings written to it in order. -/
structure FileWrite where
  location : Str
  path : Str
  written : List Str
  deriving DecidableEq

/-- The path `processSecrets` resolves a location to. -/
def envFilePath (location : Str) : Str :=
  if location = ['.'] then "./.env".toList else filepathJoin location ".env".toList

/-- The string `fmt.Sprintf("%s=%s\n", key, value)`. -/
def envLine (key value : Str) : Str := key ++ '=' :: value ++ ['\n']

/-- The loop `for location, kvPairs := range secretsByLocation` of
`processSecrets` on the secrets fetched: the files written. Go visits the
entries of both maps in an unspecified order; the lists give one such order.
Failures of the file system are not modelled. -/
def writeSecrets (secrets : List (Str × Str × Str)) : List FileWrite :=
  (groupByLocation secrets).map fun entry =>
    ⟨entry.1, envFilePath entry.1, entry.2.map fun kv => envLine kv.1 kv.2⟩

/-- `processSecrets` of `cmd/grabSecrets.go`. -/
def processSecrets (st : Store) (projectName environmentType : Str) : List FileWrite :=
  writeSecrets (GetSecrets st projectName environmentType)

/-! ## Runs of the share command -/

/-- A run of the share command: a single pair, or the walk over `.env` files. -/
inductive Run where
  | single (projectName environmentType secretPair : Str)
  | walk (projectName environmentType : Str) (files : List EnvFile)

/-- The store a run leaves, whether it returns an error or not. -/
def runShare (st : Store) : Run → Store
  | .single projectName environmentType secretPair =>
    (handleSingleSecret st projectName environmentType secretPair).store
  | .walk projectName environmentType files =>
    match handleEnvFiles st projectName environmentType files with
    | .ok st2 => st2
    | .error st2 => st2

/-- The store a sequence of runs leaves. -/
def runShares (st : Store) (runs : List Run) : Store := runs.foldl runShare st

/-! ## Predicates on stores -/

/-- No two secrets of the same key among the secrets of the pair. -/
def KeysUnique (st : Store) (projectName environmentType : Str) : Prop :=
  ∀ s1 ∈ joinedSecrets st projectName environmentType,
    ∀ s2 ∈ joinedSecrets st projectName environmentType, s1.key = s2.key → s1 = s2

instance (st : Store) (p e : Str) : Decidable (KeysUnique st p e) :=
  inferInstanceAs (Decidable (∀ s1 ∈ joinedSecrets st p e,
    ∀ s2 ∈ joinedSecrets st p e, s1.key = s2.key → s1 = s2))

/-- No two secrets linked to the same environment under the same key. -/
def EnvKeysUnique (st : Store) : Prop :=
  ∀ l1 ∈ st.environmentSecrets, ∀ l2 ∈ st.environmentSecrets,
    l1.environmentId = l2.environmentId →
      ∀ s1 ∈ st.secrets, ∀ s2 ∈ st.secrets,
        s1.id = l1.secretId → s2.id = l2.secretId → s1.key = s2.key → s1 = s2

instance (st : Store) : Decidable (EnvKeysUnique st) :=
  inferInstanceAs (Decidable (∀ l1 ∈ st.environmentSecrets, ∀ l2 ∈ st.environmentSecrets,
    l1.environmentId = l2.environmentId →
      ∀ s1 ∈ st.secrets, ∀ s2 ∈ st.secrets,
        s1.id = l1.secretId → s2.id = l2.secretId → s1.key = s2.key → s1 = s2))

/-- The ids of `secrets` are never given twice: the column is `AUTOINCREMENT`
and its sequence is at least every id in use and every id a link row names. -/
def IdsNeverReused (st : Store) : Prop :=
  st.autoIncrement = true ∧ (∀ s ∈ st.secrets, s.id ≤ st.secretSeq) ∧
    ∀ l ∈ st.environmentSecrets, l.secretId ≤ st.secretSeq

instance (st : Store) : Decidable (IdsNeverReused st) :=
  inferInstanceAs (Decidable (st.autoIncrement = true ∧ (∀ s ∈ st.secrets, s.id ≤ st.secretSeq) ∧
    ∀ l ∈ st.environmentSecrets, l.secretId ≤ st.secretSeq))

/-- A store with the project `p`, its three environments and no secret, whose
secret ids are not `AUTOINCREMENT`. -/
def emptyStore : Store :=
  { projects := [⟨1, ['p'], true⟩]
    environments := [⟨1, 1, "development".toList⟩, ⟨2, 1, "staging".toList⟩,
      ⟨3, 1, "production".toList⟩]
    secrets := []
    environmentSecrets := []
    autoIncrement := false
    secretSeq := 0 }

/-- The store `emptyStore` with `AUTOINCREMENT` secret ids. -/
def emptyStoreAuto : Store := { emptyStore with autoIncrement := true }

/-- Four runs: `A=1` and `Z=1` shared to development, a walk over one file that
holds only `A=1` for development, and `A=9` shared to staging. -/
def demoRuns : List Run :=
  [.single ['p'] "development".toList "A=1".toList,
   .single ['p'] "development".toList "Z=1".toList,
   .walk ['p'] "development".toList [⟨['.'], "A=1\n".toList⟩],
   .single ['p'] "staging".toList "A=9".toList]

/-- The secrets the push parser finds in the `.env` files, in the order of the
walk: key, value and location. -/
def parsedPairs (files : List EnvFile) : List (Str × Str × Str) :=
  files.flatMap fun file =>
    (scan (scanPieces file.content)).1.filterMap fun text =>
      (pushParseLine text).map fun kv => (kv.1, kv.2, file.relativePath)

/-- The value and the location of the last of the pairs with the key. -/
def lastParsed (pairs : List (Str × Str × Str)) (key : Str) : Option (Str × Str) :=
  (pairs.reverse.find? fun q => q.1 == key).map fun q => q.2

/-- The secrets of the pair hold, for every key parsed so far, the value and the
location of its last occurrence. -/
def StoresLast (st : Store) (p e : Str) (ps : List (Str × Str × Str)) : Prop :=
  ∀ k v L, lastParsed ps k = some (v, L) →
    ∃ s ∈ joinedSecrets st p e, s.key = k ∧ s.value = v ∧ s.location = L

/-- No two secrets of the same key among the secrets of the pair, for the keys
listed. -/
def KeysUniqueOn (st : Store) (projectName environmentType : Str) (keys : List Str) : Prop :=
  ∀ s1 ∈ joinedSecrets st projectName environmentType,
    ∀ s2 ∈ joinedSecrets st projectName environmentType,
      s1.key = s2.key → s1.key ∈ keys → s1 = s2

instance (st : Store) (p e : Str) (keys : List Str) : Decidable (KeysUniqueOn st p e keys) :=
  inferInstanceAs (Decidable (∀ s1 ∈ joinedSecrets st p e,
    ∀ s2 ∈ joinedSecrets st p e, s1.key = s2.key → s1.key ∈ keys → s1 = s2))

/-! ## Stores that runs of the share command leave, and a working directory -/

/-- The store the four runs `demoRuns` leave from `emptyStore`: the project `p`
with two secrets of the key `A` linked to its development environment. -/
def twoKeysStore : Store := runShares emptyStore demoRuns

/-- The store left from `emptyStore` by sharing `Z=1` to development and a walk
for development over no file: no secret, and the link row of the deleted
secret. -/
def staleLinkStore : Store :=
  runShares emptyStore
    [.single ['p'] "development".toList "Z=1".toList, .walk ['p'] "development".toList []]

/-- The store left from `emptyStore` by sharing `FOO=bar` to development. -/
def fooBarStore : Store :=
  (handleSingleSecret emptyStore ['p'] "development".toList "FOO=bar".toList).store

/-- A working directory with two `.env` files, at its root and in `sub`; the key
`B` is in both. -/
def demoTree : List EnvFile :=
  [⟨['.'], "B=2\nD=5\n".toList⟩, ⟨"sub".toList, "C=3 # c\nB=4\n".toList⟩]

/-! ## Lemmas on trimming -/

theorem trimLeft_noLead (s : Str) : NoLead (trimLeft s) := by
  intro c hc
  have h := List.head?_dropWhile_not isSpace s
  unfold trimLeft at hc
  rw [hc] at h
  simpa using h

theorem trimLeft_of_noLead {s : Str} (h : NoLead s) : trimLeft s = s := by
  cases s with
  | nil => rfl
  | cons c cs =>
    have hc : isSpace c = false := h c rfl
    simp [trimLeft, List.dropWhile, hc]

theorem trimRight_eq_rdropWhile (s : Str) : trimRight s = s.rdropWhile isSpace := rfl

theorem trimRight_isPrefix (s : Str) : trimRight s <+: s := List.rdropWhile_prefix _ _

theorem trimLeft_isSuffix (s : Str) : trimLeft s <:+ s := List.dropWhile_suffix isSpace

theorem trimRight_noTrail (s : Str) : NoTrail (trimRight s) := by
  intro c hc
  have hne : s.rdropWhile isSpace ≠ [] := by
    intro h
    rw [trimRight_eq_rdropWhile, h] at hc
    cases hc
  have h := List.rdropWhile_last_not (p := isSpace) (l := s) hne
  rw [trimRight_eq_rdropWhile, List.getLast?_eq_getLast _ hne] at hc
  cases hc
  simpa using h

theorem trimRight_of_noTrail {s : Str} (h : NoTrail s) : trimRight s = s := by
  rw [trimRight_eq_rdropWhile, List.rdropWhile_eq_self_iff]
  intro hl
  have := h _ (List.getLast?_eq_getLast _ hl)
  simp [this]

theorem noLead_of_isPrefix {s t : Str} (hp : t <+: s) (h : NoLead s) : NoLead t := by
  intro c hc
  obtain ⟨r, rfl⟩ := hp
  cases t with
  | nil => cases hc
  | cons d ds =>
    simp at hc
    subst hc
    exact h d rfl

theorem noTrail_of_isSuffix {s t : Str} (hp : t <:+ s) (h : NoTrail s) : NoTrail t := by
  intro c hc
  obtain ⟨r, rfl⟩ := hp
  apply h c
  cases t with
  | nil => cases hc
  | cons d ds =>
    rw [List.getLast?_append_of_ne_nil _ (by simp)]
    exact hc

theorem trimSpace_noLead (s : Str) : NoLead (trimSpace s) :=
  noLead_of_isPrefix (trimRight_isPrefix _) (trimLeft_noLead s)

theorem trimSpace_noTrail (s : Str) : NoTrail (trimSpace s) := trimRight_noTrail _

theorem trimSpace_of_trimmed {s : Str} (h1 : NoLead s) (h2 : NoTrail s) : trimSpace s = s := by
  unfold trimSpace
  rw [trimLeft_of_noLead h1, trimRight_of_noTrail h2]

theorem trimSpace_idem (s : Str) : trimSpace (trimSpace s) = trimSpace s :=
  trimSpace_of_trimmed (trimSpace_noLead s) (trimSpace_noTrail s)

theorem mem_of_mem_trimSpace {s : Str} {c : Char} (h : c ∈ trimSpace s) : c ∈ s :=
  (trimLeft_isSuffix s).subset ((trimRight_isPrefix _).subset h)

/-! ## Lemmas on splitting and joining -/

theorem split_ne_nil (sep : Char) (s : Str) : split sep s ≠ [] := by
  cases s with
  | nil => simp [split]
  | cons c cs =>
    unfold split
    split_ifs
    · simp
    · cases split sep cs <;> simp

theorem split_of_not_mem {sep : Char} {l : Str} (h : sep ∉ l) : split sep l = [l] := by
  induction l with
  | nil => rfl
  | cons c cs ih =>
    have hc : c ≠ sep := fun e => h (by simp [e])
    have hcs : sep ∉ cs := fun e => h (by simp [e])
    simp [split, hc, ih hcs]

theorem split_append_sep {sep : Char} {l : Str} (r : Str) (h : sep ∉ l) :
    split sep (l ++ sep :: r) = l :: split sep r := by
  induction l with
  | nil => simp [split]
  | cons c cs ih =>
    have hc : c ≠ sep := fun e => h (by simp [e])
    have hcs : sep ∉ cs := fun e => h (by simp [e])
    simp [split, hc, ih hcs]

theorem not_mem_of_mem_split {sep : Char} {s l : Str} (h : l ∈ split sep s) : sep ∉ l := by
  induction s generalizing l with
  | nil =>
    simp [split] at h
    subst h
    simp
  | cons c cs ih =>
    unfold split at h
    split_ifs at h with hc
    · rcases List.mem_cons.1 h with rfl | h
      · simp
      · exact ih h
    · cases hs : split sep cs with
      | nil => exact absurd hs (split_ne_nil sep cs)
      | cons x xs =>
        rw [hs] at h
        simp only [List.mem_cons] at h
        rcases h with rfl | h
        · have hx : sep ∉ x := ih (by rw [hs]; simp)
          intro hm
          rcases List.mem_cons.1 hm with e | e
          · exact hc e.symm
          · exact hx e
        · exact ih (by rw [hs]; simp [h])

theorem split_join {sep : Char} {ls : List Str} (hne : ls ≠ [])
    (h : ∀ l ∈ ls, sep ∉ l) : split sep (join sep ls) = ls := by
  induction ls with
  | nil => exact absurd rfl hne
  | cons l rest ih =>
    cases rest with
    | nil => simpa [join] using split_of_not_mem (h l (by simp))
    | cons l2 rest2 =>
      have h1 : sep ∉ l := h l (by simp)
      have h2 : ∀ x ∈ l2 :: rest2, sep ∉ x := fun x hx => h x (List.mem_cons_of_mem _ hx)
      simp only [join]
      rw [split_append_sep _ h1, ih (by simp) h2]

theorem join_split (sep : Char) (s : Str) : join sep (split sep s) = s := by
  induction s with
  | nil => rfl
  | cons c cs ih =>
    unfold split
    split_ifs with hc
    · cases hs : split sep cs with
      | nil => exact absurd hs (split_ne_nil sep cs)
      | cons x xs =>
        rw [hs] at ih
        simp [join, ih, hc]
    · cases hs : split sep cs with
      | nil => exact absurd hs (split_ne_nil sep cs)
      | cons x xs =>
        rw [hs] at ih
        cases xs with
        | nil =>
          simp only [join] at ih ⊢
          rw [ih]
        | cons y ys =>
          simp only [join] at ih ⊢
          rw [← ih]
          simp

/-! ## Lemmas on `strings.SplitN` and `strings.Index` -/

theorem contains_iff {s : Str} {sep : Char} : contains s sep = true ↔ sep ∈ s := by
  simp [contains]

theorem splitN2_headD (s : Str) : (splitN2 '=' s).headD [] = definedKey s := by
  unfold splitN2 definedKey
  split_ifs with h
  · rfl
  · simp only [List.headD_cons]
    symm
    rw [List.takeWhile_eq_self_iff]
    intro c hc
    have : '=' ∉ s := fun e => h (contains_iff.2 e)
    simp only [bne_iff_ne, ne_eq]
    rintro rfl
    exact this hc

theorem definedKey_not_mem (s : Str) : '=' ∉ definedKey s := by
  intro h
  have := List.mem_takeWhile_imp h
  simp at this

theorem definedKey_append {k : Str} (r : Str) (h : '=' ∉ k) : definedKey (k ++ '=' :: r) = k := by
  induction k with
  | nil => simp [definedKey, List.takeWhile]
  | cons c cs ih =>
    have hc : c ≠ '=' := fun e => h (by simp [e])
    have hcs : '=' ∉ cs := fun e => h (by simp [e])
    have hb : (c != '=') = true := by simp [hc]
    have := ih hcs
    simp only [definedKey] at this ⊢
    simp [List.takeWhile_cons, hb, this]

theorem definedKey_isPrefix (s : Str) : definedKey s <+: s := List.takeWhile_prefix _

theorem split_definedKey {s : Str} (h : '=' ∈ s) :
    s = definedKey s ++ '=' :: (s.dropWhile (fun c => c != '=')).drop 1 := by
  induction s with
  | nil => cases h
  | cons c cs ih =>
    by_cases hc : c = '='
    · subst hc
      simp [definedKey, List.takeWhile, List.dropWhile]
    · have hcs : '=' ∈ cs := by
        rcases List.mem_cons.1 h with e | e
        · exact absurd e.symm hc
        · exact e
      have hb : (c != '=') = true := by simp [hc]
      have := ih hcs
      simp only [definedKey] at this ⊢
      simp only [List.takeWhile_cons, List.dropWhile_cons, hb, if_true, List.cons_append,
        List.cons.injEq, true_and]
      exact this

theorem index_eq_none {sep : Char} {s : Str} : index sep s = none ↔ sep ∉ s := by
  induction s with
  | nil => simp [index]
  | cons c cs ih =>
    unfold index
    split_ifs with hc
    · simp [hc]
    · simp only [Option.map_eq_none', ih, List.mem_cons, not_or]
      exact ⟨fun h => ⟨fun e => hc e.symm, h⟩, fun h => h.2⟩

theorem drop_index {sep : Char} {s : Str} {i : Nat} (h : index sep s = some i) :
    s.drop i = s.dropWhile (fun c => c != sep) := by
  induction s generalizing i with
  | nil => cases h
  | cons c cs ih =>
    unfold index at h
    split_ifs at h with hc
    · cases h
      simp [List.dropWhile, hc]
    · cases hi : index sep cs with
      | none => rw [hi] at h; cases h
      | some j =>
        rw [hi] at h
        cases h
        have hb : (c != sep) = true := by simp [hc]
        simp [List.dropWhile_cons, hb, ih hi]

/-! ## Lemmas on maps and on `extractKeys` -/

theorem lookup_filter_ne (m : GoMap) {k k2 : Str} (h : k2 ≠ k) :
    (m.filter (fun p => p.1 != k)).lookup k2 = m.lookup k2 := by
  induction m with
  | nil => rfl
  | cons p ps ih =>
    obtain ⟨a, b⟩ := p
    by_cases ha : a = k
    · subst ha
      have h2 : (k2 == a) = false := by simp [h]
      simp [List.filter_cons, List.lookup_cons, h2, ih]
    · have hb : (a != k) = true := by simp [ha]
      simp only [List.filter_cons, hb, if_true, List.lookup_cons, ih]

theorem lookup_set (m : GoMap) (k v k2 : Str) :
    (m.set k v).lookup k2 = if k2 = k then some v else m.lookup k2 := by
  unfold GoMap.set
  split_ifs with h
  · subst h
    simp [List.lookup_cons]
  · have h2 : (k2 == k) = false := by simp [h]
    simp [List.lookup_cons, h2, lookup_filter_ne m h]

theorem mem_keys_iff (m : GoMap) (k : Str) : k ∈ m.keys ↔ ∃ v, m.lookup k = some v := by
  induction m with
  | nil => simp [GoMap.keys]
  | cons p ps ih =>
    obtain ⟨a, b⟩ := p
    by_cases ha : k = a
    · subst ha
      simp [GoMap.keys, List.lookup_cons]
    · have h2 : (k == a) = false := by simp [ha]
      simp only [GoMap.keys, List.map_cons, List.mem_cons, ha, false_or, List.lookup_cons, h2]
      exact ih

theorem keys_set_nodup (m : GoMap) (k v : Str) (h : m.keys.Nodup) : (m.set k v).keys.Nodup := by
  unfold GoMap.set GoMap.keys
  simp only [List.map_cons, List.nodup_cons]
  constructor
  · intro hk
    obtain ⟨p, hp, hpk⟩ := List.mem_map.1 hk
    have := (List.mem_filter.1 hp).2
    simp only [bne_iff_ne, ne_eq] at this
    exact this hpk
  · exact List.Nodup.sublist (List.Sublist.map _ (List.filter_sublist _)) h

theorem extractKeysStep_eq (m : GoMap) (l : Str) :
    extractKeysStep m l =
      if contains (trimSpace l) '=' then m.set (definedKey (trimSpace l)) (trimSpace l) else m := by
  unfold extractKeysStep
  simp only [splitN2_headD]

theorem lookup_step (m : GoMap) (l k : Str) :
    (extractKeysStep m l).lookup k = if definesKey l k then some (trimSpace l) else m.lookup k := by
  rw [extractKeysStep_eq]
  unfold definesKey
  by_cases hc : contains (trimSpace l) '=' = true
  · simp only [hc, if_true, lookup_set, Bool.true_and, beq_iff_eq]
    by_cases hk : k = definedKey (trimSpace l)
    · simp [hk]
    · have : ¬ definedKey (trimSpace l) = k := fun e => hk e.symm
      simp [hk, this]
  · simp [hc]

theorem foldl_step_keys_nodup (ls : List Str) (m : GoMap) (h : m.keys.Nodup) :
    (ls.foldl extractKeysStep m).keys.Nodup := by
  induction ls generalizing m with
  | nil => exact h
  | cons l rest ih =>
    apply ih
    rw [extractKeysStep_eq]
    split_ifs
    · exact keys_set_nodup _ _ _ h
    · exact h

theorem extractKeys_keys_nodup (content : Str) : (extractKeys content).keys.Nodup :=
  foldl_step_keys_nodup _ [] (by simp [GoMap.keys])

/-- The entry of `k` after the lines `ls`: the trimmed last line that defines
`k`. -/
theorem lookup_foldl_step (ls : List Str) (k v : Str) :
    (ls.foldl extractKeysStep []).lookup k = some v ↔
      ∃ pre l post, ls = pre ++ l :: post ∧ definesKey l k = true ∧ v = trimSpace l ∧
        ∀ x ∈ post, definesKey x k = false := by
  induction ls using List.reverseRecOn with
  | nil => simp
  | append_singleton init a ih =>
    rw [List.foldl_append, List.foldl_cons, List.foldl_nil, lookup_step]
    by_cases ha : definesKey a k = true
    · simp only [ha, if_true, Option.some.injEq]
      constructor
      · intro hv
        exact ⟨init, a, [], rfl, ha, hv.symm, by simp⟩
      · rintro ⟨pre, l, post, heq, hl, hv, hpost⟩
        rcases List.eq_nil_or_concat post with rfl | ⟨q, b, rfl⟩
        · have := List.append_inj_right' heq (by simp)
          simp only [List.cons.injEq, and_true] at this
          subst this
          exact hv.symm
        · have e : init ++ [a] = (pre ++ l :: q) ++ [b] := by simpa using heq
          have := List.append_inj_right' e (by simp)
          simp only [List.cons.injEq, and_true] at this
          subst this
          have := hpost a (by simp)
          rw [ha] at this
          cases this
    · simp only [ha, Bool.false_eq_true, if_false]
      rw [ih]
      have ha2 : definesKey a k = false := by simpa using ha
      constructor
      · rintro ⟨pre, l, post, heq, hl, hv, hpost⟩
        refine ⟨pre, l, post ++ [a], by simp [heq], hl, hv, ?_⟩
        intro x hx
        rcases List.mem_append.1 hx with h | h
        · exact hpost x h
        · simp only [List.mem_singleton] at h
          subst h
          exact ha2
      · rintro ⟨pre, l, post, heq, hl, hv, hpost⟩
        rcases List.eq_nil_or_concat post with rfl | ⟨q, b, rfl⟩
        · have := List.append_inj_right' heq (by simp)
          simp only [List.cons.injEq, and_true] at this
          subst this
          rw [hl] at ha2
          cases ha2
        · have e : init ++ [a] = (pre ++ l :: q) ++ [b] := by simpa using heq
          have h1 := List.append_inj_left' e (by simp)
          refine ⟨pre, l, q, h1, hl, hv, ?_⟩
          intro x hx
          exact hpost x (by simp [hx])

theorem extractKeys_lookup (content k v : Str) :
    (extractKeys content).lookup k = some v ↔
      ∃ pre l post, split '\n' content = pre ++ l :: post ∧ definesKey l k = true ∧
        v = trimSpace l ∧ ∀ x ∈ post, definesKey x k = false :=
  lookup_foldl_step _ k v

/-- What an entry of `extractKeys` looks like. -/
theorem extractKeys_entry {content k v : Str} (h : (extractKeys content).lookup k = some v) :
    '=' ∈ v ∧ definedKey v = k ∧ NoLead v ∧ NoTrail v ∧ '\n' ∉ v := by
  obtain ⟨pre, l, post, heq, hl, hv, -⟩ := (extractKeys_lookup content k v).1 h
  subst hv
  unfold definesKey at hl
  simp only [Bool.and_eq_true, beq_iff_eq] at hl
  refine ⟨contains_iff.1 hl.1, hl.2, trimSpace_noLead l, trimSpace_noTrail l, ?_⟩
  intro hn
  have hmem : l ∈ split '\n' content := by rw [heq]; simp
  exact not_mem_of_mem_split hmem (mem_of_mem_trimSpace hn)

/-! ## Lemmas on the byte-wise order and `sort.Strings` -/

theorem bytesLe_total (a b : List Nat) : bytesLe a b = true ∨ bytesLe b a = true := by
  induction a generalizing b with
  | nil => simp [bytesLe]
  | cons x xs ih =>
    cases b with
    | nil => simp [bytesLe]
    | cons y ys =>
      simp only [bytesLe, Bool.or_eq_true, decide_eq_true_eq, Bool.and_eq_true, beq_iff_eq]
      rcases Nat.lt_trichotomy x y with h | h | h
      · exact Or.inl (Or.inl h)
      · rcases ih ys with h2 | h2
        · exact Or.inl (Or.inr ⟨h, h2⟩)
        · exact Or.inr (Or.inr ⟨h.symm, h2⟩)
      · exact Or.inr (Or.inl h)

theorem bytesLe_trans {a b c : List Nat} (h1 : bytesLe a b = true) (h2 : bytesLe b c = true) :
    bytesLe a c = true := by
  induction a generalizing b c with
  | nil => simp [bytesLe]
  | cons x xs ih =>
    cases b with
    | nil => simp [bytesLe] at h1
    | cons y ys =>
      cases c with
      | nil => simp [bytesLe] at h2
      | cons z zs =>
        simp only [bytesLe, Bool.or_eq_true, decide_eq_true_eq, Bool.and_eq_true,
          beq_iff_eq] at h1 h2 ⊢
        rcases h1 with h1 | ⟨h1, h1r⟩
        · rcases h2 with h2 | ⟨h2, -⟩
          · exact Or.inl (by omega)
          · exact Or.inl (by omega)
        · rcases h2 with h2 | ⟨h2, h2r⟩
          · exact Or.inl (by omega)
          · exact Or.inr ⟨by omega, ih h1r h2r⟩

instance : IsTotal Str strLe := ⟨fun a b => bytesLe_total (bytes a) (bytes b)⟩

instance : IsTrans Str strLe := ⟨fun _ _ _ h1 h2 => bytesLe_trans h1 h2⟩

theorem sortStrings_sorted (l : List Str) : (sortStrings l).Sorted strLe :=
  List.sorted_insertionSort strLe l

theorem sortStrings_perm (l : List Str) : (sortStrings l).Perm l :=
  List.perm_insertionSort strLe l

theorem mem_sortedKeys {m : GoMap} {k : Str} : k ∈ sortedKeys m ↔ k ∈ m.keys :=
  (sortStrings_perm m.keys).mem_iff

theorem sortedKeys_nodup {m : GoMap} (h : m.keys.Nodup) : (sortedKeys m).Nodup :=
  (sortStrings_perm m.keys).nodup_iff.2 h

/-! ## Lemmas on the reconciler -/

theorem appendLines_forall₂ {f : Str → Option Str} {P : Str → Str → Prop} (ks : List Str)
    (h : ∀ k ∈ ks, ∃ l, f k = some l ∧ P k l) :
    ∃ lines, appendLines f ks = some lines ∧ List.Forall₂ P ks lines := by
  induction ks with
  | nil => exact ⟨[], rfl, List.Forall₂.nil⟩
  | cons k rest ih =>
    obtain ⟨l, hl, hP⟩ := h k (by simp)
    obtain ⟨lines, hlines, hF⟩ := ih (fun x hx => h x (List.mem_cons_of_mem _ hx))
    exact ⟨l :: lines, by simp [appendLines, hl, hlines], List.Forall₂.cons hP hF⟩

theorem appendLines_forall₂_of_eq {f : Str → Option Str} {P : Str → Str → Prop} {ks lines : List Str}
    (hl : appendLines f ks = some lines) (h : ∀ k ∈ ks, ∀ l, f k = some l → P k l) :
    List.Forall₂ P ks lines := by
  induction ks generalizing lines with
  | nil =>
    simp only [appendLines, Option.some.injEq] at hl
    subst hl
    exact List.Forall₂.nil
  | cons k rest ih =>
    unfold appendLines at hl
    cases hk : f k with
    | none => rw [hk] at hl; cases hl
    | some l =>
      rw [hk] at hl
      cases hr : appendLines f rest with
      | none => rw [hr] at hl; cases hl
      | some ls =>
        rw [hr] at hl
        simp only [Option.some.injEq] at hl
        subst hl
        exact List.Forall₂.cons (h k (by simp) l hk)
          (ih hr (fun x hx => h x (List.mem_cons_of_mem _ hx)))

/-- The value part of a line that holds `=`. -/
theorem splitN2_one {line : Str} (h : '=' ∈ line) :
    (splitN2 '=' line)[1]? = some ((line.dropWhile (fun c => c != '=')).drop 1) := by
  unfold splitN2
  rw [if_pos (contains_iff.2 h)]
  rfl

theorem splitN2_one_none {line : Str} (h : '=' ∉ line) : (splitN2 '=' line)[1]? = none := by
  unfold splitN2
  rw [if_neg (fun e => h (contains_iff.1 e))]
  rfl

theorem createNewLine_eq (key : Str) {line : Str} (h : '=' ∈ line) :
    createNewLine key line =
      some (if '#' ∈ valuePart line
        then key ++ ['=', quote, quote, ' '] ++ (valuePart line).dropWhile (fun c => c != '#')
        else key ++ ['=', quote, quote]) := by
  unfold createNewLine
  simp only [splitN2_one h]
  change (match index '#' (valuePart line) with
    | some commentIndex => some (key ++ ['=', quote, quote, ' '] ++ (valuePart line).drop commentIndex)
    | none => some (key ++ ['=', quote, quote])) = _
  cases hi : index '#' (valuePart line) with
  | none =>
    have := index_eq_none.1 hi
    simp [this]
  | some i =>
    have hm : '#' ∈ valuePart line := by
      by_contra hn
      rw [index_eq_none.2 hn] at hi
      cases hi
    simp only [hm, if_true, drop_index hi]

theorem valuePart_isSuffix (line : Str) : valuePart line <:+ line :=
  (List.drop_suffix _ _).trans (List.dropWhile_suffix _)

theorem getLast?_append_ne_nil (a : Str) {b : Str} (h : b ≠ []) :
    (a ++ b).getLast? = b.getLast? := by
  cases b with
  | nil => exact absurd rfl h
  | cons d ds => exact List.getLast?_append_of_ne_nil _ (by simp)

theorem createNewLine_good {t : Str} (h : '=' ∈ t) (h1 : NoLead t) (h2 : NoTrail t)
    (h3 : '\n' ∉ t) :
    ∃ l, createNewLine (definedKey t) t = some l ∧ GoodLine (definedKey t) l := by
  refine ⟨_, createNewLine_eq (definedKey t) h, ?_⟩
  have hk : '=' ∉ definedKey t := definedKey_not_mem t
  have hkn : '\n' ∉ definedKey t := fun e => h3 ((definedKey_isPrefix t).subset e)
  have hlead : ∀ r : Str, NoLead (definedKey t ++ '=' :: r) := by
    intro r c hc
    cases hd : definedKey t with
    | nil =>
      rw [hd] at hc
      simp only [List.nil_append, List.head?_cons, Option.some.injEq] at hc
      subst hc
      decide
    | cons d ds =>
      rw [hd] at hc
      simp only [List.cons_append, List.head?_cons, Option.some.injEq] at hc
      subst hc
      obtain ⟨r2, hr2⟩ := definedKey_isPrefix t
      rw [hd] at hr2
      exact h1 d (by rw [← hr2]; rfl)
  split_ifs with hc
  · have hsuf : (valuePart t).dropWhile (fun c => c != '#') <:+ t :=
      (List.dropWhile_suffix _).trans (valuePart_isSuffix t)
    have hne : (valuePart t).dropWhile (fun c => c != '#') ≠ [] := by
      intro e
      rw [List.dropWhile_eq_nil_iff] at e
      have := e _ hc
      simp at this
    refine ⟨by simp, ?_, ?_, ?_, ?_⟩
    · simpa using definedKey_append (quote :: quote :: ' ' ::
        (valuePart t).dropWhile (fun c => c != '#')) hk
    · simpa using hlead (quote :: quote :: ' ' :: (valuePart t).dropWhile (fun c => c != '#'))
    · intro c hcl
      rw [getLast?_append_ne_nil _ hne] at hcl
      exact noTrail_of_isSuffix hsuf h2 c hcl
    · intro hm
      simp only [List.mem_append, List.mem_cons, List.mem_singleton, List.not_mem_nil,
        or_false] at hm
      rcases hm with (hm | hm) | hm
      · exact hkn hm
      · rcases hm with hm | hm | hm | hm <;> revert hm <;> decide
      · exact h3 (hsuf.subset hm)
  · refine ⟨by simp, ?_, ?_, ?_, ?_⟩
    · simpa using definedKey_append [quote, quote] hk
    · simpa using hlead [quote, quote]
    · intro c hcl
      rw [getLast?_append_ne_nil _ (by simp)] at hcl
      simp only [List.getLast?_cons_cons, List.getLast?_singleton, Option.some.injEq] at hcl
      subst hcl
      decide
    · intro hm
      simp only [List.mem_append, List.mem_cons, List.mem_singleton, List.not_mem_nil,
        or_false] at hm
      rcases hm with hm | hm
      · exact hkn hm
      · rcases hm with hm | hm | hm <;> revert hm <;> decide

/-- The line chosen for a key of the `.env` mapping is well formed, whatever the
prior example is. -/
theorem chosenLine_good (content : Str) (exampleKeys : GoMap)
    (hex : ∀ k v, exampleKeys.lookup k = some v → GoodLine k v) {k : Str}
    (hk : k ∈ (extractKeys content).keys) :
    ∃ l, (match exampleKeys.get? k with
        | some existingLine => some existingLine
        | none => createNewLine k ((extractKeys content).get k)) = some l ∧ GoodLine k l := by
  cases he : exampleKeys.get? k with
  | some v => exact ⟨v, rfl, hex k v he⟩
  | none =>
    obtain ⟨t, ht⟩ := (mem_keys_iff _ _).1 hk
    obtain ⟨h1, h2, h3, h4, h5⟩ := extractKeys_entry ht
    have hget : (extractKeys content).get k = t := by simp [GoMap.get, ht]
    simp only [hget]
    subst h2
    exact createNewLine_good h1 h3 h4 h5

theorem extractKeys_good (content k v : Str) (h : (extractKeys content).lookup k = some v) :
    GoodLine k v := extractKeys_entry h

/-- The lines built for the keys of a `.env` text: one well-formed line per
sorted key. -/
theorem updateEnvExampleLines_good (content : Str) (example_ : Option Str) :
    ∃ lines, updateEnvExampleLines (extractKeys content) example_ = some lines ∧
      List.Forall₂ GoodLine (sortedKeys (extractKeys content)) lines := by
  cases example_ with
  | none =>
    apply appendLines_forall₂
    intro k hk
    have := chosenLine_good content [] (by simp) (mem_sortedKeys.1 hk)
    simpa [GoMap.get?] using this
  | some ex =>
    apply appendLines_forall₂
    intro k hk
    exact chosenLine_good content (extractKeys ex) (extractKeys_good ex) (mem_sortedKeys.1 hk)

theorem forall₂_getElem? {R : Str → Str → Prop} {ks lines : List Str}
    (h : List.Forall₂ R ks lines) (i : Nat) {k : Str} (hk : ks[i]? = some k) :
    ∃ l, lines[i]? = some l ∧ R k l := by
  induction h generalizing i with
  | nil => simp at hk
  | cons hR _ ih =>
    cases i with
    | zero =>
      simp only [List.getElem?_cons_zero, Option.some.injEq] at hk
      subst hk
      exact ⟨_, by simp, hR⟩
    | succ j =>
      simp only [List.getElem?_cons_succ] at hk ⊢
      exact ih j hk

theorem goodLines_map_definedKey {ks lines : List Str} (h : List.Forall₂ GoodLine ks lines) :
    lines.map definedKey = ks := by
  induction h with
  | nil => rfl
  | cons hR _ ih => simp [hR.2.1, ih]

theorem goodLines_mem {ks lines : List Str} (h : List.Forall₂ GoodLine ks lines) {l : Str}
    (hl : l ∈ lines) : ∃ k ∈ ks, GoodLine k l := by
  induction h with
  | nil => cases hl
  | cons hR _ ih =>
    rcases List.mem_cons.1 hl with rfl | hl
    · exact ⟨_, by simp, hR⟩
    · obtain ⟨k, hk, hg⟩ := ih hl
      exact ⟨k, List.mem_cons_of_mem _ hk, hg⟩

theorem definesKey_of_good {k l : Str} (h : GoodLine k l) (k2 : Str) :
    definesKey l k2 = decide (k = k2) := by
  obtain ⟨h1, h2, h3, h4, -⟩ := h
  unfold definesKey
  rw [trimSpace_of_trimmed h3 h4, contains_iff.2 h1, h2]
  by_cases e : k = k2 <;> simp [e]

theorem trimSpace_of_good {k l : Str} (h : GoodLine k l) : trimSpace l = l :=
  trimSpace_of_trimmed h.2.2.1 h.2.2.2.1

/-- Reading well-formed lines leaves the entry of a key none of them defines. -/
theorem lookup_foldl_good_not_mem {ks lines : List Str} (h : List.Forall₂ GoodLine ks lines)
    {k : Str} (hk : k ∉ ks) (m : GoMap) :
    (lines.foldl extractKeysStep m).lookup k = m.lookup k := by
  induction h generalizing m with
  | nil => rfl
  | @cons k0 l0 ks0 lines0 hR _ ih =>
    have hne : k0 ≠ k := fun e => hk (by simp [e])
    have hk2 : k ∉ ks0 := fun e => hk (List.mem_cons_of_mem _ e)
    rw [List.foldl_cons, ih hk2, lookup_step, definesKey_of_good hR]
    simp [hne]

/-- Reading well-formed lines with distinct keys maps each key to its line. -/
theorem lookup_foldl_good {ks lines : List Str} (h : List.Forall₂ GoodLine ks lines)
    (hnd : ks.Nodup) (m : GoMap) :
    List.Forall₂ (fun k l => (lines.foldl extractKeysStep m).lookup k = some l) ks lines := by
  induction h generalizing m with
  | nil => exact List.Forall₂.nil
  | @cons k0 l0 ks0 lines0 hR hrest ih =>
    have hnd2 := List.nodup_cons.1 hnd
    refine List.Forall₂.cons ?_ ?_
    · rw [List.foldl_cons, lookup_foldl_good_not_mem hrest hnd2.1, lookup_step,
        definesKey_of_good hR, trimSpace_of_good hR]
      simp
    · exact ih hnd2.2 (extractKeysStep m l0)

theorem extractKeys_join {lines : List Str} (h : ∀ l ∈ lines, '\n' ∉ l) :
    extractKeys (join '\n' lines) = lines.foldl extractKeysStep [] := by
  unfold extractKeys
  cases lines with
  | nil => rfl
  | cons l ls => rw [split_join (by simp) h]

theorem extractKeys_join_good {ks lines : List Str} (h : List.Forall₂ GoodLine ks lines) :
    extractKeys (join '\n' lines) = lines.foldl extractKeysStep [] := by
  apply extractKeys_join
  intro l hl
  obtain ⟨k, -, hg⟩ := goodLines_mem h hl
  exact hg.2.2.2.2

theorem appendLines_of_forall₂ {f : Str → Option Str} {ks lines : List Str}
    (h : List.Forall₂ (fun k l => f k = some l) ks lines) : appendLines f ks = some lines := by
  induction h with
  | nil => rfl
  | cons hR _ ih => simp [appendLines, hR, ih]

/-- Claim C1. For the key mapping `extractKeys` produces from any `.env` text and
any prior example (absent or any text), `updateEnvExampleFile` builds a line list
with one line per key: as many lines as keys, the text before the first `=` of
the i-th line is the i-th key in byte-wise ascending order (the sorted list is an
ascending rearrangement of the distinct keys), every line holds `=`, and no line
defines a key that is not a key of the `.env` mapping. -/
theorem C1_one_line_per_key (content : Str) (example_ : Option Str) :
    ∃ lines, updateEnvExampleLines (extractKeys content) example_ = some lines ∧
      lines.length = (extractKeys content).keys.length ∧
      (extractKeys content).keys.Nodup ∧
      (sortedKeys (extractKeys content)).Sorted strLe ∧
      (sortedKeys (extractKeys content)).Perm (extractKeys content).keys ∧
      lines.map definedKey = sortedKeys (extractKeys content) ∧
      (∀ l ∈ lines, '=' ∈ l) ∧
      (∀ k, k ∉ (extractKeys content).keys → ∀ l ∈ lines, definedKey l ≠ k) := by
  obtain ⟨lines, hl, hF⟩ := updateEnvExampleLines_good content example_
  have hperm := sortStrings_perm (extractKeys content).keys
  refine ⟨lines, hl, ?_, extractKeys_keys_nodup content, sortStrings_sorted _, hperm,
    goodLines_map_definedKey hF, ?_, ?_⟩
  · rw [← hF.length_eq]
    exact hperm.length_eq
  · intro l hlm
    obtain ⟨k, -, hg⟩ := goodLines_mem hF hlm
    exact hg.1
  · intro k hk l hlm e
    obtain ⟨k2, hk2, hg⟩ := goodLines_mem hF hlm
    rw [hg.2.1] at e
    subst e
    exact hk (mem_sortedKeys.1 hk2)

/-- Claim C2. Reconciliation is idempotent: the content written for a `.env` text
and any prior example is written again, byte for byte, when the reconciler runs
with the same `.env` keys and that content as the existing example. -/
theorem C2_idempotent (content : Str) (example_ : Option Str) :
    ∃ out1, updateEnvExampleFile (extractKeys content) example_ = some out1 ∧
      updateEnvExampleFile (extractKeys content) (some out1) = some out1 := by
  obtain ⟨lines, hl, hF⟩ := updateEnvExampleLines_good content example_
  refine ⟨writeEnvExampleFile lines, by simp [updateEnvExampleFile, hl], ?_⟩
  have hnd := sortedKeys_nodup (extractKeys_keys_nodup content)
  have hlook := lookup_foldl_good hF hnd []
  have h2 : updateEnvExampleLines (extractKeys content) (some (writeEnvExampleFile lines)) =
      some lines := by
    unfold updateEnvExampleLines writeEnvExampleFile
    simp only [extractKeys_join_good hF]
    apply appendLines_of_forall₂
    refine hlook.imp ?_
    intro k l hkl
    simp [GoMap.get?, hkl]
  simp [updateEnvExampleFile, h2]

/-- Claim C3. Round trip: `extractKeys` applied to the example content written
for a `.env` text (and any prior example) yields a mapping whose keys are
exactly the keys of the `.env` mapping. -/
theorem C3_round_trip (content : Str) (example_ : Option Str) :
    ∃ out, updateEnvExampleFile (extractKeys content) example_ = some out ∧
      (extractKeys out).keys.Nodup ∧
      ∀ k, k ∈ (extractKeys out).keys ↔ k ∈ (extractKeys content).keys := by
  obtain ⟨lines, hl, hF⟩ := updateEnvExampleLines_good content example_
  refine ⟨writeEnvExampleFile lines, by simp [updateEnvExampleFile, hl],
    extractKeys_keys_nodup _, ?_⟩
  have hnd := sortedKeys_nodup (extractKeys_keys_nodup content)
  have hlook := lookup_foldl_good hF hnd []
  intro k
  unfold writeEnvExampleFile
  rw [extractKeys_join_good hF, mem_keys_iff, ← mem_sortedKeys]
  constructor
  · rintro ⟨v, hv⟩
    by_contra hk
    rw [lookup_foldl_good_not_mem hF hk] at hv
    cases hv
  · intro hk
    obtain ⟨i, hi⟩ := List.getElem?_of_mem hk
    obtain ⟨l, -, hkl⟩ := forall₂_getElem? hlook i hi
    exact ⟨l, hkl⟩

theorem appendLines_pointwise {f : Str → Option Str} {ks lines : List Str}
    (hl : appendLines f ks = some lines) :
    List.Forall₂ (fun k l => f k = some l) ks lines :=
  appendLines_forall₂_of_eq hl (fun _ _ _ h => h)

/-- Claim C4. A key of the `.env` mapping that also has an entry in the mapping
extracted from the existing example is emitted with exactly that entry, which is
the trimmed last line of the example that defines the key; the `.env` line of the
key plays no part. -/
theorem C4_existing_line_kept (content exampleContent k v : Str)
    (hk : k ∈ (extractKeys content).keys)
    (hv : (extractKeys exampleContent).get? k = some v) :
    ∃ lines, updateEnvExampleLines (extractKeys content) (some exampleContent) = some lines ∧
      (∃ i : Nat, (sortedKeys (extractKeys content))[i]? = some k) ∧
      (∀ i : Nat, (sortedKeys (extractKeys content))[i]? = some k → lines[i]? = some v) ∧
      ∃ pre l post, split '\n' exampleContent = pre ++ l :: post ∧ definesKey l k = true ∧
        v = trimSpace l ∧ ∀ x ∈ post, definesKey x k = false := by
  obtain ⟨lines, hl, -⟩ := updateEnvExampleLines_good content (some exampleContent)
  refine ⟨lines, hl, List.getElem?_of_mem (mem_sortedKeys.2 hk), ?_,
    (extractKeys_lookup exampleContent k v).1 hv⟩
  intro i hi
  obtain ⟨l, hli, hf⟩ := forall₂_getElem? (appendLines_pointwise hl) i hi
  simp only [hv, Option.some.injEq] at hf
  rw [hli, hf]

theorem C4_existing_line_kept_witness :
    ∃ lines, updateEnvExampleLines (extractKeys "A=1 # c".toList) (some "A=keep".toList) =
        some lines ∧
      (∃ i : Nat, (sortedKeys (extractKeys "A=1 # c".toList))[i]? = some "A".toList) ∧
      (∀ i : Nat, (sortedKeys (extractKeys "A=1 # c".toList))[i]? = some "A".toList →
        lines[i]? = some "A=keep".toList) ∧
      ∃ pre l post, split '\n' "A=keep".toList = pre ++ l :: post ∧
        definesKey l "A".toList = true ∧ "A=keep".toList = trimSpace l ∧
        ∀ x ∈ post, definesKey x "A".toList = false :=
  C4_existing_line_kept "A=1 # c".toList "A=keep".toList "A".toList "A=keep".toList
    (by decide) (by decide)

/-- Claim C5 as stated fails: the `.env` line `A#B=1` holds a `#`, in its key, and
with no prior example the emitted line is the key followed by two apostrophes,
not the key, two apostrophes, a space and the text from the `#` onward. -/
theorem C5_counterexample :
    (extractKeys "A#B=1".toList).get "A#B".toList = "A#B=1".toList ∧
    '#' ∈ "A#B=1".toList ∧
    updateEnvExampleLines (extractKeys "A#B=1".toList) none =
      some ["A#B".toList ++ ['=', quote, quote]] ∧
    "A#B".toList ++ ['=', quote, quote] ≠
      "A#B".toList ++ ['=', quote, quote, ' '] ++
        ("A#B=1".toList).dropWhile (fun c => c != '#') := by
  decide

/-- Claim C5, amended. For a key `k` of the `.env` mapping with no entry in the
existing example (or with no example), and `l` the `.env` line of `k`: when the
text of `l` after its first `=` holds no `#`, the emitted line is `k` followed
by `=` and two apostrophes; when it holds one, the emitted line is `k`, `=`, two
apostrophes, one space and that text from its first `#` onward. -/
theorem C5_new_line (content : Str) (example_ : Option Str) (k : Str)
    (hk : k ∈ (extractKeys content).keys)
    (hex : ∀ ex, example_ = some ex → (extractKeys ex).get? k = none) :
    ∃ lines, updateEnvExampleLines (extractKeys content) example_ = some lines ∧
      (∃ i : Nat, (sortedKeys (extractKeys content))[i]? = some k) ∧
      ∀ i : Nat, (sortedKeys (extractKeys content))[i]? = some k →
        lines[i]? = some
          (if '#' ∈ valuePart ((extractKeys content).get k)
            then k ++ ['=', quote, quote, ' '] ++
              (valuePart ((extractKeys content).get k)).dropWhile (fun c => c != '#')
            else k ++ ['=', quote, quote]) := by
  obtain ⟨lines, hl, -⟩ := updateEnvExampleLines_good content example_
  refine ⟨lines, hl, List.getElem?_of_mem (mem_sortedKeys.2 hk), ?_⟩
  intro i hi
  obtain ⟨t, ht⟩ := (mem_keys_iff _ _).1 hk
  have hget : (extractKeys content).get k = t := by simp [GoMap.get, ht]
  have hnew := createNewLine_eq k (extractKeys_entry ht).1
  rw [hget]
  cases example_ with
  | none =>
    obtain ⟨l, hli, hf⟩ := forall₂_getElem? (appendLines_pointwise hl) i hi
    simp only [hget, hnew, Option.some.injEq] at hf
    rw [hli, ← hf]
  | some ex =>
    obtain ⟨l, hli, hf⟩ := forall₂_getElem? (appendLines_pointwise hl) i hi
    simp only [hex ex rfl, hget, hnew, Option.some.injEq] at hf
    rw [hli, ← hf]

theorem C5_new_line_witness :
    ∃ lines, updateEnvExampleLines (extractKeys "A=1\nB=2 # note\n".toList) none = some lines ∧
      (∃ i : Nat, (sortedKeys (extractKeys "A=1\nB=2 # note\n".toList))[i]? = some "B".toList) ∧
      ∀ i : Nat, (sortedKeys (extractKeys "A=1\nB=2 # note\n".toList))[i]? = some "B".toList →
        lines[i]? = some
          (if '#' ∈ valuePart ((extractKeys "A=1\nB=2 # note\n".toList).get "B".toList)
            then "B".toList ++ ['=', quote, quote, ' '] ++
              (valuePart ((extractKeys "A=1\nB=2 # note\n".toList).get "B".toList)).dropWhile
                (fun c => c != '#')
            else "B".toList ++ ['=', quote, quote]) :=
  C5_new_line "A=1\nB=2 # note\n".toList none "B".toList (by decide) (by simp)

/-- The scenario of claim C5: the `.env` text `A=1`, `B=2 # note` with no prior
example gives the two lines `A=` and `B=` with two apostrophes each, the second
followed by ` # note`. -/
theorem updateEnvExampleLines_scenario :
    updateEnvExampleLines (extractKeys "A=1\nB=2 # note\n".toList) none =
      some ["A=".toList ++ [quote, quote], "B=".toList ++ [quote, quote] ++ " # note".toList] := by
  decide

/-! ## The parser of `extractKeys`, line by line -/

theorem mem_dropWhile_of_not {p : Char → Bool} {s : Str} {c : Char} (h : c ∈ s)
    (hc : p c = false) : c ∈ s.dropWhile p := by
  induction s with
  | nil => cases h
  | cons d ds ih =>
    by_cases hd : p d = true
    · rw [List.dropWhile_cons, if_pos hd]
      rcases List.mem_cons.1 h with e | e
      · subst e
        rw [hc] at hd
        cases hd
      · exact ih e
    · rw [List.dropWhile_cons, if_neg hd]
      exact h

theorem mem_trimSpace_of_not_space {s : Str} {c : Char} (h : c ∈ s) (hc : isSpace c = false) :
    c ∈ trimSpace s := by
  unfold trimSpace trimRight trimLeft
  rw [List.mem_reverse]
  apply mem_dropWhile_of_not _ hc
  rw [List.mem_reverse]
  exact mem_dropWhile_of_not h hc

theorem mem_trimSpace_iff {s : Str} {c : Char} (hc : isSpace c = false) :
    c ∈ trimSpace s ↔ c ∈ s :=
  ⟨mem_of_mem_trimSpace, fun h => mem_trimSpace_of_not_space h hc⟩

theorem definesKey_iff (l k : Str) :
    definesKey l k = true ↔ '=' ∈ l ∧ definedKey (trimSpace l) = k := by
  unfold definesKey
  rw [Bool.and_eq_true, contains_iff, beq_iff_eq, mem_trimSpace_iff (by decide)]

theorem definesKey_false_iff (l k : Str) :
    definesKey l k = false ↔ ¬ ('=' ∈ l ∧ definedKey (trimSpace l) = k) := by
  rw [← definesKey_iff]
  simp

/-- Claim C6 as stated fails on a line with leading white space: the only line of
the text ` A=1` holds `=` and has ` A` before its first `=`, but ` A` is no key
of the mapping, whose only key is `A`. -/
theorem C6_counterexample :
    (" A=1".toList ∈ split '\n' " A=1".toList ∧ '=' ∈ " A=1".toList ∧
      definedKey " A=1".toList = " A".toList) ∧
    " A".toList ∉ (extractKeys " A=1".toList).keys ∧
    (extractKeys " A=1".toList).keys = ["A".toList] := by
  decide

/-- Claim C6, amended. The mapping `extractKeys` returns has at most one entry
per key; a key `k` is present iff some line of the text (split on newline)
holds `=` and has `k` as the text before the first `=` of the white-space-trimmed
line; and the value stored for `k` is the trimmed text of the last such line. -/
theorem C6_extractKeys_last_wins (content k : Str) :
    (extractKeys content).keys.Nodup ∧
    (k ∈ (extractKeys content).keys ↔
      ∃ line ∈ split '\n' content, '=' ∈ line ∧ definedKey (trimSpace line) = k) ∧
    ∀ v, (extractKeys content).get? k = some v ↔
      ∃ pre line post, split '\n' content = pre ++ line :: post ∧
        ('=' ∈ line ∧ definedKey (trimSpace line) = k) ∧ v = trimSpace line ∧
        ∀ x ∈ post, ¬ ('=' ∈ x ∧ definedKey (trimSpace x) = k) := by
  have hv : ∀ v, (extractKeys content).get? k = some v ↔
      ∃ pre line post, split '\n' content = pre ++ line :: post ∧
        ('=' ∈ line ∧ definedKey (trimSpace line) = k) ∧ v = trimSpace line ∧
        ∀ x ∈ post, ¬ ('=' ∈ x ∧ definedKey (trimSpace x) = k) := by
    intro v
    unfold GoMap.get?
    rw [extractKeys_lookup]
    simp only [definesKey_iff, definesKey_false_iff]
  refine ⟨extractKeys_keys_nodup content, ?_, hv⟩
  rw [mem_keys_iff]
  constructor
  · rintro ⟨v, h⟩
    obtain ⟨pre, line, post, heq, hl, -, -⟩ := (hv v).1 h
    exact ⟨line, by rw [heq]; simp, hl⟩
  · rintro ⟨line, hmem, hl⟩
    have key : ∀ (ls : List Str) (m : GoMap), line ∈ ls →
        ∃ v, (ls.foldl extractKeysStep m).lookup k = some v := by
      intro ls
      induction ls using List.reverseRecOn with
      | nil => intro m h; cases h
      | append_singleton init a ih =>
        intro m h
        rw [List.foldl_append, List.foldl_cons, List.foldl_nil, lookup_step]
        by_cases ha : definesKey a k = true
        · exact ⟨_, by rw [if_pos ha]⟩
        · rw [if_neg ha]
          rcases List.mem_append.1 h with h | h
          · exact ih m h
          · simp only [List.mem_singleton] at h
            subst h
            exact absurd ((definesKey_iff _ _).2 hl) ha
    exact key _ [] hmem

/-- Claim C7 fails on the claim's own example: the line `A = 1` yields the key
`A` followed by a space, which ends in white space. -/
theorem C7_key_keeps_trailing_space :
    extractKeys "A = 1".toList = [("A ".toList, "A = 1".toList)] ∧
    ¬ NoTrail "A ".toList ∧
    "A".toList ∉ (extractKeys "A = 1".toList).keys := by
  decide

/-- Claim C8 fails on the claim's own example: the full-line comment `# OLD=1`
contributes the entry `# OLD`, and adding that line to the text `A=1` changes
the result of `extractKeys`. -/
theorem C8_comment_line_is_entry :
    extractKeys "# OLD=1".toList = [("# OLD".toList, "# OLD=1".toList)] ∧
    extractKeys "A=1\n# OLD=1".toList ≠ extractKeys "A=1".toList ∧
    "# OLD".toList ∈ (extractKeys "A=1\n# OLD=1".toList).keys := by
  decide

/-- A line without `=`, such as a blank line or a comment without `=`, adds no
entry. -/
theorem extractKeysStep_of_no_eq (m : GoMap) {line : Str} (h : '=' ∉ line) :
    extractKeysStep m line = m := by
  rw [extractKeysStep_eq, if_neg]
  intro e
  exact h (mem_of_mem_trimSpace (contains_iff.1 e))

/-! ## The push parser of `handleEnvFiles` -/

theorem trimLeft_append_cons (a : Str) {x : Char} (r : Str) (hx : isSpace x = false) :
    trimLeft (a ++ x :: r) = trimLeft a ++ x :: r := by
  induction a with
  | nil => simp [trimLeft, List.dropWhile_cons, hx]
  | cons c cs ih =>
    unfold trimLeft at ih ⊢
    by_cases hc : isSpace c = true
    · simp only [List.cons_append, List.dropWhile_cons, hc, if_true]
      exact ih
    · simp [List.dropWhile_cons, hc]

theorem trimRight_append_cons (l : Str) {x : Char} (d : Str) (hx : isSpace x = false) :
    trimRight (l ++ x :: d) = l ++ x :: trimRight d := by
  unfold trimRight
  have h := trimLeft_append_cons d.reverse l.reverse hx
  unfold trimLeft at h
  rw [List.reverse_append, List.reverse_cons, List.append_assoc, List.singleton_append, h]
  simp

theorem trimSpace_append_cons (a : Str) {x : Char} (b : Str) (hx : isSpace x = false) :
    trimSpace (a ++ x :: b) = trimLeft a ++ x :: trimRight b := by
  unfold trimSpace
  rw [trimLeft_append_cons a b hx, trimRight_append_cons _ b hx]

theorem trimSpace_trimLeft (a : Str) : trimSpace (trimLeft a) = trimSpace a := by
  unfold trimSpace
  rw [trimLeft_of_noLead (trimLeft_noLead a)]

theorem trimLeft_eq_nil_of_spaces {s : Str} (h : ∀ c ∈ s, isSpace c = true) : trimLeft s = [] := by
  unfold trimLeft
  rw [List.dropWhile_eq_nil_iff]
  exact h

theorem trimRight_eq_nil_of_spaces {s : Str} (h : ∀ c ∈ s, isSpace c = true) :
    trimRight s = [] := by
  unfold trimRight
  rw [List.reverse_eq_nil_iff, List.dropWhile_eq_nil_iff]
  intro c hc
  exact h c (List.mem_reverse.1 hc)

/-- A string is all white space, or has a first character that is not. -/
theorem spaces_or_split (s : Str) :
    (∀ c ∈ s, isSpace c = true) ∨
      ∃ sp x d, s = sp ++ x :: d ∧ (∀ c ∈ sp, isSpace c = true) ∧ isSpace x = false := by
  induction s with
  | nil => exact Or.inl (by simp)
  | cons c cs ih =>
    by_cases hc : isSpace c = true
    · rcases ih with h | ⟨sp, x, d, rfl, hsp, hx⟩
      · left
        intro y hy
        rcases List.mem_cons.1 hy with rfl | hy
        · exact hc
        · exact h y hy
      · right
        refine ⟨c :: sp, x, d, rfl, ?_, hx⟩
        intro y hy
        rcases List.mem_cons.1 hy with rfl | hy
        · exact hc
        · exact hsp y hy
    · exact Or.inr ⟨[], c, cs, rfl, by simp, by simpa using hc⟩

theorem trimSpace_trimRight (c : Str) : trimSpace (trimRight c) = trimSpace c := by
  rcases spaces_or_split c with h | ⟨sp, x, d, rfl, hsp, hx⟩
  · rw [trimRight_eq_nil_of_spaces h]
    unfold trimSpace
    rw [trimLeft_eq_nil_of_spaces h]
    rfl
  · rw [trimRight_append_cons sp d hx, trimSpace_append_cons sp _ hx,
      trimSpace_append_cons sp d hx]
    rw [trimRight_of_noTrail (trimRight_noTrail d)]

theorem take_index {sep : Char} {s : Str} {i : Nat} (h : index sep s = some i) :
    s.take i = s.takeWhile (fun c => c != sep) := by
  induction s generalizing i with
  | nil => cases h
  | cons c cs ih =>
    unfold index at h
    split_ifs at h with hc
    · cases h
      simp [List.takeWhile_cons, hc]
    · cases hi : index sep cs with
      | none => rw [hi] at h; cases h
      | some j =>
        rw [hi] at h
        cases h
        have hb : (c != sep) = true := by simp [hc]
        simp [List.takeWhile_cons, hb, ih hi]

theorem takeWhile_ne_of_not_mem {sep : Char} {s : Str} (h : sep ∉ s) :
    s.takeWhile (fun c => c != sep) = s := by
  rw [List.takeWhile_eq_self_iff]
  intro c hc
  simp only [bne_iff_ne, ne_eq]
  rintro rfl
  exact h hc

theorem takeWhile_ne_append {sep : Char} {a : Str} (r : Str) (h : sep ∉ a) :
    (a ++ sep :: r).takeWhile (fun c => c != sep) = a := by
  induction a with
  | nil => simp [List.takeWhile_cons]
  | cons c cs ih =>
    have hc : c ≠ sep := fun e => h (by simp [e])
    have hcs : sep ∉ cs := fun e => h (by simp [e])
    have hb : (c != sep) = true := by simp [hc]
    simp [List.takeWhile_cons, hb, ih hcs]

theorem not_mem_takeWhile_ne (sep : Char) (s : Str) : sep ∉ s.takeWhile (fun c => c != sep) := by
  intro h
  have := List.mem_takeWhile_imp h
  simp at this

/-- A text that holds `sep` is the part before its first `sep`, `sep`, and a
rest. -/
theorem split_at_first {sep : Char} {s : Str} (h : sep ∈ s) :
    ∃ d, s = s.takeWhile (fun c => c != sep) ++ sep :: d := by
  induction s with
  | nil => cases h
  | cons c cs ih =>
    by_cases hc : c = sep
    · subst hc
      exact ⟨cs, by simp [List.takeWhile_cons]⟩
    · have hcs : sep ∈ cs := by
        rcases List.mem_cons.1 h with e | e
        · exact absurd e.symm hc
        · exact e
      obtain ⟨d, hd⟩ := ih hcs
      have hb : (c != sep) = true := by simp [hc]
      refine ⟨d, ?_⟩
      simp only [List.takeWhile_cons, hb, if_true, List.cons_append, List.cons.injEq, true_and]
      exact hd

theorem valuePart_append {k : Str} (r : Str) (h : '=' ∉ k) : valuePart (k ++ '=' :: r) = r := by
  induction k with
  | nil => simp [valuePart, List.dropWhile_cons]
  | cons c cs ih =>
    have hc : c ≠ '=' := fun e => h (by simp [e])
    have hcs : '=' ∉ cs := fun e => h (by simp [e])
    have hb : (c != '=') = true := by simp [hc]
    have := ih hcs
    simp only [valuePart] at this ⊢
    simp only [List.cons_append, List.dropWhile_cons, hb, if_true]
    exact this

theorem splitN2_length {s : Str} : (splitN2 '=' s).length = 2 ↔ '=' ∈ s := by
  unfold splitN2
  split_ifs with h
  · simpa using contains_iff.1 h
  · simp only [List.length_singleton, OfNat.one_ne_ofNat, false_iff]
    exact fun e => h (contains_iff.2 e)

theorem splitN2_getD_one {s : Str} (h : '=' ∈ s) : (splitN2 '=' s).getD 1 [] = valuePart s := by
  unfold splitN2
  rw [if_pos (contains_iff.2 h)]
  rfl

/-- The line the push parser splits at `=`: the trimmed text before the first
`#`. -/
theorem stripped_eq (text : Str) :
    trimSpace ((trimSpace text).takeWhile (fun c => c != '#')) =
      trimSpace (text.takeWhile (fun c => c != '#')) := by
  by_cases h : '#' ∈ text
  · obtain ⟨d, hd⟩ := split_at_first h
    have hp := not_mem_takeWhile_ne '#' text
    have hp2 : '#' ∉ trimLeft (text.takeWhile (fun c => c != '#')) :=
      fun e => hp ((trimLeft_isSuffix _).subset e)
    conv_lhs => rw [hd]
    rw [trimSpace_append_cons _ d (by decide), takeWhile_ne_append _ hp2, trimSpace_trimLeft]
  · have h2 : '#' ∉ trimSpace text := fun e => h (mem_of_mem_trimSpace e)
    rw [takeWhile_ne_of_not_mem h2, takeWhile_ne_of_not_mem h, trimSpace_idem]

theorem pushParseLine_stripped (text : Str) :
    pushParseLine text =
      if '=' ∈ trimSpace (text.takeWhile (fun c => c != '#')) then
        some (trimSpace (definedKey (trimSpace (text.takeWhile (fun c => c != '#')))),
          trimSpace (valuePart (trimSpace (text.takeWhile (fun c => c != '#')))))
      else none := by
  have hs := stripped_eq text
  have tail : ∀ s : Str,
      (if ((splitN2 '=' s).length != 2) = true then none
        else some (trimSpace ((splitN2 '=' s).headD []), trimSpace ((splitN2 '=' s).getD 1 []))) =
      if '=' ∈ s then some (trimSpace (definedKey s), trimSpace (valuePart s)) else none := by
    intro s
    by_cases h : '=' ∈ s
    · have hl : ((splitN2 '=' s).length != 2) = false := by simp [splitN2_length.2 h]
      simp only [hl, Bool.false_eq_true, if_false, if_pos h, splitN2_headD, splitN2_getD_one h]
    · have hl : ((splitN2 '=' s).length != 2) = true := by
        simp only [bne_iff_ne, ne_eq]
        exact fun e => h (splitN2_length.1 e)
      simp only [hl, if_true, if_neg h]
  unfold pushParseLine
  by_cases hskip : (hasPrefix (trimSpace text) '#' || trimSpace text == []) = true
  · simp only [hskip, if_true]
    have hnil : trimSpace ((trimSpace text).takeWhile (fun c => c != '#')) = [] := by
      simp only [Bool.or_eq_true, beq_iff_eq] at hskip
      rcases hskip with h | h
      · cases ht : trimSpace text with
        | nil => rfl
        | cons c cs =>
          rw [ht] at h
          simp only [hasPrefix, beq_iff_eq] at h
          subst h
          simp [List.takeWhile_cons]
          rfl
      · rw [h]
        rfl
    rw [← hs, hnil]
    simp
  · simp only [hskip, Bool.false_eq_true, if_false]
    have hline : (match index '#' (trimSpace text) with
        | some i => trimSpace ((trimSpace text).take i)
        | none => trimSpace text) = trimSpace (text.takeWhile (fun c => c != '#')) := by
      rw [← hs]
      cases hi : index '#' (trimSpace text) with
      | none =>
        simp only
        rw [takeWhile_ne_of_not_mem (index_eq_none.1 hi), trimSpace_idem]
      | some i =>
        simp only
        rw [take_index hi]
    simp only [hline]
    exact tail _

/-- The outcome of the push parser for a line, in terms of the line itself. -/
theorem pushParseLine_eq (text : Str) :
    pushParseLine text =
      if '=' ∈ text.takeWhile (fun c => c != '#') then
        some (trimSpace (definedKey text),
          trimSpace ((valuePart text).takeWhile (fun c => c != '#')))
      else none := by
  rw [pushParseLine_stripped]
  by_cases h : '=' ∈ text.takeWhile (fun c => c != '#')
  · rw [if_pos h, if_pos (mem_trimSpace_of_not_space h (by decide))]
    obtain ⟨c, hc⟩ := split_at_first h
    have ha : '=' ∉ (text.takeWhile (fun c => c != '#')).takeWhile (fun c => c != '=') :=
      not_mem_takeWhile_ne '=' _
    generalize (text.takeWhile (fun c => c != '#')).takeWhile (fun c => c != '=') = a at hc ha
    have hp := not_mem_takeWhile_ne '#' text
    -- the text is `a`, `=`, `c` and a rest that is empty or starts with `#`
    have htext : ∃ rest, text = a ++ '=' :: (c ++ rest) ∧
        (c ++ rest).takeWhile (fun x => x != '#') = c := by
      by_cases hh : '#' ∈ text
      · obtain ⟨d, hd⟩ := split_at_first hh
        refine ⟨'#' :: d, ?_, ?_⟩
        · conv_lhs => rw [hd, hc]
          simp
        · apply takeWhile_ne_append
          intro e
          apply hp
          rw [hc]
          simp [e]
      · refine ⟨[], ?_, ?_⟩
        · rw [takeWhile_ne_of_not_mem hh] at hc
          simpa using hc
        · rw [List.append_nil]
          apply takeWhile_ne_of_not_mem
          intro e
          apply hp
          rw [hc]
          simp [e]
    obtain ⟨rest, ht, hv⟩ := htext
    have ha2 : '=' ∉ trimLeft a := fun e => ha ((trimLeft_isSuffix a).subset e)
    rw [hc, trimSpace_append_cons a c (by decide), definedKey_append _ ha2,
      valuePart_append _ ha2, trimSpace_trimLeft, trimSpace_trimRight]
    conv_rhs => rw [ht]
    rw [definedKey_append _ ha, valuePart_append _ ha, hv]
  · rw [if_neg h, if_neg (fun e => h (mem_of_mem_trimSpace e))]

/-- Claim C9. In the directory-walk push a line yields a secret exactly when it
holds `=` before any `#`; such a line is not blank and does not start with `#`;
the key sent is the trimmed text before the first `=`, the value sent is the
trimmed text between the first `=` and the first `#` (or the end of the line);
and that value holds no `#`, and neither key nor value has surrounding white
space. -/
theorem C9_push_parse_line (text : Str) :
    pushParseLine text =
      (if '=' ∈ text.takeWhile (fun c => c != '#') then
        some (trimSpace (definedKey text),
          trimSpace ((valuePart text).takeWhile (fun c => c != '#')))
      else none) ∧
    ((pushParseLine text).isSome = true →
      trimSpace text ≠ [] ∧ hasPrefix (trimSpace text) '#' = false) ∧
    '#' ∉ trimSpace ((valuePart text).takeWhile (fun c => c != '#')) ∧
    NoLead (trimSpace (definedKey text)) ∧ NoTrail (trimSpace (definedKey text)) ∧
    NoLead (trimSpace ((valuePart text).takeWhile (fun c => c != '#'))) ∧
    NoTrail (trimSpace ((valuePart text).takeWhile (fun c => c != '#'))) := by
  refine ⟨pushParseLine_eq text, ?_, ?_, trimSpace_noLead _, trimSpace_noTrail _,
    trimSpace_noLead _, trimSpace_noTrail _⟩
  · intro h
    by_cases hskip : (hasPrefix (trimSpace text) '#' || trimSpace text == []) = true
    · unfold pushParseLine at h
      simp only [hskip, if_true, Option.isSome_none, Bool.false_eq_true] at h
    · simp only [Bool.or_eq_true, beq_iff_eq, not_or] at hskip
      exact ⟨hskip.2, by simpa using hskip.1⟩
  · intro h
    exact not_mem_takeWhile_ne '#' _ (mem_of_mem_trimSpace h)

/-! ## Lemmas on the store -/

theorem mem_secretRows {st : Store} {p e : Str} {s x : SecretRow} :
    x ∈ secretRows st p e s ↔ x = s ∧ Linked st p e s.id := by
  unfold secretRows Linked
  simp only [List.mem_flatMap]
  constructor
  · rintro ⟨es, hes, h⟩
    split_ifs at h with h1
    · simp only [List.mem_flatMap] at h
      obtain ⟨env, henv, h⟩ := h
      split_ifs at h with h2
      · simp only [List.mem_flatMap] at h
        obtain ⟨pr, hpr, h⟩ := h
        split_ifs at h with h3
        · simp only [List.mem_singleton] at h
          exact ⟨h, es, hes, h1, env, henv, h2, pr, hpr, h3⟩
        · cases h
      · cases h
    · cases h
  · rintro ⟨rfl, es, hes, h1, env, henv, h2, pr, hpr, h3⟩
    refine ⟨es, hes, ?_⟩
    rw [if_pos h1]
    simp only [List.mem_flatMap]
    refine ⟨env, henv, ?_⟩
    rw [if_pos h2]
    simp only [List.mem_flatMap]
    refine ⟨pr, hpr, ?_⟩
    rw [if_pos h3]
    simp

theorem mem_joinedSecrets {st : Store} {p e : Str} {s : SecretRow} :
    s ∈ joinedSecrets st p e ↔ s ∈ st.secrets ∧ Linked st p e s.id := by
  unfold joinedSecrets
  simp only [List.mem_flatMap, mem_secretRows]
  constructor
  · rintro ⟨a, ha, rfl, hl⟩
    exact ⟨ha, hl⟩
  · rintro ⟨hs, hl⟩
    exact ⟨s, hs, rfl, hl⟩

theorem mem_keys_store {st : Store} {p e k : Str} :
    k ∈ GetAllSecretsKeys st p e ↔ ∃ s ∈ st.secrets, s.key = k ∧ Linked st p e s.id := by
  unfold GetAllSecretsKeys
  simp only [List.mem_map, mem_joinedSecrets]
  constructor
  · rintro ⟨s, ⟨hs, hl⟩, hk⟩
    exact ⟨s, hs, hk, hl⟩
  · rintro ⟨s, hs, hk, hl⟩
    exact ⟨s, ⟨hs, hl⟩, hk⟩

theorem mem_environmentIds {st : Store} {p e : Str} {id : Nat} :
    id ∈ environmentIds st p e ↔
      ∃ env ∈ st.environments, ∃ pr ∈ st.projects,
        (env.projectId = pr.id ∧ pr.name = p ∧ env.environmentType = e) ∧ id = env.id := by
  unfold environmentIds
  simp only [List.mem_flatMap]
  constructor
  · rintro ⟨env, henv, pr, hpr, h⟩
    split_ifs at h with h3
    · simp only [List.mem_singleton] at h
      exact ⟨env, henv, pr, hpr, h3, h⟩
    · cases h
  · rintro ⟨env, henv, pr, hpr, h3, h⟩
    refine ⟨env, henv, pr, hpr, ?_⟩
    rw [if_pos h3]
    simp [h]

/-- The secret counted by `SecretExists` and picked by the scalar subquery. -/
theorem matchingSecretId_eq_some {st : Store} {k p e : Str} {t : Nat}
    (h : matchingSecretId st k p e = some t) :
    ∃ s ∈ joinedSecrets st p e, s.key = k ∧ s.id = t := by
  unfold matchingSecretId at h
  have hm := List.mem_of_mem_head? h
  simp only [List.mem_map, List.mem_filter, decide_eq_true_eq] at hm
  obtain ⟨s, ⟨hs, hk⟩, hid⟩ := hm
  exact ⟨s, hs, hk, hid⟩

theorem matchingSecretId_eq_none {st : Store} {k p e : Str}
    (h : matchingSecretId st k p e = none) :
    (joinedSecrets st p e).filter (fun s => s.key = k) = [] := by
  unfold matchingSecretId at h
  rw [List.head?_eq_none_iff] at h
  exact List.map_eq_nil_iff.1 h

theorem SecretExists_iff {st : Store} {k p e : Str} :
    SecretExists st k p e = true ↔ k ∈ GetAllSecretsKeys st p e := by
  unfold SecretExists GetAllSecretsKeys
  simp only [decide_eq_true_eq, List.length_pos, ne_eq, List.mem_map]
  constructor
  · intro h
    obtain ⟨s, hs⟩ := List.exists_mem_of_ne_nil _ h
    simp only [List.mem_filter, decide_eq_true_eq] at hs
    exact ⟨s, hs.1, hs.2⟩
  · rintro ⟨s, hs, hk⟩ h
    have : s ∈ (joinedSecrets st p e).filter (fun s => s.key = k) := by
      simp [List.mem_filter, hs, hk]
    rw [h] at this
    cases this

theorem le_foldr_max {l : List Nat} {x : Nat} (h : x ∈ l) : x ≤ l.foldr max 0 := by
  induction l with
  | nil => cases h
  | cons a as ih =>
    simp only [List.foldr_cons]
    rcases List.mem_cons.1 h with rfl | h
    · exact Nat.le_max_left _ _
    · exact Nat.le_trans (ih h) (Nat.le_max_right _ _)

theorem newSecretId_fresh (st : Store) : newSecretId st ∉ st.secrets.map SecretRow.id := by
  intro h
  have hle : newSecretId st ≤ (st.secrets.map fun s => s.id).foldr max 0 := le_foldr_max h
  unfold newSecretId at hle
  split_ifs at hle <;> omega

theorem UpdateSecret_tables (st : Store) (k v loc p e : Str) :
    (UpdateSecret st k v loc p e).environmentSecrets = st.environmentSecrets ∧
    (UpdateSecret st k v loc p e).environments = st.environments ∧
    (UpdateSecret st k v loc p e).projects = st.projects := by
  unfold UpdateSecret
  cases matchingSecretId st k p e <;> exact ⟨rfl, rfl, rfl⟩

theorem Linked_congr {st st2 : Store} (h1 : st2.environmentSecrets = st.environmentSecrets)
    (h2 : st2.environments = st.environments) (h3 : st2.projects = st.projects) (p e : Str)
    (id : Nat) : Linked st2 p e id ↔ Linked st p e id := by
  unfold Linked
  rw [h1, h2, h3]

theorem environmentIds_congr {st st2 : Store} (h2 : st2.environments = st.environments)
    (h3 : st2.projects = st.projects) (p e : Str) :
    environmentIds st2 p e = environmentIds st p e := by
  unfold environmentIds
  rw [h2, h3]

theorem UpdateSecret_keys (st : Store) (k v loc p e p2 e2 k2 : Str) :
    k2 ∈ GetAllSecretsKeys (UpdateSecret st k v loc p e) p2 e2 ↔
      k2 ∈ GetAllSecretsKeys st p2 e2 := by
  obtain ⟨h1, h2, h3⟩ := UpdateSecret_tables st k v loc p e
  simp only [mem_keys_store, Linked_congr h1 h2 h3]
  unfold UpdateSecret
  cases matchingSecretId st k p e with
  | none => rfl
  | some t =>
    simp only [List.mem_map]
    constructor
    · rintro ⟨s, ⟨s0, hs0, rfl⟩, hk, hl⟩
      refine ⟨s0, hs0, ?_, ?_⟩
      · split_ifs at hk <;> exact hk
      · split_ifs at hl <;> exact hl
    · rintro ⟨s, hs, hk, hl⟩
      refine ⟨_, ⟨s, hs, rfl⟩, ?_, ?_⟩
      · split_ifs <;> exact hk
      · split_ifs <;> exact hl

theorem UpdateSecret_ids (st : Store) (k v loc p e : Str) :
    (UpdateSecret st k v loc p e).secrets.map SecretRow.id = st.secrets.map SecretRow.id := by
  unfold UpdateSecret
  cases matchingSecretId st k p e with
  | none => rfl
  | some t =>
    simp only [List.map_map]
    apply List.map_congr_left
    intro s _
    simp only [Function.comp]
    split_ifs <;> rfl

theorem UpdateSecret_unique {st : Store} (k v loc p e : Str) (h : SecretIdsUnique st) :
    SecretIdsUnique (UpdateSecret st k v loc p e) := by
  unfold SecretIdsUnique
  rw [UpdateSecret_ids]
  exact h

theorem CreateSecret_unique {st st2 : Store} {k v loc p e : Str}
    (hc : CreateSecret st k v loc p e = some st2) (h : SecretIdsUnique st) :
    SecretIdsUnique st2 := by
  unfold CreateSecret at hc
  cases hid : (environmentIds st p e).head? with
  | none => rw [hid] at hc; cases hc
  | some envId =>
    rw [hid] at hc
    simp only [Option.some.injEq] at hc
    subst hc
    unfold SecretIdsUnique at h ⊢
    simp only [List.map_append, List.map_cons, List.map_nil]
    rw [List.nodup_append]
    refine ⟨h, by simp, ?_⟩
    intro a ha hb
    simp only [List.mem_singleton] at hb
    subst hb
    exact newSecretId_fresh st ha

theorem CreateSecret_tables {st st2 : Store} {k v loc p e : Str}
    (hc : CreateSecret st k v loc p e = some st2) :
    st2.environments = st.environments ∧ st2.projects = st.projects := by
  unfold CreateSecret at hc
  cases hid : (environmentIds st p e).head? with
  | none => rw [hid] at hc; cases hc
  | some envId =>
    rw [hid] at hc
    simp only [Option.some.injEq] at hc
    subst hc
    exact ⟨rfl, rfl⟩

theorem CreateSecret_keys_mono {st st2 : Store} {k v loc p e : Str}
    (hc : CreateSecret st k v loc p e = some st2) (p2 e2 k2 : Str)
    (h : k2 ∈ GetAllSecretsKeys st p2 e2) : k2 ∈ GetAllSecretsKeys st2 p2 e2 := by
  unfold CreateSecret at hc
  cases hid : (environmentIds st p e).head? with
  | none => rw [hid] at hc; cases hc
  | some envId =>
    rw [hid] at hc
    simp only [Option.some.injEq] at hc
    subst hc
    rw [mem_keys_store] at h ⊢
    obtain ⟨s, hs, hk, es, hes, h1, rest⟩ := h
    exact ⟨s, List.mem_append_left _ hs, hk, es, List.mem_append_left _ hes, h1, rest⟩

theorem CreateSecret_key_mem {st st2 : Store} {k v loc p e : Str}
    (hc : CreateSecret st k v loc p e = some st2) : k ∈ GetAllSecretsKeys st2 p e := by
  unfold CreateSecret at hc
  cases hid : (environmentIds st p e).head? with
  | none => rw [hid] at hc; cases hc
  | some envId =>
    rw [hid] at hc
    simp only [Option.some.injEq] at hc
    subst hc
    obtain ⟨env, henv, pr, hpr, h3, hidv⟩ := mem_environmentIds.1 (List.mem_of_mem_head? hid)
    rw [mem_keys_store]
    refine ⟨⟨newSecretId st, k, v, loc, 1⟩, by simp, rfl, ⟨envId, newSecretId st⟩, by simp, rfl,
      env, henv, hidv, pr, hpr, h3⟩

theorem CreateSecret_isSome {st : Store} (k v loc : Str) {p e : Str}
    (h : environmentIds st p e ≠ []) : ∃ st2, CreateSecret st k v loc p e = some st2 := by
  unfold CreateSecret
  cases hid : (environmentIds st p e).head? with
  | none => exact absurd (List.head?_eq_none_iff.1 hid) h
  | some envId => exact ⟨_, rfl⟩

/-- The keys the push parser finds in a list of lines. -/
theorem pushLines_inv (p e dir : Str) (lines : List Str) (st : Store) (lk : List Str)
    (st2 : Store) (lk2 : List Str) (h : pushLines p e dir lines (st, lk) = .ok (st2, lk2))
    (h1 : SecretIdsUnique st) (h2 : ∀ k ∈ lk, k ∈ GetAllSecretsKeys st p e) :
    SecretIdsUnique st2 ∧ (∀ k ∈ lk2, k ∈ GetAllSecretsKeys st2 p e) ∧
      ∀ k, k ∈ lk2 ↔ k ∈ lk ∨ k ∈ lines.filterMap fun t => (pushParseLine t).map Prod.fst := by
  induction lines generalizing st lk with
  | nil =>
    simp only [pushLines, Except.ok.injEq, Prod.mk.injEq] at h
    obtain ⟨rfl, rfl⟩ := h
    exact ⟨h1, h2, by simp⟩
  | cons text rest ih =>
    unfold pushLines at h
    cases hp : pushParseLine text with
    | none =>
      rw [hp] at h
      obtain ⟨a, b, c⟩ := ih st lk h h1 h2
      refine ⟨a, b, ?_⟩
      intro k
      rw [c k, List.filterMap_cons, hp]
      rfl
    | some kv =>
      obtain ⟨key, value⟩ := kv
      rw [hp] at h
      simp only at h
      have hmem : ∀ k, (k ∈ key :: lk ∨ k ∈ rest.filterMap fun t => (pushParseLine t).map Prod.fst) ↔
          (k ∈ lk ∨ k ∈ (text :: rest).filterMap fun t => (pushParseLine t).map Prod.fst) := by
        intro k
        rw [List.filterMap_cons, hp]
        simp only [Option.map_some', List.mem_cons]
        tauto
      by_cases hex : SecretExists st key p e = true
      · rw [if_pos hex] at h
        have h2' : ∀ k ∈ key :: lk,
            k ∈ GetAllSecretsKeys (UpdateSecret st key value dir p e) p e := by
          intro k hk
          rw [UpdateSecret_keys]
          rcases List.mem_cons.1 hk with rfl | hk
          · exact SecretExists_iff.1 hex
          · exact h2 k hk
        obtain ⟨a, b, c⟩ := ih _ _ h (UpdateSecret_unique _ _ _ _ _ h1) h2'
        exact ⟨a, b, fun k => (c k).trans (hmem k)⟩
      · rw [if_neg hex] at h
        cases hc : CreateSecret st key value dir p e with
        | none => rw [hc] at h; cases h
        | some st3 =>
          rw [hc] at h
          simp only at h
          have h2' : ∀ k ∈ key :: lk, k ∈ GetAllSecretsKeys st3 p e := by
            intro k hk
            rcases List.mem_cons.1 hk with rfl | hk
            · exact CreateSecret_key_mem hc
            · exact CreateSecret_keys_mono hc p e k (h2 k hk)
          obtain ⟨a, b, c⟩ := ih _ _ h (CreateSecret_unique hc h1) h2'
          exact ⟨a, b, fun k => (c k).trans (hmem k)⟩

theorem pushLines_total (p e dir : Str) (lines : List Str) (st : Store) (lk : List Str)
    (h : environmentIds st p e ≠ []) :
    ∃ r, pushLines p e dir lines (st, lk) = .ok r ∧ environmentIds r.1 p e ≠ [] := by
  induction lines generalizing st lk with
  | nil => exact ⟨(st, lk), rfl, h⟩
  | cons text rest ih =>
    unfold pushLines
    cases hp : pushParseLine text with
    | none => exact ih st lk h
    | some kv =>
      obtain ⟨key, value⟩ := kv
      simp only
      by_cases hex : SecretExists st key p e = true
      · rw [if_pos hex]
        apply ih
        obtain ⟨-, t2, t3⟩ := UpdateSecret_tables st key value dir p e
        rw [environmentIds_congr t2 t3]
        exact h
      · rw [if_neg hex]
        obtain ⟨st3, hc⟩ := CreateSecret_isSome key value dir h
        rw [hc]
        simp only
        apply ih
        obtain ⟨t2, t3⟩ := CreateSecret_tables hc
        rw [environmentIds_congr t2 t3]
        exact h

theorem pushFile_inv (p e : Str) (file : EnvFile) (st : Store) (lk : List Str)
    (st2 : Store) (lk2 : List Str) (h : pushFile p e file (st, lk) = .ok (st2, lk2))
    (h1 : SecretIdsUnique st) (h2 : ∀ k ∈ lk, k ∈ GetAllSecretsKeys st p e) :
    SecretIdsUnique st2 ∧ (∀ k ∈ lk2, k ∈ GetAllSecretsKeys st2 p e) ∧
      ∀ k, k ∈ lk2 ↔ k ∈ lk ∨ k ∈ parsedKeys [file] := by
  unfold pushFile at h
  simp only at h
  cases hl : pushLines p e file.relativePath (scan (scanPieces file.content)).1 (st, lk) with
  | error x => rw [hl] at h; cases h
  | ok acc =>
    obtain ⟨st3, lk3⟩ := acc
    rw [hl] at h
    simp only at h
    split_ifs at h
    simp only [Except.ok.injEq, Prod.mk.injEq] at h
    obtain ⟨rfl, rfl⟩ := h
    have := pushLines_inv p e _ _ st lk _ _ hl h1 h2
    simpa [parsedKeys] using this

theorem parsedKeys_cons (file : EnvFile) (rest : List EnvFile) (k : Str) :
    k ∈ parsedKeys (file :: rest) ↔ k ∈ parsedKeys [file] ∨ k ∈ parsedKeys rest := by
  simp [parsedKeys]

theorem pushFiles_inv (p e : Str) (files : List EnvFile) (st : Store) (lk : List Str)
    (st2 : Store) (lk2 : List Str) (h : pushFiles p e files (st, lk) = .ok (st2, lk2))
    (h1 : SecretIdsUnique st) (h2 : ∀ k ∈ lk, k ∈ GetAllSecretsKeys st p e) :
    SecretIdsUnique st2 ∧ (∀ k ∈ lk2, k ∈ GetAllSecretsKeys st2 p e) ∧
      ∀ k, k ∈ lk2 ↔ k ∈ lk ∨ k ∈ parsedKeys files := by
  induction files generalizing st lk with
  | nil =>
    simp only [pushFiles, Except.ok.injEq, Prod.mk.injEq] at h
    obtain ⟨rfl, rfl⟩ := h
    exact ⟨h1, h2, by simp [parsedKeys]⟩
  | cons file rest ih =>
    unfold pushFiles at h
    cases hf : pushFile p e file (st, lk) with
    | error x => rw [hf] at h; cases h
    | ok acc =>
      obtain ⟨st3, lk3⟩ := acc
      rw [hf] at h
      simp only at h
      obtain ⟨a, b, c⟩ := pushFile_inv p e file st lk st3 lk3 hf h1 h2
      obtain ⟨a2, b2, c2⟩ := ih st3 lk3 h a b
      refine ⟨a2, b2, ?_⟩
      intro k
      rw [c2 k, c k, parsedKeys_cons file rest k]
      tauto

theorem pushFiles_total (p e : Str) (files : List EnvFile) (st : Store) (lk : List Str)
    (h : environmentIds st p e ≠ [])
    (hlen : ∀ file ∈ files, (scan (scanPieces file.content)).2 = false) :
    ∃ r, pushFiles p e files (st, lk) = .ok r := by
  induction files generalizing st lk with
  | nil => exact ⟨_, rfl⟩
  | cons file rest ih =>
    unfold pushFiles
    obtain ⟨r, hr, henv⟩ :=
      pushLines_total p e file.relativePath (scan (scanPieces file.content)).1 st lk h
    have hf : pushFile p e file (st, lk) = .ok r := by
      unfold pushFile
      simp only [hr, hlen file (by simp), Bool.false_eq_true, if_false]
    rw [hf]
    simp only
    obtain ⟨st3, lk3⟩ := r
    exact ih st3 lk3 henv (fun f hm => hlen f (List.mem_cons_of_mem _ hm))

/-! ## The deletion pass -/

theorem flatMap_filter_self {g : SecretRow → List SecretRow} (q : SecretRow → Bool)
    (hg : ∀ s x, x ∈ g s → x = s) (l : List SecretRow) :
    (l.filter q).flatMap g = (l.flatMap g).filter q := by
  induction l with
  | nil => rfl
  | cons a as ih =>
    by_cases hq : q a = true
    · have hga : (g a).filter q = g a := by
        rw [List.filter_eq_self]
        intro x hx
        rw [hg a x hx]
        exact hq
      simp only [List.filter_cons, hq, if_true, List.flatMap_cons, List.filter_append, hga, ih]
    · have hga : (g a).filter q = [] := by
        rw [List.filter_eq_nil_iff]
        intro x hx
        rw [hg a x hx]
        exact hq
      simp only [List.filter_cons, hq, Bool.false_eq_true, if_false, List.flatMap_cons,
        List.filter_append, hga, ih, List.nil_append]

theorem joinedSecrets_filter (st : Store) (p e : Str) (q : SecretRow → Bool) :
    joinedSecrets { st with secrets := st.secrets.filter q } p e =
      (joinedSecrets st p e).filter q := by
  unfold joinedSecrets
  exact flatMap_filter_self q (fun s x hx => (mem_secretRows.1 hx).1) st.secrets

theorem DeleteSecret_keys (st : Store) (k p e : Str) :
    GetAllSecretsKeys (DeleteSecret st k p e) p e =
      match matchingSecretId st k p e with
      | none => GetAllSecretsKeys st p e
      | some t => ((joinedSecrets st p e).filter fun s => s.id ≠ t).map fun s => s.key := by
  unfold DeleteSecret GetAllSecretsKeys
  cases matchingSecretId st k p e with
  | none => rfl
  | some t => simp only [joinedSecrets_filter]

theorem DeleteSecret_unique {st : Store} (k p e : Str) (h : SecretIdsUnique st) :
    SecretIdsUnique (DeleteSecret st k p e) := by
  unfold DeleteSecret
  cases matchingSecretId st k p e with
  | none => exact h
  | some t =>
    unfold SecretIdsUnique at h ⊢
    exact List.Nodup.sublist (List.Sublist.map _ (List.filter_sublist _)) h

theorem count_filter_map_of_ne (l : List SecretRow) (q : SecretRow → Bool) (k2 : Str)
    (h : ∀ s ∈ l, q s = false → s.key ≠ k2) :
    ((l.filter q).map fun s => s.key).count k2 = (l.map fun s => s.key).count k2 := by
  induction l with
  | nil => rfl
  | cons a as ih =>
    have ih2 := ih (fun s hs => h s (List.mem_cons_of_mem _ hs))
    by_cases hq : q a = true
    · simp only [List.filter_cons, hq, if_true, List.map_cons, List.count_cons, ih2]
    · have hne : a.key ≠ k2 := h a (by simp) (by simpa using hq)
      have hb : (a.key == k2) = false := by simp [hne]
      simp only [List.filter_cons, hq, Bool.false_eq_true, if_false, List.map_cons,
        List.count_cons, ih2, hb, Nat.add_zero]

theorem count_filter_map_le (l : List SecretRow) (q : SecretRow → Bool) (k2 : Str) :
    ((l.filter q).map fun s => s.key).count k2 ≤ (l.map fun s => s.key).count k2 :=
  List.Sublist.count_le (List.Sublist.map _ (List.filter_sublist _)) k2

theorem count_filter_map_lt (l : List SecretRow) (q : SecretRow → Bool) (k : Str)
    (h : ∃ s ∈ l, q s = false ∧ s.key = k) :
    ((l.filter q).map fun s => s.key).count k + 1 ≤ (l.map fun s => s.key).count k := by
  induction l with
  | nil =>
    obtain ⟨s, hs, -⟩ := h
    cases hs
  | cons a as ih =>
    obtain ⟨s, hs, hq, hk⟩ := h
    by_cases hqa : q a = true
    · have hsa : s ∈ as := by
        rcases List.mem_cons.1 hs with rfl | hs
        · rw [hq] at hqa
          cases hqa
        · exact hs
      have := ih ⟨s, hsa, hq, hk⟩
      simp only [List.filter_cons, hqa, if_true, List.map_cons, List.count_cons]
      omega
    · have hle := count_filter_map_le as q k
      simp only [List.filter_cons, hqa, Bool.false_eq_true, if_false, List.map_cons,
        List.count_cons]
      rcases List.mem_cons.1 hs with rfl | hs
      · simp only [hk, beq_self_eq_true, if_true]
        omega
      · have := ih ⟨s, hs, hq, hk⟩
        omega

/-- Deleting the key `k` leaves the number of rows of every other key. -/
theorem DeleteSecret_count_ne {st : Store} {k p e : Str} (hu : SecretIdsUnique st) {k2 : Str}
    (hne : k2 ≠ k) :
    (GetAllSecretsKeys (DeleteSecret st k p e) p e).count k2 =
      (GetAllSecretsKeys st p e).count k2 := by
  rw [DeleteSecret_keys]
  cases hm : matchingSecretId st k p e with
  | none => rfl
  | some t =>
    simp only
    apply count_filter_map_of_ne
    intro s hs hq
    obtain ⟨s0, hs0, hk0, hid0⟩ := matchingSecretId_eq_some hm
    have hid : s.id = t := by simpa using hq
    have heq : s = s0 :=
      List.inj_on_of_nodup_map hu (mem_joinedSecrets.1 hs).1 (mem_joinedSecrets.1 hs0).1
        (by rw [hid, hid0])
    rw [heq, hk0]
    exact fun e => hne e.symm

/-- Deleting the key `k` removes at least one of its rows, when it has one. -/
theorem DeleteSecret_count_self (st : Store) (k p e : Str) :
    (GetAllSecretsKeys (DeleteSecret st k p e) p e).count k ≤
      (GetAllSecretsKeys st p e).count k - 1 := by
  rw [DeleteSecret_keys]
  cases hm : matchingSecretId st k p e with
  | none =>
    simp only
    have := matchingSecretId_eq_none hm
    have h0 : (GetAllSecretsKeys st p e).count k = 0 := by
      rw [List.count_eq_zero]
      intro hk
      obtain ⟨s, hs, hsk⟩ := List.mem_map.1 hk
      have : s ∈ (joinedSecrets st p e).filter (fun s => s.key = k) := by
        simp [List.mem_filter, hs, hsk]
      rw [matchingSecretId_eq_none hm] at this
      cases this
    omega
  | some t =>
    simp only
    obtain ⟨s0, hs0, hk0, hid0⟩ := matchingSecretId_eq_some hm
    have := count_filter_map_lt (joinedSecrets st p e) (fun s => s.id ≠ t) k
      ⟨s0, hs0, by simp [hid0], hk0⟩
    unfold GetAllSecretsKeys
    omega

theorem not_contains_iff {lk : List Str} {key : Str} :
    (!lk.contains key) = true ↔ key ∉ lk := by
  simp

/-- The loop of `deleteUnusedSecrets` over the remaining keys `ks`: local keys
keep their rows, and every other key loses a row per occurrence in `ks`. -/
theorem deleteLoop_counts (p e : Str) (lk : List Str) (ks : List Str) (st : Store)
    (hu : SecretIdsUnique st) :
    SecretIdsUnique
        (ks.foldl (fun st key => if !lk.contains key then DeleteSecret st key p e else st) st) ∧
      (∀ k ∈ lk,
        (GetAllSecretsKeys
          (ks.foldl (fun st key => if !lk.contains key then DeleteSecret st key p e else st) st)
          p e).count k = (GetAllSecretsKeys st p e).count k) ∧
      ∀ k, k ∉ lk →
        (GetAllSecretsKeys
          (ks.foldl (fun st key => if !lk.contains key then DeleteSecret st key p e else st) st)
          p e).count k ≤ (GetAllSecretsKeys st p e).count k - ks.count k := by
  induction ks generalizing st with
  | nil => exact ⟨hu, fun _ _ => rfl, fun _ _ => by simp⟩
  | cons key rest ih =>
    rw [List.foldl_cons]
    by_cases hkey : key ∈ lk
    · have hc : (!lk.contains key) = false := by simpa using hkey
      simp only [hc, Bool.false_eq_true, if_false]
      obtain ⟨a, b, c⟩ := ih st hu
      refine ⟨a, b, ?_⟩
      intro k hk
      have hne : key ≠ k := fun e => hk (e ▸ hkey)
      have hb : (key == k) = false := by simp [hne]
      have := c k hk
      simp only [List.count_cons, hb]
      simpa using this
    · have hc : (!lk.contains key) = true := not_contains_iff.2 hkey
      simp only [hc, if_true]
      obtain ⟨a, b, c⟩ := ih (DeleteSecret st key p e) (DeleteSecret_unique key p e hu)
      refine ⟨a, ?_, ?_⟩
      · intro k hk
        have hne : k ≠ key := fun e => hkey (e ▸ hk)
        rw [b k hk, DeleteSecret_count_ne hu hne]
      · intro k hk
        have h1 := c k hk
        by_cases hkk : k = key
        · subst hkk
          have h2 := DeleteSecret_count_self st k p e
          simp only [List.count_cons, beq_self_eq_true, if_true]
          omega
        · have h2 := DeleteSecret_count_ne (p := p) (e := e) hu hkk
          have hne : key ≠ k := fun e => hkk e.symm
          have hb : (key == k) = false := by simp [hne]
          simp only [List.count_cons, hb]
          rw [h2] at h1
          simpa using h1

/-- After `deleteUnusedSecrets` the keys of the pair are the local keys that
were stored. -/
theorem deleteUnusedSecrets_keys (st : Store) (p e : Str) (lk : List Str)
    (hu : SecretIdsUnique st) (k : Str) :
    k ∈ GetAllSecretsKeys (deleteUnusedSecrets st p e lk) p e ↔
      k ∈ lk ∧ k ∈ GetAllSecretsKeys st p e := by
  obtain ⟨-, b, c⟩ := deleteLoop_counts p e lk (GetAllSecretsKeys st p e) st hu
  unfold deleteUnusedSecrets
  rw [← List.count_pos_iff, ← List.count_pos_iff (l := GetAllSecretsKeys st p e)]
  by_cases hk : k ∈ lk
  · rw [b k hk]
    simp [hk]
  · have := c k hk
    simp only [hk, false_and, iff_false]
    omega

/-- Claim C10. Directory-walk push is a full reconciliation. For every store
whose secrets have distinct ids (the primary key) and every list of local `.env`
files: when the pair exists and no line reaches the scanner's token limit,
`handleEnvFiles` returns without error; and whenever it returns without error,
the keys `GetAllSecretsKeys` lists for the pair are exactly the keys the push
parser found in the files, so a key stored before and found in no file is absent
from `GetSecrets` afterwards. -/
theorem C10_full_reconciliation (st : Store) (projectName environmentType : Str)
    (files : List EnvFile) (hids : SecretIdsUnique st) :
    (environmentIds st projectName environmentType ≠ [] →
      (∀ file ∈ files, (scan (scanPieces file.content)).2 = false) →
      ∃ st2, handleEnvFiles st projectName environmentType files = .ok st2) ∧
    ∀ st2, handleEnvFiles st projectName environmentType files = .ok st2 →
      (∀ k, k ∈ GetAllSecretsKeys st2 projectName environmentType ↔ k ∈ parsedKeys files) ∧
      ∀ k, k ∈ GetAllSecretsKeys st projectName environmentType → k ∉ parsedKeys files →
        k ∉ (GetSecrets st2 projectName environmentType).map fun row => row.1 := by
  have main : ∀ st2, handleEnvFiles st projectName environmentType files = .ok st2 →
      ∀ k, k ∈ GetAllSecretsKeys st2 projectName environmentType ↔ k ∈ parsedKeys files := by
    intro st2 h k
    unfold handleEnvFiles at h
    cases hp : pushFiles projectName environmentType files (st, []) with
    | error x => rw [hp] at h; cases h
    | ok acc =>
      obtain ⟨st3, lk3⟩ := acc
      rw [hp] at h
      simp only [Except.ok.injEq] at h
      subst h
      obtain ⟨a, b, c⟩ := pushFiles_inv projectName environmentType files st [] st3 lk3 hp hids
        (by simp)
      rw [deleteUnusedSecrets_keys st3 _ _ lk3 a k, c k]
      simp only [List.not_mem_nil, false_or]
      constructor
      · exact fun h => h.1
      · intro h
        exact ⟨h, b k ((c k).2 (Or.inr h))⟩
  refine ⟨?_, fun st2 h => ⟨main st2 h, ?_⟩⟩
  · intro henv hlen
    obtain ⟨r, hr⟩ := pushFiles_total projectName environmentType files st [] henv hlen
    obtain ⟨st3, lk3⟩ := r
    exact ⟨deleteUnusedSecrets st3 projectName environmentType lk3, by
      simp [handleEnvFiles, hr]⟩
  · intro k _ hk hmem
    have hkeys : (GetSecrets st2 projectName environmentType).map (fun row => row.1) =
        GetAllSecretsKeys st2 projectName environmentType := by
      simp [GetSecrets, GetAllSecretsKeys]
    rw [hkeys] at hmem
    exact hk ((main st2 h k).1 hmem)

theorem C10_full_reconciliation_witness :
    SecretIdsUnique demoStore ∧
    ((environmentIds demoStore ['p'] "development".toList ≠ [] →
      (∀ file ∈ demoFiles, (scan (scanPieces file.content)).2 = false) →
      ∃ st2, handleEnvFiles demoStore ['p'] "development".toList demoFiles = .ok st2) ∧
    ∀ st2, handleEnvFiles demoStore ['p'] "development".toList demoFiles = .ok st2 →
      (∀ k, k ∈ GetAllSecretsKeys st2 ['p'] "development".toList ↔ k ∈ parsedKeys demoFiles) ∧
      ∀ k, k ∈ GetAllSecretsKeys demoStore ['p'] "development".toList →
        k ∉ parsedKeys demoFiles →
        k ∉ (GetSecrets st2 ['p'] "development".toList).map fun row => row.1) :=
  ⟨by decide, C10_full_reconciliation demoStore ['p'] "development".toList demoFiles (by decide)⟩

/-- The run of claim C10 on the demonstration store: the stored key `OLD`, found
in no file, is gone; the keys `A` and `B` of the file are stored with their
trimmed values. -/
theorem handleEnvFiles_demo :
    (handleEnvFiles demoStore ['p'] "development".toList demoFiles).toOption.map
        (fun st2 => GetSecrets st2 ['p'] "development".toList) =
      some [(['A'], ['1'], ['.']), (['B'], ['2'], ['.'])] := by
  decide

/-! ## `handleSingleSecret`, `UpdateSecret` and `DeleteSecret` on their own -/

theorem matchingSecretId_of_not_exists {st : Store} {k p e : Str}
    (h : SecretExists st k p e = false) : matchingSecretId st k p e = none := by
  unfold SecretExists at h
  simp only [decide_eq_false_iff_not, List.length_pos, ne_eq, not_not] at h
  unfold matchingSecretId
  rw [h]
  rfl

/-- Claim C13. `handleSingleSecret` returns the `invalid format` error exactly
when the pair holds no `=`; and when it returns that error it has issued no call
into the store (no `SecretExists`, `CreateSecret` or `UpdateSecret`) and the
store is as it was. -/
theorem C13_invalid_format (st : Store) (projectName environmentType secretPair : Str) :
    ((handleSingleSecret st projectName environmentType secretPair).error =
        some SingleError.invalidFormat ↔ '=' ∉ secretPair) ∧
    ((handleSingleSecret st projectName environmentType secretPair).error =
        some SingleError.invalidFormat →
      (handleSingleSecret st projectName environmentType secretPair).calls = [] ∧
      (handleSingleSecret st projectName environmentType secretPair).store = st) := by
  by_cases h : '=' ∈ secretPair
  · have hl : ((splitN2 '=' secretPair).length != 2) = false := by simp [splitN2_length.2 h]
    have herr : (handleSingleSecret st projectName environmentType secretPair).error ≠
        some SingleError.invalidFormat := by
      unfold handleSingleSecret
      simp only [hl, Bool.false_eq_true, if_false]
      split_ifs
      · simp
      · split <;> simp
    exact ⟨⟨fun e => absurd e herr, fun e => absurd h e⟩, fun e => absurd e herr⟩
  · have hl : ((splitN2 '=' secretPair).length != 2) = true := by
      simp only [bne_iff_ne, ne_eq]
      exact fun e => h (splitN2_length.1 e)
    have hout : handleSingleSecret st projectName environmentType secretPair =
        ⟨st, [], some SingleError.invalidFormat⟩ := by
      unfold handleSingleSecret
      simp only [hl, if_true]
    rw [hout]
    exact ⟨⟨fun _ => h, fun _ => rfl⟩, fun _ => ⟨rfl, rfl⟩⟩

/-- Claim C17. When `SecretExists` is false for a key, project and environment
type, `UpdateSecret` and `DeleteSecret` (which return no error) leave the store,
with all its tables, exactly as it was. -/
theorem C17_noop_on_missing (st : Store) (key value location projectName environmentType : Str)
    (h : SecretExists st key projectName environmentType = false) :
    UpdateSecret st key value location projectName environmentType = st ∧
    DeleteSecret st key projectName environmentType = st := by
  have hm := matchingSecretId_of_not_exists h
  unfold UpdateSecret DeleteSecret
  rw [hm]
  exact ⟨rfl, rfl⟩

theorem C17_noop_on_missing_witness :
    SecretExists demoStore ['A'] ['p'] "development".toList = false ∧
    (UpdateSecret demoStore ['A'] ['1'] ['.'] ['p'] "development".toList = demoStore ∧
      DeleteSecret demoStore ['A'] ['p'] "development".toList = demoStore) :=
  ⟨by decide, C17_noop_on_missing demoStore ['A'] ['1'] ['.'] ['p'] "development".toList
    (by decide)⟩

theorem filter_id_ne_eq_erase {l : List SecretRow} (hu : (l.map SecretRow.id).Nodup)
    {s : SecretRow} (hs : s ∈ l) : (l.filter fun x => x.id ≠ s.id) = l.erase s := by
  rw [List.Nodup.erase_eq_filter (List.Nodup.of_map _ hu)]
  apply List.filter_congr
  intro x hx
  by_cases hxs : x = s
  · subst hxs
    simp
  · have : x.id ≠ s.id := fun e => hxs (List.inj_on_of_nodup_map hu hx hs e)
    simp [hxs, this]

/-- Claim C19. `DeleteSecret` changes only the table `secrets`: the link rows,
the environments and the projects are as before (so the link row of a deleted
secret stays), and either no row of `secrets` is removed or exactly one is, a
row whose key is the given key and whose id is linked to an environment of the
given type of the given project. The ids of `secrets` are a primary key. -/
theorem C19_delete_frame (st : Store) (key projectName environmentType : Str)
    (hu : SecretIdsUnique st) :
    (DeleteSecret st key projectName environmentType).environmentSecrets =
      st.environmentSecrets ∧
    (DeleteSecret st key projectName environmentType).environments = st.environments ∧
    (DeleteSecret st key projectName environmentType).projects = st.projects ∧
    ((DeleteSecret st key projectName environmentType).secrets = st.secrets ∨
      ∃ s ∈ st.secrets, s.key = key ∧ Linked st projectName environmentType s.id ∧
        (DeleteSecret st key projectName environmentType).secrets = st.secrets.erase s) := by
  unfold DeleteSecret
  cases hm : matchingSecretId st key projectName environmentType with
  | none => exact ⟨rfl, rfl, rfl, Or.inl rfl⟩
  | some t =>
    refine ⟨rfl, rfl, rfl, Or.inr ?_⟩
    obtain ⟨s, hs, hk, hid⟩ := matchingSecretId_eq_some hm
    obtain ⟨hmem, hlink⟩ := mem_joinedSecrets.1 hs
    refine ⟨s, hmem, hk, hlink, ?_⟩
    simp only
    rw [← hid]
    exact filter_id_ne_eq_erase hu hmem

theorem C19_delete_frame_witness :
    SecretIdsUnique demoStore ∧
    ((DeleteSecret demoStore "OLD".toList ['p'] "development".toList).environmentSecrets =
      demoStore.environmentSecrets ∧
    (DeleteSecret demoStore "OLD".toList ['p'] "development".toList).environments =
      demoStore.environments ∧
    (DeleteSecret demoStore "OLD".toList ['p'] "development".toList).projects =
      demoStore.projects ∧
    ((DeleteSecret demoStore "OLD".toList ['p'] "development".toList).secrets =
        demoStore.secrets ∨
      ∃ s ∈ demoStore.secrets, s.key = "OLD".toList ∧
        Linked demoStore ['p'] "development".toList s.id ∧
        (DeleteSecret demoStore "OLD".toList ['p'] "development".toList).secrets =
          demoStore.secrets.erase s)) :=
  ⟨by decide, C19_delete_frame demoStore "OLD".toList ['p'] "development".toList (by decide)⟩

/-- The run of claim C19 on the demonstration store: the secret `OLD` is removed
and its link row stays. -/
theorem DeleteSecret_demo :
    (DeleteSecret demoStore "OLD".toList ['p'] "development".toList).secrets = [] ∧
    (DeleteSecret demoStore "OLD".toList ['p'] "development".toList).environmentSecrets =
      [⟨1, 1⟩] := by
  decide

/-! ## The two parsers on one line -/

theorem definedKey_trimSpace {line : Str} (h : '=' ∈ line) :
    definedKey (trimSpace line) = trimLeft (definedKey line) := by
  have hd := split_definedKey h
  have hk : '=' ∉ trimLeft (definedKey line) :=
    fun e => definedKey_not_mem line ((trimLeft_isSuffix _).subset e)
  conv_lhs => rw [hd]
  rw [trimSpace_append_cons _ _ (by decide), definedKey_append _ hk]

/-- Claim C18. On a line without `#` the two parsers agree: the push parser of
`handleEnvFiles` yields a secret exactly when the loop body of `extractKeys`
yields an entry for the line, and the key of the push parser is the
white-space-trimmed key of that entry. -/
theorem C18_parsers_agree (line : Str) (h : '#' ∉ line) :
    ((pushParseLine line).isSome = true ↔ extractKeysStep [] line ≠ []) ∧
    ∀ key value, pushParseLine line = some (key, value) →
      ∃ key2, extractKeysStep [] line = [(key2, trimSpace line)] ∧ key = trimSpace key2 := by
  have hp := pushParseLine_eq line
  rw [takeWhile_ne_of_not_mem h] at hp
  have hs := extractKeysStep_eq [] line
  by_cases he : '=' ∈ line
  · rw [if_pos he] at hp
    rw [if_pos (contains_iff.2 (mem_trimSpace_of_not_space he (by decide)))] at hs
    constructor
    · rw [hp, hs]
      simp [GoMap.set]
    · intro key value hkv
      rw [hp] at hkv
      simp only [Option.some.injEq, Prod.mk.injEq] at hkv
      refine ⟨definedKey (trimSpace line), ?_, ?_⟩
      · rw [hs]
        rfl
      · rw [← hkv.1, definedKey_trimSpace he, trimSpace_trimLeft]
  · rw [if_neg he] at hp
    rw [if_neg (fun e => he (mem_of_mem_trimSpace (contains_iff.1 e)))] at hs
    constructor
    · rw [hp, hs]
      simp
    · intro key value hkv
      rw [hp] at hkv
      cases hkv

theorem C18_parsers_agree_witness :
    '#' ∉ " A = 1 ".toList ∧
    (((pushParseLine " A = 1 ".toList).isSome = true ↔
        extractKeysStep [] " A = 1 ".toList ≠ []) ∧
      ∀ key value, pushParseLine " A = 1 ".toList = some (key, value) →
        ∃ key2, extractKeysStep [] " A = 1 ".toList = [(key2, trimSpace " A = 1 ".toList)] ∧
          key = trimSpace key2) :=
  ⟨by decide, C18_parsers_agree " A = 1 ".toList (by decide)⟩

/-- The two parsers on the line ` A = 1 `: the push parser gives the key `A`,
`extractKeys` the key `A` followed by a space. -/
theorem parsers_demo :
    pushParseLine " A = 1 ".toList = some (['A'], ['1']) ∧
    extractKeysStep [] " A = 1 ".toList = [("A ".toList, "A = 1".toList)] := by
  decide

/-! ## `CreateProject` -/

theorem newProjectId_fresh (st : Store) : newProjectId st ∉ st.projects.map fun p => p.id := by
  intro h
  have hle := le_foldr_max h
  unfold newProjectId at hle
  omega

theorem newEnvironmentId_fresh (envs : List EnvironmentRow) :
    newEnvironmentId envs ∉ envs.map fun e => e.id := by
  intro h
  have hle := le_foldr_max h
  unfold newEnvironmentId at hle
  omega

/-- Claim C16. `CreateProject` fails when a project with the name exists, and
the store is then as it was; otherwise it returns no error, and the store gains
one project row with a fresh id, the name and the active flag, and three
environment rows with fresh ids owned by that project, of type development,
staging and production in this order; the other rows and tables are as
before. -/
theorem C16_create_project (st : Store) (name : Str) :
    ((∃ p ∈ st.projects, p.name = name) →
      (CreateProject st name).2 ≠ none ∧ (CreateProject st name).1 = st) ∧
    ((¬ ∃ p ∈ st.projects, p.name = name) →
      (CreateProject st name).2 = none ∧
      ∃ projectID e1 e2 e3,
        projectID ∉ (st.projects.map fun p => p.id) ∧
        e1 ∉ (st.environments.map fun e => e.id) ∧
        e2 ∉ (st.environments.map fun e => e.id) ∧
        e3 ∉ (st.environments.map fun e => e.id) ∧
        e1 ≠ e2 ∧ e1 ≠ e3 ∧ e2 ≠ e3 ∧
        (CreateProject st name).1 =
          { st with
            projects := st.projects ++ [⟨projectID, name, true⟩]
            environments := st.environments ++
              [⟨e1, projectID, "development".toList⟩, ⟨e2, projectID, "staging".toList⟩,
                ⟨e3, projectID, "production".toList⟩] }) := by
  constructor
  · rintro ⟨p, hp, hn⟩
    have hne : (st.projects.filter fun p => p.name = name) ≠ [] := by
      intro e
      have : p ∈ st.projects.filter fun p => p.name = name := by
        simp [List.mem_filter, hp, hn]
      rw [e] at this
      cases this
    have hfail : insertProjectFails st name = true := by
      unfold insertProjectFails
      exact decide_eq_true hne
    unfold CreateProject
    simp only [hfail, if_true]
    split_ifs
    · exact ⟨by simp, rfl⟩
    · exact ⟨by simp, rfl⟩
  · intro hno
    have hnil : (st.projects.filter fun p => p.name = name) = [] := by
      rw [List.filter_eq_nil_iff]
      intro p hp
      simp only [decide_eq_true_eq]
      exact fun e => hno ⟨p, hp, e⟩
    have hfail : insertProjectFails st name = false := by
      unfold insertProjectFails
      rw [hnil]
      rfl
    unfold CreateProject
    simp only [hnil, hfail, List.map_nil, List.head?_nil, Option.getD_none, ne_eq,
      not_true_eq_false, if_false, Bool.false_eq_true]
    refine ⟨trivial, newProjectId st, newEnvironmentId st.environments,
      newEnvironmentId (st.environments ++ [⟨newEnvironmentId st.environments, newProjectId st,
        "development".toList⟩]),
      newEnvironmentId (st.environments ++ [⟨newEnvironmentId st.environments, newProjectId st,
        "development".toList⟩] ++ [⟨newEnvironmentId (st.environments ++
          [⟨newEnvironmentId st.environments, newProjectId st, "development".toList⟩]),
          newProjectId st, "staging".toList⟩]),
      newProjectId_fresh st, newEnvironmentId_fresh _, ?_, ?_, ?_, ?_, ?_, ?_⟩
    · intro hm
      have f := newEnvironmentId_fresh (st.environments ++ [⟨newEnvironmentId st.environments,
        newProjectId st, "development".toList⟩])
      rw [List.map_append, List.mem_append, not_or] at f
      exact f.1 hm
    · intro hm
      have f := newEnvironmentId_fresh (st.environments ++ [⟨newEnvironmentId st.environments,
        newProjectId st, "development".toList⟩] ++ [⟨newEnvironmentId (st.environments ++
          [⟨newEnvironmentId st.environments, newProjectId st, "development".toList⟩]),
          newProjectId st, "staging".toList⟩])
      rw [List.map_append, List.map_append, List.mem_append, List.mem_append, not_or, not_or] at f
      exact f.1.1 hm
    · intro e
      exact newEnvironmentId_fresh (st.environments ++ [⟨newEnvironmentId st.environments,
        newProjectId st, "development".toList⟩]) (by
        rw [← e]
        simp)
    · intro e
      exact newEnvironmentId_fresh (st.environments ++ [⟨newEnvironmentId st.environments,
        newProjectId st, "development".toList⟩] ++ [⟨newEnvironmentId (st.environments ++
          [⟨newEnvironmentId st.environments, newProjectId st, "development".toList⟩]),
          newProjectId st, "staging".toList⟩]) (by
        rw [← e]
        simp)
    · intro e
      exact newEnvironmentId_fresh (st.environments ++ [⟨newEnvironmentId st.environments,
        newProjectId st, "development".toList⟩] ++ [⟨newEnvironmentId (st.environments ++
          [⟨newEnvironmentId st.environments, newProjectId st, "development".toList⟩]),
          newProjectId st, "staging".toList⟩]) (by
        rw [← e]
        simp)
    · simp [insertEnvironments]

/-- The run of claim C16 on the demonstration store: a project named `q` is
created with three environments; one named `p` is refused. -/
theorem CreateProject_demo :
    (CreateProject emptyStore ['q']).2 = none ∧
    (CreateProject emptyStore ['q']).1.projects = [⟨1, ['p'], true⟩, ⟨2, ['q'], true⟩] ∧
    (CreateProject emptyStore ['q']).1.environments.drop 3 =
      [⟨4, 2, "development".toList⟩, ⟨5, 2, "staging".toList⟩, ⟨6, 2, "production".toList⟩] ∧
    CreateProject emptyStore ['p'] = (emptyStore, some ProjectError.alreadyExists) := by
  decide

/-! ## What `CreateSecret` and `UpdateSecret` leave -/

theorem CreateSecret_eq {st st2 : Store} {k v loc p e : Str}
    (hc : CreateSecret st k v loc p e = some st2) :
    ∃ envId ∈ environmentIds st p e,
      st2 = { st with
        secrets := st.secrets ++ [⟨newSecretId st, k, v, loc, 1⟩]
        environmentSecrets := st.environmentSecrets ++ [⟨envId, newSecretId st⟩]
        secretSeq := if st.autoIncrement then newSecretId st else st.secretSeq } := by
  unfold CreateSecret at hc
  cases hid : (environmentIds st p e).head? with
  | none => rw [hid] at hc; cases hc
  | some envId =>
    rw [hid] at hc
    simp only [Option.some.injEq] at hc
    exact ⟨envId, List.mem_of_mem_head? hid, hc.symm⟩

theorem UpdateSecret_eq {st : Store} {k p e : Str} (v loc : Str)
    (hex : SecretExists st k p e = true) :
    ∃ s0 ∈ joinedSecrets st p e, s0.key = k ∧
      UpdateSecret st k v loc p e =
        { st with secrets := st.secrets.map fun s =>
            if s.id = s0.id then { s with value := v, location := loc } else s } := by
  cases hm : matchingSecretId st k p e with
  | none =>
    have hk := SecretExists_iff.1 hex
    obtain ⟨s, hs, hsk⟩ := List.mem_map.1 hk
    have : s ∈ (joinedSecrets st p e).filter (fun s => s.key = k) := by
      simp [List.mem_filter, hs, hsk]
    rw [matchingSecretId_eq_none hm] at this
    cases this
  | some t =>
    obtain ⟨s0, hs0, hk0, hid0⟩ := matchingSecretId_eq_some hm
    refine ⟨s0, hs0, hk0, ?_⟩
    unfold UpdateSecret
    rw [hm, hid0]

/-- A secret that was in the store keeps its links when a secret is created. -/
theorem Linked_create_old {st : Store} (envId : Nat) (k v loc : Str) (p e : Str) {id : Nat}
    (hid : id ≠ newSecretId st) :
    Linked { st with
        secrets := st.secrets ++ [⟨newSecretId st, k, v, loc, 1⟩]
        environmentSecrets := st.environmentSecrets ++ [⟨envId, newSecretId st⟩]
        secretSeq := if st.autoIncrement then newSecretId st else st.secretSeq } p e id ↔
      Linked st p e id := by
  unfold Linked
  simp only [List.mem_append, List.mem_singleton]
  constructor
  · rintro ⟨es, hes | hes, h1, rest⟩
    · exact ⟨es, hes, h1, rest⟩
    · subst hes
      exact absurd h1 hid
  · rintro ⟨es, hes, h1, rest⟩
    exact ⟨es, Or.inl hes, h1, rest⟩

theorem Linked_create_new {st : Store} {envId : Nat} (k v loc : Str) {p e : Str}
    (henv : envId ∈ environmentIds st p e) :
    Linked { st with
        secrets := st.secrets ++ [⟨newSecretId st, k, v, loc, 1⟩]
        environmentSecrets := st.environmentSecrets ++ [⟨envId, newSecretId st⟩]
        secretSeq := if st.autoIncrement then newSecretId st else st.secretSeq } p e
      (newSecretId st) := by
  obtain ⟨env, henv2, pr, hpr, h3, hidv⟩ := mem_environmentIds.1 henv
  exact ⟨⟨envId, newSecretId st⟩, by simp, rfl, env, henv2, hidv, pr, hpr, h3⟩

theorem id_ne_newSecretId {st : Store} {x : SecretRow} (hx : x ∈ st.secrets) :
    x.id ≠ newSecretId st :=
  fun e => newSecretId_fresh st (e ▸ List.mem_map_of_mem SecretRow.id hx)

/-- The secrets of the pair after `CreateSecret` for it: those before and the
new one. -/
theorem mem_joined_create {st : Store} {envId : Nat} (k v loc : Str) {p e : Str}
    (henv : envId ∈ environmentIds st p e) (x : SecretRow) :
    x ∈ joinedSecrets { st with
        secrets := st.secrets ++ [⟨newSecretId st, k, v, loc, 1⟩]
        environmentSecrets := st.environmentSecrets ++ [⟨envId, newSecretId st⟩]
        secretSeq := if st.autoIncrement then newSecretId st else st.secretSeq } p e ↔
      x ∈ joinedSecrets st p e ∨ x = ⟨newSecretId st, k, v, loc, 1⟩ := by
  rw [mem_joinedSecrets, mem_joinedSecrets]
  simp only [List.mem_append, List.mem_singleton]
  constructor
  · rintro ⟨hx | hx, hl⟩
    · exact Or.inl ⟨hx, (Linked_create_old envId k v loc p e (id_ne_newSecretId hx)).1 hl⟩
    · exact Or.inr hx
  · rintro (⟨hx, hl⟩ | hx)
    · exact ⟨Or.inl hx, (Linked_create_old envId k v loc p e (id_ne_newSecretId hx)).2 hl⟩
    · subst hx
      exact ⟨Or.inr rfl, Linked_create_new k v loc henv⟩

/-- The secrets of a pair after an update of value and location by id. -/
theorem mem_joined_update {st : Store} (t : Nat) (v loc : Str) (p e : Str) (x : SecretRow) :
    x ∈ joinedSecrets { st with secrets := st.secrets.map fun s =>
        if s.id = t then { s with value := v, location := loc } else s } p e ↔
      ∃ y ∈ joinedSecrets st p e,
        x = if y.id = t then { y with value := v, location := loc } else y := by
  rw [mem_joinedSecrets]
  simp only [List.mem_map]
  constructor
  · rintro ⟨⟨y, hy, rfl⟩, hl⟩
    refine ⟨y, mem_joinedSecrets.2 ⟨hy, ?_⟩, rfl⟩
    have hid : (if y.id = t then { y with value := v, location := loc } else y).id = y.id := by
      split_ifs <;> rfl
    rw [hid] at hl
    exact hl
  · rintro ⟨y, hy, rfl⟩
    obtain ⟨hy1, hy2⟩ := mem_joinedSecrets.1 hy
    refine ⟨⟨y, hy1, rfl⟩, ?_⟩
    have hid : (if y.id = t then { y with value := v, location := loc } else y).id = y.id := by
      split_ifs <;> rfl
    rw [hid]
    exact hy2

/-- The three ways `handleSingleSecret` ends. -/
theorem handleSingleSecret_cases (st : Store) (p e pair : Str) :
    ((handleSingleSecret st p e pair).store = st ∧
      (handleSingleSecret st p e pair).error ≠ none) ∨
    (SecretExists st (trimSpace (definedKey pair)) p e = true ∧
      (handleSingleSecret st p e pair).store =
        UpdateSecret st (trimSpace (definedKey pair)) (trimSpace (valuePart pair)) ['.'] p e ∧
      (handleSingleSecret st p e pair).error = none) ∨
    (SecretExists st (trimSpace (definedKey pair)) p e = false ∧
      CreateSecret st (trimSpace (definedKey pair)) (trimSpace (valuePart pair)) ['.'] p e =
        some (handleSingleSecret st p e pair).store ∧
      (handleSingleSecret st p e pair).error = none) := by
  by_cases h : '=' ∈ pair
  · have hl : ((splitN2 '=' pair).length != 2) = false := by simp [splitN2_length.2 h]
    unfold handleSingleSecret
    simp only [hl, Bool.false_eq_true, if_false, splitN2_headD, splitN2_getD_one h]
    by_cases hex : SecretExists st (trimSpace (definedKey pair)) p e = true
    · rw [if_pos hex]
      exact Or.inr (Or.inl ⟨hex, rfl, rfl⟩)
    · rw [if_neg hex]
      cases hc : CreateSecret st (trimSpace (definedKey pair)) (trimSpace (valuePart pair))
          ['.'] p e with
      | none =>
        left
        constructor <;> simp
      | some st2 =>
        right
        right
        exact ⟨by simpa using hex, by simp, by simp⟩
  · have hl : ((splitN2 '=' pair).length != 2) = true := by
      simp only [bne_iff_ne, ne_eq]
      exact fun e => h (splitN2_length.1 e)
    unfold handleSingleSecret
    simp only [hl, if_true]
    left
    constructor <;> simp

theorem handleSingleSecret_total {st : Store} {p e pair : Str}
    (henv : environmentIds st p e ≠ []) (h : '=' ∈ pair) :
    (handleSingleSecret st p e pair).error = none := by
  have hl : ((splitN2 '=' pair).length != 2) = false := by simp [splitN2_length.2 h]
  unfold handleSingleSecret
  simp only [hl, Bool.false_eq_true, if_false]
  split_ifs
  · rfl
  · obtain ⟨st2, hc⟩ := CreateSecret_isSome (trimSpace ((splitN2 '=' pair).headD []))
      (trimSpace ((splitN2 '=' pair).getD 1 [])) ['.'] henv
    rw [hc]

theorem filter_map_update (l : List SecretRow) (t : Nat) (v loc : Str) :
    ((l.map fun s => if s.id = t then { s with value := v, location := loc } else s).filter
      fun x => x.id ≠ t) = l.filter fun x => x.id ≠ t := by
  induction l with
  | nil => rfl
  | cons a as ih =>
    rw [List.map_cons, List.filter_cons, List.filter_cons, ih]
    by_cases ha : a.id = t
    · simp [ha]
    · simp [ha]

/-! ## The grouping of `processSecrets` -/

theorem lookup_filter_ne_loc (m : LocationMap) {L L2 : Str} (h : L2 ≠ L) :
    (m.filter (fun p => p.1 != L)).lookup L2 = m.lookup L2 := by
  induction m with
  | nil => rfl
  | cons p ps ih =>
    obtain ⟨a, b⟩ := p
    by_cases ha : a = L
    · subst ha
      have h2 : (L2 == a) = false := by simp [h]
      simp [List.filter_cons, List.lookup_cons, h2, ih]
    · have hb : (a != L) = true := by simp [ha]
      simp only [List.filter_cons, hb, if_true, List.lookup_cons, ih]

theorem lookup_groupStep (m : LocationMap) (s : Str × Str × Str) (L : Str) :
    (groupStep m s).lookup L =
      if L = s.2.2 then some (((m.lookup s.2.2).getD []).set s.1 s.2.1) else m.lookup L := by
  unfold groupStep
  split_ifs with h
  · subst h
    simp [List.lookup_cons]
  · have h2 : (L == s.2.2) = false := by simp [h]
    simp only [List.lookup_cons, h2]
    exact lookup_filter_ne_loc m h

theorem groupStep_keys_nodup (m : LocationMap) (s : Str × Str × Str)
    (h : (m.map Prod.fst).Nodup) : ((groupStep m s).map Prod.fst).Nodup := by
  unfold groupStep
  simp only [List.map_cons, List.nodup_cons]
  constructor
  · intro hk
    obtain ⟨q, hq, hqk⟩ := List.mem_map.1 hk
    have := (List.mem_filter.1 hq).2
    simp only [bne_iff_ne, ne_eq] at this
    exact this hqk
  · exact List.Nodup.sublist (List.Sublist.map _ (List.filter_sublist _)) h

theorem groupByLocation_keys_nodup (secrets : List (Str × Str × Str)) :
    ((groupByLocation secrets).map Prod.fst).Nodup := by
  unfold groupByLocation
  induction secrets using List.reverseRecOn with
  | nil => simp
  | append_singleton pre s ih =>
    rw [List.foldl_append, List.foldl_cons, List.foldl_nil]
    exact groupStep_keys_nodup _ s ih

/-- In an association list with distinct keys, an entry is what `lookup`
finds. -/
theorem mem_iff_lookup {β : Type} (m : List (Str × β)) (hnd : (m.map Prod.fst).Nodup)
    (k : Str) (v : β) : (k, v) ∈ m ↔ m.lookup k = some v := by
  induction m with
  | nil => simp
  | cons q qs ih =>
    obtain ⟨a, b⟩ := q
    simp only [List.map_cons, List.nodup_cons] at hnd
    by_cases ha : k = a
    · subst ha
      simp only [List.mem_cons, Prod.mk.injEq, true_and, List.lookup_cons, beq_self_eq_true,
        Option.some.injEq]
      constructor
      · rintro (h | h)
        · exact h.symm
        · exact absurd (List.mem_map.2 ⟨(k, v), h, rfl⟩) hnd.1
      · intro h
        exact Or.inl h.symm
    · have h2 : (k == a) = false := by simp [ha]
      simp only [List.mem_cons, Prod.mk.injEq, ha, false_and, false_or, List.lookup_cons, h2]
      exact ih hnd.2

/-- The groups of `processSecrets`: every entry of a group is one of the secrets
fetched, with that location. -/
theorem groupByLocation_sound (secrets : List (Str × Str × Str)) (L : Str) (inner : GoMap)
    (h : (groupByLocation secrets).lookup L = some inner) :
    inner.keys.Nodup ∧ ∀ k v, inner.lookup k = some v → (k, v, L) ∈ secrets := by
  unfold groupByLocation at h
  induction secrets using List.reverseRecOn generalizing inner with
  | nil => cases h
  | append_singleton pre s ih =>
    rw [List.foldl_append, List.foldl_cons, List.foldl_nil, lookup_groupStep] at h
    split_ifs at h with hL
    · simp only [Option.some.injEq] at h
      subst h
      have hold : (((List.foldl groupStep [] pre).lookup s.2.2).getD []).keys.Nodup ∧
          ∀ k v, (((List.foldl groupStep [] pre).lookup s.2.2).getD []).lookup k = some v →
            (k, v, s.2.2) ∈ pre := by
        cases ho : (List.foldl groupStep [] pre).lookup s.2.2 with
        | none => simp [GoMap.keys]
        | some old =>
          have := ih old (hL ▸ ho)
          rw [← hL]
          simpa using this
      refine ⟨keys_set_nodup _ _ _ hold.1, ?_⟩
      intro k v hkv
      rw [lookup_set] at hkv
      split_ifs at hkv with hk
      · simp only [Option.some.injEq] at hkv
        subst hk hkv
        rw [hL]
        simp
      · rw [hL]
        exact List.mem_append_left _ (hold.2 k v hkv)
    · obtain ⟨a, b⟩ := ih inner h
      exact ⟨a, fun k v hkv => List.mem_append_left _ (b k v hkv)⟩

/-- The groups of `processSecrets`: every secret fetched has an entry for its
key in the group of its location. -/
theorem groupByLocation_complete (secrets : List (Str × Str × Str)) (k v L : Str)
    (h : (k, v, L) ∈ secrets) :
    ∃ inner, (groupByLocation secrets).lookup L = some inner ∧ ∃ v2, inner.lookup k = some v2 := by
  unfold groupByLocation
  induction secrets using List.reverseRecOn with
  | nil => cases h
  | append_singleton pre s ih =>
    rw [List.foldl_append, List.foldl_cons, List.foldl_nil, lookup_groupStep]
    rcases List.mem_append.1 h with hp | hs
    · obtain ⟨inner, hin, v2, hv2⟩ := ih hp
      split_ifs with hL
      · refine ⟨_, rfl, ?_⟩
        rw [lookup_set, ← hL, hin]
        simp only [Option.getD_some]
        split_ifs
        · exact ⟨_, rfl⟩
        · exact ⟨v2, hv2⟩
      · exact ⟨inner, hin, v2, hv2⟩
    · simp only [List.mem_singleton] at hs
      subst hs
      simp only [if_true]
      exact ⟨_, rfl, v, by rw [lookup_set]; simp⟩

theorem mem_writeSecrets (secrets : List (Str × Str × Str)) (w : FileWrite) :
    w ∈ writeSecrets secrets ↔
      ∃ inner, (groupByLocation secrets).lookup w.location = some inner ∧
        w.path = envFilePath w.location ∧
        w.written = inner.map fun kv => envLine kv.1 kv.2 := by
  unfold writeSecrets
  simp only [List.mem_map]
  constructor
  · rintro ⟨⟨L, inner⟩, hmem, rfl⟩
    exact ⟨inner, (mem_iff_lookup _ (groupByLocation_keys_nodup secrets) L inner).1 hmem,
      rfl, rfl⟩
  · rintro ⟨inner, hl, hp, hw⟩
    refine ⟨(w.location, inner),
      (mem_iff_lookup _ (groupByLocation_keys_nodup secrets) _ inner).2 hl, ?_⟩
    cases w
    simp only at hp hw
    simp [hp, hw]

/-- The files `processSecrets` writes for three secrets at two locations. -/
theorem writeSecrets_demo :
    writeSecrets [("A".toList, ['1'], ['.']), ("B".toList, ['2'], ['x']),
      ("C".toList, ['3'], ['.'])] =
      [⟨['.'], "./.env".toList, ["C=3\n".toList, "A=1\n".toList]⟩,
        ⟨['x'], "x/.env".toList, ["B=2\n".toList]⟩] := by
  decide

/-! ## The values the walk stores -/

theorem lastParsed_append_singleton (ps : List (Str × Str × Str)) (q : Str × Str × Str)
    (k : Str) : lastParsed (ps ++ [q]) k = if q.1 = k then some q.2 else lastParsed ps k := by
  unfold lastParsed
  rw [List.reverse_append, List.reverse_singleton, List.singleton_append, List.find?_cons]
  by_cases h : q.1 = k
  · simp [h]
  · have hb : (q.1 == k) = false := by simp [h]
    simp [hb, h]

theorem lastParsed_isSome_iff (ps : List (Str × Str × Str)) (k : Str) :
    (∃ v L, lastParsed ps k = some (v, L)) ↔ k ∈ ps.map fun q => q.1 := by
  induction ps using List.reverseRecOn with
  | nil => simp [lastParsed]
  | append_singleton pre q ih =>
    simp only [lastParsed_append_singleton, List.map_append, List.map_cons, List.map_nil,
      List.mem_append, List.mem_singleton]
    by_cases h : q.1 = k
    · simp only [h, if_true, or_true, iff_true]
      exact ⟨q.2.1, q.2.2, rfl⟩
    · simp only [h, if_false]
      rw [ih]
      constructor
      · exact fun h2 => Or.inl h2
      · rintro (h2 | h2)
        · exact h2
        · exact absurd h2.symm h

theorem lastParsed_mem {ps : List (Str × Str × Str)} {k v L : Str}
    (h : lastParsed ps k = some (v, L)) : (k, v, L) ∈ ps := by
  unfold lastParsed at h
  cases hf : ps.reverse.find? (fun q => q.1 == k) with
  | none => rw [hf] at h; cases h
  | some q =>
    rw [hf] at h
    simp only [Option.map_some', Option.some.injEq] at h
    have hm := List.mem_of_find?_eq_some hf
    have hk := List.find?_some hf
    simp only [beq_iff_eq] at hk
    rw [List.mem_reverse] at hm
    obtain ⟨a, b, c⟩ := q
    simp only at hk
    simp only [Prod.mk.injEq] at h
    rw [← hk, ← h.1, ← h.2]
    exact hm

theorem parsedKeys_eq (files : List EnvFile) :
    parsedKeys files = (parsedPairs files).map fun q => q.1 := by
  unfold parsedKeys parsedPairs
  induction files with
  | nil => rfl
  | cons f rest ih =>
    simp only [List.flatMap_cons, List.map_append, ih]
    congr 1
    rw [List.map_filterMap]
    congr 1
    funext t
    cases pushParseLine t <;> rfl

theorem parsedPairs_cons (file : EnvFile) (rest : List EnvFile) :
    parsedPairs (file :: rest) = parsedPairs [file] ++ parsedPairs rest := by
  simp [parsedPairs]

theorem pushParseLine_key_no_eq {text key value : Str}
    (h : pushParseLine text = some (key, value)) : '=' ∉ key := by
  rw [pushParseLine_eq] at h
  split_ifs at h
  simp only [Option.some.injEq, Prod.mk.injEq] at h
  rw [← h.1]
  exact fun e => definedKey_not_mem text (mem_of_mem_trimSpace e)

theorem mem_parsedPairs_no_eq {files : List EnvFile} {q : Str × Str × Str}
    (h : q ∈ parsedPairs files) : '=' ∉ q.1 := by
  unfold parsedPairs at h
  simp only [List.mem_flatMap, List.mem_filterMap, Option.map_eq_some'] at h
  obtain ⟨f, -, t, -, kv, hkv, rfl⟩ := h
  obtain ⟨k, v⟩ := kv
  exact pushParseLine_key_no_eq hkv

theorem joined_DeleteSecret_subset (st : Store) (k p e : Str) {x : SecretRow}
    (h : x ∈ joinedSecrets (DeleteSecret st k p e) p e) : x ∈ joinedSecrets st p e := by
  unfold DeleteSecret at h
  cases hm : matchingSecretId st k p e with
  | none => rw [hm] at h; exact h
  | some t =>
    rw [hm] at h
    simp only at h
    rw [joinedSecrets_filter] at h
    exact (List.mem_filter.1 h).1

theorem joined_deleteUnused_subset (st : Store) (p e : Str) (lk : List Str) {x : SecretRow}
    (h : x ∈ joinedSecrets (deleteUnusedSecrets st p e lk) p e) : x ∈ joinedSecrets st p e := by
  unfold deleteUnusedSecrets at h
  have key : ∀ (ks : List Str) (st0 : Store),
      x ∈ joinedSecrets (ks.foldl (fun st key =>
        if !lk.contains key then DeleteSecret st key p e else st) st0) p e →
      x ∈ joinedSecrets st0 p e := by
    intro ks
    induction ks with
    | nil => intro st0 h0; exact h0
    | cons key rest ih =>
      intro st0 h0
      rw [List.foldl_cons] at h0
      have h1 := ih _ h0
      split_ifs at h1
      · exact joined_DeleteSecret_subset st0 key p e h1
      · exact h1
  exact key _ st h

theorem definedKey_envLine {k : Str} (v : Str) (h : '=' ∉ k) : definedKey (envLine k v) = k := by
  unfold envLine
  rw [List.append_assoc]
  exact definedKey_append _ h

/-- The run of claim C11 on the demonstration store: after the walk over the
file `A=1`, `B=2 # c`, the pull writes `./.env` with the lines `B=2` and
`A=1`. -/
theorem processSecrets_demo :
    (handleEnvFiles demoStore ['p'] "development".toList demoFiles).toOption.map
        (fun st2 => processSecrets st2 ['p'] "development".toList) =
      some [⟨['.'], "./.env".toList, ["B=2\n".toList, "A=1\n".toList]⟩] := by
  decide

/-! ## Uniqueness of keys along runs -/

theorem newSecretId_gt_seq {st : Store} (h : IdsNeverReused st) :
    st.secretSeq < newSecretId st := by
  unfold newSecretId
  rw [if_pos h.1]
  have := Nat.le_max_left st.secretSeq ((st.secrets.map fun s => s.id).foldr max 0)
  omega

theorem UpdateSecret_seq (st : Store) (k v loc p e : Str) :
    (UpdateSecret st k v loc p e).autoIncrement = st.autoIncrement ∧
    (UpdateSecret st k v loc p e).secretSeq = st.secretSeq := by
  unfold UpdateSecret
  cases matchingSecretId st k p e <;> exact ⟨rfl, rfl⟩

theorem UpdateSecret_neverReused {st : Store} (k v loc p e : Str) (h : IdsNeverReused st) :
    IdsNeverReused (UpdateSecret st k v loc p e) := by
  obtain ⟨h1, h2, h3⟩ := h
  obtain ⟨t1, -, -⟩ := UpdateSecret_tables st k v loc p e
  obtain ⟨a1, a2⟩ := UpdateSecret_seq st k v loc p e
  refine ⟨a1.trans h1, ?_, ?_⟩
  · intro s hs
    rw [a2]
    have : s.id ∈ (UpdateSecret st k v loc p e).secrets.map SecretRow.id :=
      List.mem_map_of_mem SecretRow.id hs
    rw [UpdateSecret_ids] at this
    obtain ⟨y, hy, hyid⟩ := List.mem_map.1 this
    rw [← hyid]
    exact h2 y hy
  · intro l hl
    rw [a2]
    rw [t1] at hl
    exact h3 l hl

theorem UpdateSecret_envKeys {st : Store} (k v loc p e : Str) (h : EnvKeysUnique st) :
    EnvKeysUnique (UpdateSecret st k v loc p e) := by
  unfold UpdateSecret
  cases matchingSecretId st k p e with
  | none => exact h
  | some t =>
    intro l1 hl1 l2 hl2 henv x1 hx1 x2 hx2 hi1 hi2 hk
    simp only [List.mem_map] at hx1 hx2
    obtain ⟨y1, hy1, rfl⟩ := hx1
    obtain ⟨y2, hy2, rfl⟩ := hx2
    have e1 : (if y1.id = t then { y1 with value := v, location := loc } else y1).id = y1.id := by
      split_ifs <;> rfl
    have e2 : (if y2.id = t then { y2 with value := v, location := loc } else y2).id = y2.id := by
      split_ifs <;> rfl
    have k1 : (if y1.id = t then { y1 with value := v, location := loc } else y1).key =
        y1.key := by split_ifs <;> rfl
    have k2 : (if y2.id = t then { y2 with value := v, location := loc } else y2).key =
        y2.key := by split_ifs <;> rfl
    rw [e1] at hi1
    rw [e2] at hi2
    rw [k1, k2] at hk
    rw [h l1 hl1 l2 hl2 henv y1 hy1 y2 hy2 hi1 hi2 hk]

theorem DeleteSecret_neverReused {st : Store} (k p e : Str) (h : IdsNeverReused st) :
    IdsNeverReused (DeleteSecret st k p e) := by
  unfold DeleteSecret
  cases matchingSecretId st k p e with
  | none => exact h
  | some t =>
    obtain ⟨h1, h2, h3⟩ := h
    exact ⟨h1, fun s hs => h2 s (List.mem_filter.1 hs).1, h3⟩

theorem DeleteSecret_envKeys {st : Store} (k p e : Str) (h : EnvKeysUnique st) :
    EnvKeysUnique (DeleteSecret st k p e) := by
  unfold DeleteSecret
  cases matchingSecretId st k p e with
  | none => exact h
  | some t =>
    intro l1 hl1 l2 hl2 henv x1 hx1 x2 hx2 hi1 hi2 hk
    exact h l1 hl1 l2 hl2 henv x1 (List.mem_filter.1 hx1).1 x2 (List.mem_filter.1 hx2).1 hi1 hi2 hk

theorem CreateSecret_neverReused {st st2 : Store} {k v loc p e : Str}
    (hc : CreateSecret st k v loc p e = some st2) (h : IdsNeverReused st) :
    IdsNeverReused st2 := by
  obtain ⟨envId, -, hst⟩ := CreateSecret_eq hc
  have hgt := newSecretId_gt_seq h
  obtain ⟨h1, h2, h3⟩ := h
  rw [hst]
  refine ⟨h1, ?_, ?_⟩
  · intro s hs
    simp only [h1, if_true]
    simp only [List.mem_append, List.mem_singleton] at hs
    rcases hs with hs | hs
    · exact Nat.le_of_lt (Nat.lt_of_le_of_lt (h2 s hs) hgt)
    · rw [hs]
  · intro l hl
    simp only [h1, if_true]
    simp only [List.mem_append, List.mem_singleton] at hl
    rcases hl with hl | hl
    · exact Nat.le_of_lt (Nat.lt_of_le_of_lt (h3 l hl) hgt)
    · rw [hl]

theorem CreateSecret_envKeys {st st2 : Store} {k v loc p e : Str}
    (hc : CreateSecret st k v loc p e = some st2) (hex : ¬ SecretExists st k p e = true)
    (hn : IdsNeverReused st) (h : EnvKeysUnique st) : EnvKeysUnique st2 := by
  obtain ⟨envId, henv, hst⟩ := CreateSecret_eq hc
  have hgt := newSecretId_gt_seq hn
  obtain ⟨-, h2, h3⟩ := hn
  -- a secret of before with the key and a link to the environment would be found
  have hnone : ∀ s ∈ st.secrets, ∀ l ∈ st.environmentSecrets,
      s.id = l.secretId → l.environmentId = envId → s.key ≠ k := by
    intro s hs l hl hid henvl hk
    apply hex
    rw [SecretExists_iff, mem_keys_store]
    obtain ⟨env, henv2, pr, hpr, h3', hidv⟩ := mem_environmentIds.1 henv
    exact ⟨s, hs, hk, l, hl, hid, env, henv2, henvl.trans hidv, pr, hpr, h3'⟩
  rw [hst]
  intro l1 hl1 l2 hl2 henvl x1 hx1 x2 hx2 hi1 hi2 hk
  simp only [List.mem_append, List.mem_singleton] at hl1 hl2 hx1 hx2
  have hold : ∀ x ∈ st.secrets, x.id ≠ newSecretId st := fun x hx e => by
    have := h2 x hx
    omega
  have holdl : ∀ l ∈ st.environmentSecrets, l.secretId ≠ newSecretId st := fun l hl e => by
    have := h3 l hl
    omega
  rcases hx1 with hx1 | hx1 <;> rcases hx2 with hx2 | hx2
  · have hl1' : l1 ∈ st.environmentSecrets := by
      rcases hl1 with hl1 | hl1
      · exact hl1
      · rw [hl1] at hi1
        exact absurd hi1 (hold x1 hx1)
    have hl2' : l2 ∈ st.environmentSecrets := by
      rcases hl2 with hl2 | hl2
      · exact hl2
      · rw [hl2] at hi2
        exact absurd hi2 (hold x2 hx2)
    exact h l1 hl1' l2 hl2' henvl x1 hx1 x2 hx2 hi1 hi2 hk
  · -- `x2` is the new secret, `x1` one of before
    exfalso
    have hl2' : l2 = ⟨envId, newSecretId st⟩ := by
      rcases hl2 with hl2 | hl2
      · rw [hx2] at hi2
        exact absurd hi2.symm (holdl l2 hl2)
      · exact hl2
    have hl1' : l1 ∈ st.environmentSecrets := by
      rcases hl1 with hl1 | hl1
      · exact hl1
      · rw [hl1] at hi1
        exact absurd hi1 (hold x1 hx1)
    rw [hl2'] at henvl
    rw [hx2] at hk
    exact hnone x1 hx1 l1 hl1' hi1 henvl hk
  · exfalso
    have hl1' : l1 = ⟨envId, newSecretId st⟩ := by
      rcases hl1 with hl1 | hl1
      · rw [hx1] at hi1
        exact absurd hi1.symm (holdl l1 hl1)
      · exact hl1
    have hl2' : l2 ∈ st.environmentSecrets := by
      rcases hl2 with hl2 | hl2
      · exact hl2
      · rw [hl2] at hi2
        exact absurd hi2 (hold x2 hx2)
    rw [hl1'] at henvl
    rw [hx1] at hk
    exact hnone x2 hx2 l2 hl2' hi2 henvl.symm hk.symm
  · rw [hx1, hx2]

theorem pushLines_good (p e dir : Str) (lines : List Str) (st : Store) (lk : List Str)
    (hn : IdsNeverReused st) (h : EnvKeysUnique st) :
    match pushLines p e dir lines (st, lk) with
    | .ok r => IdsNeverReused r.1 ∧ EnvKeysUnique r.1
    | .error st2 => IdsNeverReused st2 ∧ EnvKeysUnique st2 := by
  induction lines generalizing st lk with
  | nil => exact ⟨hn, h⟩
  | cons text rest ih =>
    unfold pushLines
    cases hp : pushParseLine text with
    | none => exact ih st lk hn h
    | some kv =>
      obtain ⟨key, value⟩ := kv
      simp only
      by_cases hex : SecretExists st key p e = true
      · rw [if_pos hex]
        exact ih _ _ (UpdateSecret_neverReused _ _ _ _ _ hn) (UpdateSecret_envKeys _ _ _ _ _ h)
      · rw [if_neg hex]
        cases hc : CreateSecret st key value dir p e with
        | none => exact ⟨hn, h⟩
        | some st3 =>
          exact ih _ _ (CreateSecret_neverReused hc hn) (CreateSecret_envKeys hc hex hn h)

theorem pushFile_good (p e : Str) (file : EnvFile) (st : Store) (lk : List Str)
    (hn : IdsNeverReused st) (h : EnvKeysUnique st) :
    match pushFile p e file (st, lk) with
    | .ok r => IdsNeverReused r.1 ∧ EnvKeysUnique r.1
    | .error st2 => IdsNeverReused st2 ∧ EnvKeysUnique st2 := by
  have hl := pushLines_good p e file.relativePath (scan (scanPieces file.content)).1 st lk hn h
  unfold pushFile
  simp only
  cases hr : pushLines p e file.relativePath (scan (scanPieces file.content)).1 (st, lk) with
  | error x =>
    rw [hr] at hl
    exact hl
  | ok acc =>
    rw [hr] at hl
    simp only
    split_ifs
    · exact hl
    · exact hl

theorem pushFiles_good (p e : Str) (files : List EnvFile) (st : Store) (lk : List Str)
    (hn : IdsNeverReused st) (h : EnvKeysUnique st) :
    match pushFiles p e files (st, lk) with
    | .ok r => IdsNeverReused r.1 ∧ EnvKeysUnique r.1
    | .error st2 => IdsNeverReused st2 ∧ EnvKeysUnique st2 := by
  induction files generalizing st lk with
  | nil => exact ⟨hn, h⟩
  | cons file rest ih =>
    have hf := pushFile_good p e file st lk hn h
    unfold pushFiles
    cases hr : pushFile p e file (st, lk) with
    | error x =>
      rw [hr] at hf
      exact hf
    | ok acc =>
      rw [hr] at hf
      obtain ⟨st3, lk3⟩ := acc
      exact ih st3 lk3 hf.1 hf.2

theorem deleteUnusedSecrets_good (st : Store) (p e : Str) (lk : List Str)
    (hn : IdsNeverReused st) (h : EnvKeysUnique st) :
    IdsNeverReused (deleteUnusedSecrets st p e lk) ∧
      EnvKeysUnique (deleteUnusedSecrets st p e lk) := by
  unfold deleteUnusedSecrets
  have key : ∀ (ks : List Str) (st0 : Store), IdsNeverReused st0 → EnvKeysUnique st0 →
      IdsNeverReused (ks.foldl (fun st key =>
        if !lk.contains key then DeleteSecret st key p e else st) st0) ∧
      EnvKeysUnique (ks.foldl (fun st key =>
        if !lk.contains key then DeleteSecret st key p e else st) st0) := by
    intro ks
    induction ks with
    | nil => intro st0 a b; exact ⟨a, b⟩
    | cons key rest ih =>
      intro st0 a b
      rw [List.foldl_cons]
      split_ifs
      · exact ih _ (DeleteSecret_neverReused key p e a) (DeleteSecret_envKeys key p e b)
      · exact ih _ a b
  exact key _ st hn h

theorem runShare_good (st : Store) (run : Run) (hn : IdsNeverReused st) (h : EnvKeysUnique st) :
    IdsNeverReused (runShare st run) ∧ EnvKeysUnique (runShare st run) := by
  cases run with
  | single p e pair =>
    show IdsNeverReused (handleSingleSecret st p e pair).store ∧
      EnvKeysUnique (handleSingleSecret st p e pair).store
    rcases handleSingleSecret_cases st p e pair with ⟨hst, -⟩ | ⟨hex, hst, -⟩ | ⟨hex, hc, -⟩
    · rw [hst]
      exact ⟨hn, h⟩
    · rw [hst]
      exact ⟨UpdateSecret_neverReused _ _ _ _ _ hn, UpdateSecret_envKeys _ _ _ _ _ h⟩
    · exact ⟨CreateSecret_neverReused hc hn,
        CreateSecret_envKeys hc (by rw [hex]; simp) hn h⟩
  | walk p e files =>
    show IdsNeverReused (match handleEnvFiles st p e files with
        | .ok st2 => st2
        | .error st2 => st2) ∧
      EnvKeysUnique (match handleEnvFiles st p e files with
        | .ok st2 => st2
        | .error st2 => st2)
    have hp := pushFiles_good p e files st [] hn h
    unfold handleEnvFiles
    cases hr : pushFiles p e files (st, []) with
    | error x =>
      rw [hr] at hp
      exact hp
    | ok acc =>
      rw [hr] at hp
      obtain ⟨st3, lk3⟩ := acc
      exact deleteUnusedSecrets_good st3 p e lk3 hp.1 hp.2

theorem runShares_good (runs : List Run) (st : Store) (hn : IdsNeverReused st)
    (h : EnvKeysUnique st) :
    IdsNeverReused (runShares st runs) ∧ EnvKeysUnique (runShares st runs) := by
  unfold runShares
  induction runs generalizing st with
  | nil => exact ⟨hn, h⟩
  | cons run rest ih =>
    obtain ⟨a, b⟩ := runShare_good st run hn h
    exact ih _ a b

/-- When the pair names one environment, uniqueness by environment is
uniqueness by pair. -/
theorem keysUnique_of_envKeysUnique {st : Store} {p e : Str} (h : EnvKeysUnique st)
    (hone : ∀ i ∈ environmentIds st p e, ∀ j ∈ environmentIds st p e, i = j) :
    KeysUnique st p e := by
  intro s1 hs1 s2 hs2 hk
  obtain ⟨hm1, l1, hl1, hi1, env1, henv1, he1, pr1, hpr1, hc1⟩ := mem_joinedSecrets.1 hs1
  obtain ⟨hm2, l2, hl2, hi2, env2, henv2, he2, pr2, hpr2, hc2⟩ := mem_joinedSecrets.1 hs2
  have m1 : env1.id ∈ environmentIds st p e :=
    mem_environmentIds.2 ⟨env1, henv1, pr1, hpr1, hc1, rfl⟩
  have m2 : env2.id ∈ environmentIds st p e :=
    mem_environmentIds.2 ⟨env2, henv2, pr2, hpr2, hc2, rfl⟩
  have henv : l1.environmentId = l2.environmentId := by
    rw [he1, he2]
    exact hone _ m1 _ m2
  exact h l1 hl1 l2 hl2 henv s1 hm1 s2 hm2 hi1 hi2 hk

/-- Claim C15 as stated fails when the ids of `secrets` are not `AUTOINCREMENT`.
From a store with one project, its three environments and no secret, the four
runs `A=1` to development, `Z=1` to development, a walk for development over a
file that holds only `A=1`, and `A=9` to staging leave two secrets with the key
`A` linked to the development environment: the walk deletes `Z` and leaves its
link row, and the secret created for staging receives the id of `Z`. -/
theorem C15_counterexample :
    EnvKeysUnique emptyStore ∧
    ¬ EnvKeysUnique (runShares emptyStore demoRuns) ∧
    (runShares emptyStore demoRuns).secrets =
      [⟨1, ['A'], ['1'], ['.'], 1⟩, ⟨2, ['A'], ['9'], ['.'], 1⟩] ∧
    (runShares emptyStore demoRuns).environmentSecrets = [⟨1, 1⟩, ⟨1, 2⟩, ⟨2, 2⟩] ∧
    GetSecrets (runShares emptyStore demoRuns) ['p'] "development".toList =
      [(['A'], ['1'], ['.']), (['A'], ['9'], ['.'])] := by
  decide

/-- Claim C15, amended. When the ids of `secrets` are never given twice
(`AUTOINCREMENT`, with a sequence at least every id in use and every id a link
row names), every sequence of `handleSingleSecret` and `handleEnvFiles` runs,
whether they end with an error or not, started from a store with no two secrets
linked to the same environment under the same key, leaves such a store, in which
ids are still never given twice; and no pair of a project name and an
environment type that names one environment has two secrets of the same key. -/
theorem C15_unique_keys (st : Store) (runs : List Run) (hn : IdsNeverReused st)
    (h : EnvKeysUnique st) :
    EnvKeysUnique (runShares st runs) ∧ IdsNeverReused (runShares st runs) ∧
    ∀ p e, (∀ i ∈ environmentIds (runShares st runs) p e,
        ∀ j ∈ environmentIds (runShares st runs) p e, i = j) →
      KeysUnique (runShares st runs) p e := by
  obtain ⟨a, b⟩ := runShares_good runs st hn h
  exact ⟨b, a, fun p e hone => keysUnique_of_envKeysUnique b hone⟩

theorem C15_unique_keys_witness :
    IdsNeverReused emptyStoreAuto ∧ EnvKeysUnique emptyStoreAuto ∧
    (EnvKeysUnique (runShares emptyStoreAuto demoRuns) ∧
      IdsNeverReused (runShares emptyStoreAuto demoRuns) ∧
      ∀ p e, (∀ i ∈ environmentIds (runShares emptyStoreAuto demoRuns) p e,
          ∀ j ∈ environmentIds (runShares emptyStoreAuto demoRuns) p e, i = j) →
        KeysUnique (runShares emptyStoreAuto demoRuns) p e) :=
  ⟨by decide, by decide, C15_unique_keys emptyStoreAuto demoRuns (by decide) (by decide)⟩

/-- The runs of claim C15 with `AUTOINCREMENT` ids: the secret created for
staging receives a new id, and development keeps one secret with the key `A`. -/
theorem runShares_demo :
    (runShares emptyStoreAuto demoRuns).secrets =
      [⟨1, ['A'], ['1'], ['.'], 1⟩, ⟨3, ['A'], ['9'], ['.'], 1⟩] ∧
    GetSecrets (runShares emptyStoreAuto demoRuns) ['p'] "development".toList =
      [(['A'], ['1'], ['.'])] := by
  decide

/-! ## The rows listed for a pair after `UpdateSecret` and `CreateSecret` -/

theorem secretRows_map (st st2 : Store) (p e : Str) (f : SecretRow → SecretRow) (s : SecretRow)
    (h1 : st2.environmentSecrets = st.environmentSecrets)
    (h2 : st2.environments = st.environments) (h3 : st2.projects = st.projects)
    (hid : (f s).id = s.id) :
    secretRows st2 p e (f s) = (secretRows st p e s).map f := by
  unfold secretRows
  rw [h1, h2, h3, hid]
  simp only [List.map_flatMap, apply_ite (List.map f), List.map_cons, List.map_nil]

/-- The rows of the join after an update of value and location by id, in
order. -/
theorem joinedSecrets_update (st : Store) (t : Nat) (v loc : Str) (p e : Str) :
    joinedSecrets { st with secrets := st.secrets.map fun s =>
        if s.id = t then { s with value := v, location := loc } else s } p e =
      (joinedSecrets st p e).map fun s =>
        if s.id = t then { s with value := v, location := loc } else s := by
  unfold joinedSecrets
  dsimp only
  rw [List.flatMap_map, List.map_flatMap]
  apply List.flatMap_congr
  intro s _
  exact secretRows_map st _ p e
    (fun s => if s.id = t then { s with value := v, location := loc } else s) s rfl rfl rfl
    (by dsimp only; split_ifs <;> rfl)

theorem newLink_rows_project (projects : List ProjectRow) (p e : Str) (env : EnvironmentRow)
    (s : SecretRow) :
    (projects.flatMap fun pr =>
      if env.projectId = pr.id ∧ pr.name = p ∧ env.environmentType = e then [s] else []) =
    List.replicate
      ((projects.flatMap fun pr =>
        if env.projectId = pr.id ∧ pr.name = p ∧ env.environmentType = e
        then [env.id] else []).count env.id) s := by
  induction projects with
  | nil => rfl
  | cons pr prs ihp =>
    simp only [List.flatMap_cons, List.count_append, List.replicate_add, ihp]
    congr 1
    split_ifs
    · simp
    · rfl

/-- The rows the new link row gives the new secret: one per occurrence of the
environment id among the environments of the pair. -/
theorem newLink_rows (environments : List EnvironmentRow) (projects : List ProjectRow)
    (p e : Str) (envId : Nat) (s : SecretRow) :
    (environments.flatMap fun env =>
      if envId = env.id then
        projects.flatMap fun pr =>
          if env.projectId = pr.id ∧ pr.name = p ∧ env.environmentType = e then [s] else []
      else []) =
    List.replicate
      ((environments.flatMap fun env =>
        projects.flatMap fun pr =>
          if env.projectId = pr.id ∧ pr.name = p ∧ env.environmentType = e
          then [env.id] else []).count envId) s := by
  induction environments with
  | nil => rfl
  | cons env rest ih =>
    simp only [List.flatMap_cons, List.count_append, List.replicate_add, ih]
    congr 1
    by_cases hen : envId = env.id
    · rw [if_pos hen, hen]
      exact newLink_rows_project projects p e env s
    · rw [if_neg hen]
      have : (projects.flatMap fun pr =>
          if env.projectId = pr.id ∧ pr.name = p ∧ env.environmentType = e
          then [env.id] else []).count envId = 0 := by
        rw [List.count_eq_zero]
        intro hm
        simp only [List.mem_flatMap] at hm
        obtain ⟨pr, -, hpr⟩ := hm
        split_ifs at hpr
        · simp only [List.mem_singleton] at hpr
          exact hen hpr
        · cases hpr
      rw [this]
      rfl

/-- The rows of the join after `CreateSecret`, in order, when no link row names
the new id and the environment of the new link row is listed once for the
pair: those of before and then the new secret, once. -/
theorem joinedSecrets_create {st : Store} {envId : Nat} (k v loc : Str) {p e : Str}
    (hcount : (environmentIds st p e).count envId = 1)
    (hfresh : ∀ l ∈ st.environmentSecrets, l.secretId ≠ newSecretId st) :
    joinedSecrets { st with
        secrets := st.secrets ++ [⟨newSecretId st, k, v, loc, 1⟩]
        environmentSecrets := st.environmentSecrets ++ [⟨envId, newSecretId st⟩]
        secretSeq := if st.autoIncrement then newSecretId st else st.secretSeq } p e =
      joinedSecrets st p e ++ [⟨newSecretId st, k, v, loc, 1⟩] := by
  unfold joinedSecrets
  dsimp only
  rw [List.flatMap_append]
  congr 1
  · apply List.flatMap_congr
    intro s hs
    unfold secretRows
    dsimp only
    rw [List.flatMap_append, List.flatMap_cons, List.flatMap_nil, List.append_nil,
      if_neg (id_ne_newSecretId hs), List.append_nil]
  · rw [List.flatMap_cons, List.flatMap_nil, List.append_nil]
    unfold secretRows
    dsimp only
    rw [List.flatMap_append, List.flatMap_cons, List.flatMap_nil, List.append_nil]
    have hold : (st.environmentSecrets.flatMap fun es =>
        if newSecretId st = es.secretId then
          st.environments.flatMap fun env =>
            if es.environmentId = env.id then
              st.projects.flatMap fun pr =>
                if env.projectId = pr.id ∧ pr.name = p ∧ env.environmentType = e then
                  [(⟨newSecretId st, k, v, loc, 1⟩ : SecretRow)] else []
            else []
        else []) = [] := by
      rw [List.flatMap_eq_nil_iff]
      intro l hl
      rw [if_neg (fun h => hfresh l hl h.symm)]
    rw [hold, List.nil_append, if_pos rfl, newLink_rows]
    unfold environmentIds at hcount
    rw [hcount]
    rfl

theorem GetSecrets_filter_key (st : Store) (p e k : Str) :
    ((GetSecrets st p e).filter fun r => r.1 = k) =
      ((joinedSecrets st p e).filter fun s => s.key = k).map
        fun s => (s.key, s.value, s.location) := by
  unfold GetSecrets
  rw [List.filter_map]
  rfl

theorem GetSecrets_filter_other (st : Store) (p e k : Str) :
    ((GetSecrets st p e).filter fun r => r.1 ≠ k) =
      ((joinedSecrets st p e).filter fun s => s.key ≠ k).map
        fun s => (s.key, s.value, s.location) := by
  unfold GetSecrets
  rw [List.filter_map]
  rfl

/-- A list with at most one row of a key, and a row of that key in it. -/
theorem filter_key_singleton {l : List SecretRow} {s0 : SecretRow} {k : Str} (hs : s0 ∈ l)
    (hk : s0.key = k) (h : (l.filter fun s => s.key = k).length ≤ 1) :
    (l.filter fun s => s.key = k) = [s0] := by
  have hm : s0 ∈ l.filter fun s => s.key = k := by
    simp [List.mem_filter, hs, hk]
  match hl : (l.filter fun s => s.key = k) with
  | [] => rw [hl] at hm; cases hm
  | [a] =>
    rw [hl] at hm
    simp only [List.mem_singleton] at hm
    rw [hm]
    exact hl
  | a :: b :: rest =>
    rw [hl] at h
    simp only [List.length_cons] at h
    omega

/-! ## When the hypotheses on ids hold -/

/-- No link row names the id of the next secret when every link row names a
secret of the store. -/
theorem newSecretId_not_linked_of_named {st : Store}
    (h : ∀ l ∈ st.environmentSecrets, ∃ s ∈ st.secrets, s.id = l.secretId) :
    ∀ l ∈ st.environmentSecrets, l.secretId ≠ newSecretId st := by
  intro l hl heq
  obtain ⟨s, hs, hid⟩ := h l hl
  exact id_ne_newSecretId hs (hid.trans heq)

/-- No link row names the id of the next secret when ids are never given
twice. -/
theorem newSecretId_not_linked_of_neverReused {st : Store} (h : IdsNeverReused st) :
    ∀ l ∈ st.environmentSecrets, l.secretId ≠ newSecretId st := by
  intro l hl heq
  have h1 := h.2.2 l hl
  have h2 := newSecretId_gt_seq h
  omega

theorem projectRows_nodup (projects : List ProjectRow) (p e : Str) (env : EnvironmentRow)
    (hp : (projects.map ProjectRow.id).Nodup) :
    (projects.flatMap fun pr =>
      if env.projectId = pr.id ∧ pr.name = p ∧ env.environmentType = e
      then [env.id] else []).Nodup := by
  induction projects with
  | nil => simp
  | cons pr prs ih =>
    simp only [List.map_cons, List.nodup_cons] at hp
    rw [List.flatMap_cons]
    by_cases hc : env.projectId = pr.id ∧ pr.name = p ∧ env.environmentType = e
    · rw [if_pos hc]
      have hnil : (prs.flatMap fun pr =>
          if env.projectId = pr.id ∧ pr.name = p ∧ env.environmentType = e
          then [env.id] else []) = [] := by
        rw [List.flatMap_eq_nil_iff]
        intro pr2 hpr2
        rw [if_neg]
        rintro ⟨hid, -⟩
        exact hp.1 (List.mem_map.2 ⟨pr2, hpr2, hid.symm.trans hc.1⟩)
      rw [hnil]
      simp
    · rw [if_neg hc, List.nil_append]
      exact ih hp.2

/-- The query for the environment of a pair gives no id twice when the ids of
`projects` and of `environments` are primary keys. -/
theorem environmentIds_nodup (st : Store) (p e : Str)
    (hp : (st.projects.map ProjectRow.id).Nodup)
    (he : (st.environments.map EnvironmentRow.id).Nodup) :
    (environmentIds st p e).Nodup := by
  unfold environmentIds
  revert he
  generalize st.environments = envs
  intro he
  induction envs with
  | nil => simp
  | cons env rest ih =>
    simp only [List.map_cons, List.nodup_cons] at he
    rw [List.flatMap_cons, List.nodup_append]
    refine ⟨projectRows_nodup st.projects p e env hp, ih he.2, ?_⟩
    intro i hi hi2
    simp only [List.mem_flatMap] at hi hi2
    obtain ⟨pr, -, hpr⟩ := hi
    obtain ⟨env2, henv2, pr2, -, hpr2⟩ := hi2
    split_ifs at hpr
    · split_ifs at hpr2
      · simp only [List.mem_singleton] at hpr hpr2
        exact he.1 (List.mem_map.2 ⟨env2, henv2, hpr2.symm.trans hpr⟩)
      · cases hpr2
    · cases hpr

/-! ## The single pair: what the pair lists afterwards -/

/-- The scenario of claim C12: from a store with no secret and no link row,
sharing `FOO=bar` and then `FOO=baz` leaves one row for the pair, `FOO` with the
value `baz` at the location `.`. -/
theorem handleSingleSecret_scenario :
    emptyStore.secrets = [] ∧ emptyStore.environmentSecrets = [] ∧
    GetSecrets fooBarStore ['p'] "development".toList =
      [("FOO".toList, "bar".toList, ['.'])] ∧
    GetSecrets (handleSingleSecret fooBarStore ['p'] "development".toList
      "FOO=baz".toList).store ['p'] "development".toList =
      [("FOO".toList, "baz".toList, ['.'])] := by
  decide

/-! ## The values the walk stores, for the keys it parses -/

theorem update_step_on {st : Store} {p e : Str} {ps : List (Str × Str × Str)} (keys : List Str)
    (key value dir : Str) (hu : SecretIdsUnique st) (huniq : KeysUniqueOn st p e keys)
    (hval : StoresLast st p e ps) (hex : SecretExists st key p e = true) :
    SecretIdsUnique (UpdateSecret st key value dir p e) ∧
    KeysUniqueOn (UpdateSecret st key value dir p e) p e keys ∧
    StoresLast (UpdateSecret st key value dir p e) p e (ps ++ [(key, value, dir)]) := by
  refine ⟨UpdateSecret_unique _ _ _ _ _ hu, ?_, ?_⟩
  · obtain ⟨s0, hs0, hk0, hup⟩ := UpdateSecret_eq value dir hex
    rw [hup]
    intro x1 hx1 x2 hx2 hk hmem
    obtain ⟨y1, hy1, rfl⟩ := (mem_joined_update s0.id _ _ _ _ x1).1 hx1
    obtain ⟨y2, hy2, rfl⟩ := (mem_joined_update s0.id _ _ _ _ x2).1 hx2
    have h1 : (if y1.id = s0.id then { y1 with value := value, location := dir }
        else y1).key = y1.key := by split_ifs <;> rfl
    have h2 : (if y2.id = s0.id then { y2 with value := value, location := dir }
        else y2).key = y2.key := by split_ifs <;> rfl
    have hyk : y1.key = y2.key := by
      rw [← h1, ← h2]
      exact hk
    rw [h1] at hmem
    rw [huniq y1 hy1 y2 hy2 hyk hmem]
  · obtain ⟨s0, hs0, hk0, hup⟩ := UpdateSecret_eq value dir hex
    rw [hup]
    intro k v L hl
    rw [lastParsed_append_singleton] at hl
    split_ifs at hl with hk
    · simp only [Option.some.injEq, Prod.mk.injEq] at hl
      simp only at hk
      refine ⟨{ s0 with value := value, location := dir },
        (mem_joined_update s0.id _ _ _ _ _).2 ⟨s0, hs0, by simp⟩, ?_, hl.1, hl.2⟩
      rw [← hk]
      exact hk0
    · obtain ⟨s, hs, hsk, hsv, hsl⟩ := hval k v L hl
      have hne : s.id ≠ s0.id := by
        intro hid
        have := List.inj_on_of_nodup_map hu (mem_joinedSecrets.1 hs).1
          (mem_joinedSecrets.1 hs0).1 hid
        subst this
        exact hk (hk0.symm.trans hsk)
      exact ⟨s, (mem_joined_update s0.id _ _ _ _ _).2 ⟨s, hs, by simp [hne]⟩, hsk, hsv, hsl⟩

theorem create_step_on {st st2 : Store} {p e : Str} {ps : List (Str × Str × Str)}
    (keys : List Str) {key value dir : Str} (hu : SecretIdsUnique st)
    (huniq : KeysUniqueOn st p e keys) (hval : StoresLast st p e ps)
    (hex : ¬ SecretExists st key p e = true)
    (hc : CreateSecret st key value dir p e = some st2) :
    SecretIdsUnique st2 ∧ KeysUniqueOn st2 p e keys ∧
      StoresLast st2 p e (ps ++ [(key, value, dir)]) := by
  refine ⟨CreateSecret_unique hc hu, ?_, ?_⟩
  · obtain ⟨envId, henv, hst⟩ := CreateSecret_eq hc
    rw [hst]
    have hnew : ∀ x ∈ joinedSecrets st p e, x.key ≠ key := by
      intro x hx hxk
      exact hex (SecretExists_iff.2 (List.mem_map.2 ⟨x, hx, hxk⟩))
    intro x1 hx1 x2 hx2 hk hmem
    rcases (mem_joined_create _ _ _ henv x1).1 hx1 with h1 | h1 <;>
      rcases (mem_joined_create _ _ _ henv x2).1 hx2 with h2 | h2
    · exact huniq x1 h1 x2 h2 hk hmem
    · subst h2
      exact absurd hk (hnew x1 h1)
    · subst h1
      exact absurd hk.symm (hnew x2 h2)
    · rw [h1, h2]
  · obtain ⟨envId, henv, hst⟩ := CreateSecret_eq hc
    rw [hst]
    intro k v L hl
    rw [lastParsed_append_singleton] at hl
    split_ifs at hl with hk
    · simp only [Option.some.injEq, Prod.mk.injEq] at hl
      simp only at hk
      exact ⟨⟨newSecretId st, key, value, dir, 1⟩, (mem_joined_create _ _ _ henv _).2 (Or.inr rfl),
        hk, hl.1, hl.2⟩
    · obtain ⟨s, hs, hsk, hsv, hsl⟩ := hval k v L hl
      exact ⟨s, (mem_joined_create _ _ _ henv _).2 (Or.inl hs), hsk, hsv, hsl⟩

theorem pushLines_val_on (p e dir : Str) (keys : List Str) (lines : List Str) (st : Store)
    (lk : List Str) (ps : List (Str × Str × Str)) (st2 : Store) (lk2 : List Str)
    (h : pushLines p e dir lines (st, lk) = .ok (st2, lk2))
    (hu : SecretIdsUnique st) (huniq : KeysUniqueOn st p e keys) (hval : StoresLast st p e ps) :
    KeysUniqueOn st2 p e keys ∧
      StoresLast st2 p e (ps ++ lines.filterMap fun t =>
        (pushParseLine t).map fun kv => (kv.1, kv.2, dir)) := by
  induction lines generalizing st lk ps with
  | nil =>
    simp only [pushLines, Except.ok.injEq, Prod.mk.injEq] at h
    obtain ⟨rfl, rfl⟩ := h
    simpa using ⟨huniq, hval⟩
  | cons text rest ih =>
    unfold pushLines at h
    cases hp : pushParseLine text with
    | none =>
      rw [hp] at h
      have := ih st lk ps h hu huniq hval
      rw [List.filterMap_cons, hp]
      exact this
    | some kv =>
      obtain ⟨key, value⟩ := kv
      rw [hp] at h
      simp only at h
      have hcons : (ps ++ (text :: rest).filterMap fun t =>
          (pushParseLine t).map fun kv => (kv.1, kv.2, dir)) =
          (ps ++ [(key, value, dir)]) ++ rest.filterMap fun t =>
            (pushParseLine t).map fun kv => (kv.1, kv.2, dir) := by
        rw [List.filterMap_cons, hp]
        simp
      rw [hcons]
      by_cases hex : SecretExists st key p e = true
      · rw [if_pos hex] at h
        obtain ⟨a, b, c⟩ := update_step_on keys key value dir hu huniq hval hex
        exact ih _ _ _ h a b c
      · rw [if_neg hex] at h
        cases hc : CreateSecret st key value dir p e with
        | none => rw [hc] at h; cases h
        | some st3 =>
          rw [hc] at h
          simp only at h
          obtain ⟨a, b, c⟩ := create_step_on keys hu huniq hval hex hc
          exact ih _ _ _ h a b c

theorem pushFiles_val_on (p e : Str) (keys : List Str) (files : List EnvFile) (st : Store)
    (lk : List Str) (ps : List (Str × Str × Str)) (st2 : Store) (lk2 : List Str)
    (h : pushFiles p e files (st, lk) = .ok (st2, lk2))
    (hu : SecretIdsUnique st) (hlk : ∀ k ∈ lk, k ∈ GetAllSecretsKeys st p e)
    (huniq : KeysUniqueOn st p e keys) (hval : StoresLast st p e ps) :
    KeysUniqueOn st2 p e keys ∧ StoresLast st2 p e (ps ++ parsedPairs files) := by
  induction files generalizing st lk ps with
  | nil =>
    simp only [pushFiles, Except.ok.injEq, Prod.mk.injEq] at h
    obtain ⟨rfl, rfl⟩ := h
    simpa [parsedPairs] using ⟨huniq, hval⟩
  | cons file rest ih =>
    unfold pushFiles at h
    cases hf : pushFile p e file (st, lk) with
    | error x => rw [hf] at h; cases h
    | ok acc =>
      obtain ⟨st3, lk3⟩ := acc
      rw [hf] at h
      simp only at h
      obtain ⟨a, b, -⟩ := pushFile_inv p e file st lk st3 lk3 hf hu hlk
      have hv : KeysUniqueOn st3 p e keys ∧ StoresLast st3 p e (ps ++ parsedPairs [file]) := by
        unfold pushFile at hf
        simp only at hf
        cases hl : pushLines p e file.relativePath (scan (scanPieces file.content)).1
            (st, lk) with
        | error x => rw [hl] at hf; cases hf
        | ok acc2 =>
          obtain ⟨st4, lk4⟩ := acc2
          rw [hl] at hf
          simp only at hf
          split_ifs at hf
          simp only [Except.ok.injEq, Prod.mk.injEq] at hf
          obtain ⟨rfl, rfl⟩ := hf
          have := pushLines_val_on p e _ keys _ st lk ps _ _ hl hu huniq hval
          simpa [parsedPairs] using this
      have := ih st3 lk3 (ps ++ parsedPairs [file]) h a b hv.1 hv.2
      rw [parsedPairs_cons, ← List.append_assoc]
      exact this

/-- After the deletion pass the secrets of the pair are those of before whose
key is local. -/
theorem mem_joined_deleteUnused_on (st : Store) (p e : Str) (lk : List Str)
    (hu : SecretIdsUnique st) (huniq : KeysUniqueOn st p e lk) (x : SecretRow) :
    x ∈ joinedSecrets (deleteUnusedSecrets st p e lk) p e ↔
      x ∈ joinedSecrets st p e ∧ x.key ∈ lk := by
  constructor
  · intro h
    refine ⟨joined_deleteUnused_subset st p e lk h, ?_⟩
    have : x.key ∈ GetAllSecretsKeys (deleteUnusedSecrets st p e lk) p e :=
      List.mem_map.2 ⟨x, h, rfl⟩
    exact ((deleteUnusedSecrets_keys st p e lk hu x.key).1 this).1
  · rintro ⟨hx, hk⟩
    have : x.key ∈ GetAllSecretsKeys (deleteUnusedSecrets st p e lk) p e :=
      (deleteUnusedSecrets_keys st p e lk hu x.key).2 ⟨hk, List.mem_map.2 ⟨x, hx, rfl⟩⟩
    obtain ⟨y, hy, hyk⟩ := List.mem_map.1 this
    have hy2 := joined_deleteUnused_subset st p e lk hy
    rw [← huniq y hy2 x hx hyk (hyk ▸ hk)]
    exact hy

/-- A group of `processSecrets` comes from a secret of its location. -/
theorem groupByLocation_location (secrets : List (Str × Str × Str)) (L : Str) (inner : GoMap)
    (h : (groupByLocation secrets).lookup L = some inner) : ∃ s ∈ secrets, s.2.2 = L := by
  unfold groupByLocation at h
  induction secrets using List.reverseRecOn generalizing inner with
  | nil => cases h
  | append_singleton pre s ih =>
    rw [List.foldl_append, List.foldl_cons, List.foldl_nil, lookup_groupStep] at h
    split_ifs at h with hL
    · exact ⟨s, by simp, hL.symm⟩
    · obtain ⟨s2, hs2, hs2l⟩ := ih inner h
      exact ⟨s2, List.mem_append_left _ hs2, hs2l⟩

theorem mem_parsedPairs_file {files : List EnvFile} {q : Str × Str × Str}
    (h : q ∈ parsedPairs files) : ∃ f ∈ files, f.relativePath = q.2.2 := by
  unfold parsedPairs at h
  simp only [List.mem_flatMap, List.mem_filterMap, Option.map_eq_some'] at h
  obtain ⟨f, hf, t, -, kv, -, rfl⟩ := h
  exact ⟨f, hf, rfl⟩

/-- What `processSecrets` writes after a walk that ended without error. -/
theorem processSecrets_after_walk_on (st : Store) (p e : Str) (files : List EnvFile)
    (st2 : Store) (hu : SecretIdsUnique st) (huniq : KeysUniqueOn st p e (parsedKeys files))
    (h : handleEnvFiles st p e files = .ok st2) :
    (∀ k v L, lastParsed (parsedPairs files) k = some (v, L) →
      ∃ w ∈ processSecrets st2 p e, w.location = L ∧ envLine k v ∈ w.written) ∧
    (∀ w ∈ processSecrets st2 p e, ∀ line ∈ w.written,
      ∃ k v, line = envLine k v ∧ lastParsed (parsedPairs files) k = some (v, w.location)) ∧
    ∀ w ∈ processSecrets st2 p e, w.written ≠ [] ∧ (w.written.map definedKey).Nodup := by
  unfold handleEnvFiles at h
  cases hp : pushFiles p e files (st, []) with
  | error x => rw [hp] at h; cases h
  | ok acc =>
    obtain ⟨st3, lk3⟩ := acc
    rw [hp] at h
    simp only [Except.ok.injEq] at h
    subst h
    obtain ⟨hu3, hlk3, hlk⟩ := pushFiles_inv p e files st [] st3 lk3 hp hu (by simp)
    obtain ⟨huniq3, hval3⟩ := pushFiles_val_on p e (parsedKeys files) files st [] [] st3 lk3 hp
      hu (by simp) huniq (by intro k v L hl; simp [lastParsed] at hl)
    rw [List.nil_append] at hval3
    have huniq4 : KeysUniqueOn st3 p e lk3 := by
      intro s1 h1 s2 h2 hk hmem
      refine huniq3 s1 h1 s2 h2 hk ?_
      rcases (hlk s1.key).1 hmem with h0 | h0
      · cases h0
      · exact h0
    have hjoin := mem_joined_deleteUnused_on st3 p e lk3 hu3 huniq4
    have hrows : ∀ k v L, (k, v, L) ∈ GetSecrets (deleteUnusedSecrets st3 p e lk3) p e ↔
        ∃ s ∈ joinedSecrets st3 p e, s.key ∈ lk3 ∧ s.key = k ∧ s.value = v ∧ s.location = L := by
      intro k v L
      unfold GetSecrets
      simp only [List.mem_map, hjoin, Prod.mk.injEq]
      constructor
      · rintro ⟨s, ⟨hs, hk⟩, h1, h2, h3⟩
        exact ⟨s, hs, hk, h1, h2, h3⟩
      · rintro ⟨s, hs, hk, h1, h2, h3⟩
        exact ⟨s, ⟨hs, hk⟩, h1, h2, h3⟩
    have hlocal : ∀ k, k ∈ lk3 ↔ k ∈ (parsedPairs files).map fun q => q.1 := by
      intro k
      rw [hlk k, parsedKeys_eq]
      simp
    have hlines : ∀ w ∈ writeSecrets (GetSecrets (deleteUnusedSecrets st3 p e lk3) p e),
        ∀ inner : GoMap, w.written = inner.map (fun kv => envLine kv.1 kv.2) →
          (groupByLocation (GetSecrets (deleteUnusedSecrets st3 p e lk3) p e)).lookup
            w.location = some inner →
          ∀ kv ∈ inner, lastParsed (parsedPairs files) kv.1 = some (kv.2, w.location) := by
      intro w hw inner hwr hin kv hkv
      obtain ⟨k, v⟩ := kv
      obtain ⟨hnd, hsound⟩ := groupByLocation_sound _ w.location inner hin
      have hrow := hsound k v ((mem_iff_lookup inner hnd k v).1 hkv)
      obtain ⟨s, hs, hkl, hsk, hsv, hsl⟩ := (hrows k v w.location).1 hrow
      have hkl2 : k ∈ lk3 := hsk ▸ hkl
      obtain ⟨v2, L2, hl2⟩ := (lastParsed_isSome_iff _ k).2 ((hlocal k).1 hkl2)
      obtain ⟨s2, hs2, hs2k, hs2v, hs2l⟩ := hval3 k v2 L2 hl2
      have hss : s2 = s := huniq4 s2 hs2 s hs (hs2k.trans hsk.symm) (hs2k ▸ hkl2)
      rw [hl2, ← hs2v, ← hs2l, hss, hsv, hsl]
    unfold processSecrets
    refine ⟨?_, ?_, ?_⟩
    · intro k v L hl
      obtain ⟨s, hs, hsk, hsv, hsl⟩ := hval3 k v L hl
      have hkl : k ∈ lk3 := (hlocal k).2 ((lastParsed_isSome_iff _ k).1 ⟨v, L, hl⟩)
      have hrow : (k, v, L) ∈ GetSecrets (deleteUnusedSecrets st3 p e lk3) p e :=
        (hrows k v L).2 ⟨s, hs, hsk ▸ hkl, hsk, hsv, hsl⟩
      obtain ⟨inner, hin, v2, hv2⟩ := groupByLocation_complete _ k v L hrow
      obtain ⟨hnd, hsound⟩ := groupByLocation_sound _ L inner hin
      obtain ⟨s2, hs2, -, hs2k, hs2v, -⟩ := (hrows k v2 L).1 (hsound k v2 hv2)
      have hss : s2 = s := huniq4 s2 hs2 s hs (hs2k.trans hsk.symm) (hs2k ▸ hkl)
      have hv : v2 = v := by rw [← hs2v, hss, hsv]
      rw [hv] at hv2
      refine ⟨⟨L, envFilePath L, inner.map fun kv => envLine kv.1 kv.2⟩,
        (mem_writeSecrets _ _).2 ⟨inner, hin, rfl, rfl⟩, rfl, ?_⟩
      exact List.mem_map.2 ⟨(k, v), (mem_iff_lookup inner hnd k v).2 hv2, rfl⟩
    · intro w hw line hline
      obtain ⟨inner, hin, -, hwr⟩ := (mem_writeSecrets _ w).1 hw
      rw [hwr] at hline
      obtain ⟨⟨k, v⟩, hkv, rfl⟩ := List.mem_map.1 hline
      exact ⟨k, v, rfl, hlines w hw inner hwr hin (k, v) hkv⟩
    · intro w hw
      obtain ⟨inner, hin, -, hwr⟩ := (mem_writeSecrets _ w).1 hw
      obtain ⟨hnd, hsound⟩ := groupByLocation_sound _ w.location inner hin
      constructor
      · obtain ⟨s, hs, hsl⟩ := groupByLocation_location _ w.location inner hin
        obtain ⟨inner2, hin2, v2, hv2⟩ := groupByLocation_complete _ s.1 s.2.1 s.2.2 hs
        rw [hsl, hin] at hin2
        simp only [Option.some.injEq] at hin2
        subst hin2
        have hm := (mem_iff_lookup inner hnd s.1 v2).2 hv2
        rw [hwr]
        intro hnil
        rw [List.map_eq_nil_iff] at hnil
        rw [hnil] at hm
        cases hm
      · have hmap : w.written.map definedKey = inner.keys := by
          rw [hwr, List.map_map]
          unfold GoMap.keys
          apply List.map_congr_left
          intro kv hkv
          have hl := hlines w hw inner hwr hin kv hkv
          exact definedKey_envLine kv.2 (mem_parsedPairs_no_eq (lastParsed_mem hl))
        rw [hmap]
        exact hnd

/-! ## Push, then pull -/

theorem pushParseLine_key_no_hash {text key value : Str}
    (h : pushParseLine text = some (key, value)) : '#' ∉ key := by
  rw [pushParseLine_eq] at h
  split_ifs at h with hmem
  simp only [Option.some.injEq, Prod.mk.injEq] at h
  rw [← h.1]
  intro e
  have e2 := mem_of_mem_trimSpace e
  obtain ⟨c, hc⟩ := split_at_first hmem
  have ha : '=' ∉ (text.takeWhile (fun c => c != '#')).takeWhile (fun c => c != '=') :=
    not_mem_takeWhile_ne '=' _
  have htext : text = (text.takeWhile (fun c => c != '#')).takeWhile (fun c => c != '=') ++
      '=' :: (c ++ text.dropWhile (fun c => c != '#')) := by
    conv_lhs => rw [← List.takeWhile_append_dropWhile (fun c => c != '#') text, hc]
    simp
  rw [htext, definedKey_append _ ha] at e2
  exact not_mem_takeWhile_ne '#' text ((List.takeWhile_sublist _).subset e2)

/-- The push parser reads the line written for a parsed secret back as the same
key and value. -/
theorem pushParseLine_written {text key value : Str}
    (h : pushParseLine text = some (key, value)) :
    pushParseLine (key ++ '=' :: value) = some (key, value) := by
  have hk1 := pushParseLine_key_no_eq h
  have hk2 := pushParseLine_key_no_hash h
  have h0 := h
  rw [pushParseLine_eq] at h0
  split_ifs at h0 with hmem
  simp only [Option.some.injEq, Prod.mk.injEq] at h0
  have hv2 : '#' ∉ value := by
    rw [← h0.2]
    exact fun e => not_mem_takeWhile_ne '#' _ (mem_of_mem_trimSpace e)
  have hkt : trimSpace key = key := by
    rw [← h0.1]
    exact trimSpace_idem _
  have hvt : trimSpace value = value := by
    rw [← h0.2]
    exact trimSpace_idem _
  have hall : (key ++ '=' :: value).takeWhile (fun c => c != '#') = key ++ '=' :: value := by
    rw [List.takeWhile_eq_self_iff]
    intro c hc
    simp only [List.mem_append, List.mem_cons] at hc
    simp only [bne_iff_ne, ne_eq]
    rintro rfl
    rcases hc with hc | hc | hc
    · exact hk2 hc
    · cases hc
    · exact hv2 hc
  have hvall : value.takeWhile (fun c => c != '#') = value := by
    rw [List.takeWhile_eq_self_iff]
    intro c hc
    simp only [bne_iff_ne, ne_eq]
    rintro rfl
    exact hv2 hc
  rw [pushParseLine_eq, hall, if_pos (by simp), definedKey_append _ hk1,
    valuePart_append _ hk1, hvall, hkt, hvt]

theorem mem_parsedPairs_parse {files : List EnvFile} {q : Str × Str × Str}
    (h : q ∈ parsedPairs files) : ∃ text, pushParseLine text = some (q.1, q.2.1) := by
  unfold parsedPairs at h
  simp only [List.mem_flatMap, List.mem_filterMap, Option.map_eq_some'] at h
  obtain ⟨f, -, t, -, kv, hkv, rfl⟩ := h
  exact ⟨t, hkv⟩

/-- The run of claim C11 on the store that lists the key `A` twice, with the
files of `demoTree`, which do not hold `A`: the walk deletes both secrets `A`,
and the pull writes `./.env` with the line `D=5` and `sub/.env` with the lines
`C=3` and `B=4`, the last occurrence of `B`. -/
theorem processSecrets_demoTree :
    parsedPairs demoTree =
      [("B".toList, ['2'], ['.']), ("D".toList, ['5'], ['.']),
        ("C".toList, ['3'], "sub".toList), ("B".toList, ['4'], "sub".toList)] ∧
    (handleEnvFiles twoKeysStore ['p'] "development".toList demoTree).toOption.map
        (fun st2 => processSecrets st2 ['p'] "development".toList) =
      some [⟨"sub".toList, "sub/.env".toList, ["C=3\n".toList, "B=4\n".toList]⟩,
        ⟨['.'], "./.env".toList, ["D=5\n".toList]⟩] := by
  decide

end SecretBase
